import Mathlib

/-!
Verification of the skeletal-animation core (src/animation-studio) against its
specification.  The timeline engine (`timeline.ts`) is embedded over `ℚ`
(its arithmetic is +, -, *, / and comparisons only); the bone system
(`bones.ts`) is embedded over `ℝ` because it uses `cos`, `sin`, `atan2` and
`hypot`.  JS `Map`s become association lists (insertion order preserved,
`set` on an existing key replaces in place), in-place object mutation becomes
explicit store updates, and the `Date.now()`-based fresh ids become explicit
id arguments (freshness is a hypothesis where it matters).
-/

namespace GS

/-! ## Timeline engine (timeline.ts) -/

/-- `TimelineSystem.applyEasing` (timeline.ts 351-358): a `switch` on the easing
tag whose `default` branch returns `t` unchanged. -/
def applyEasing (t : ℚ) (ty : String) : ℚ :=
  if ty = "easeIn" then t * t
  else if ty = "easeOut" then 1 - (1 - t) * (1 - t)
  else if ty = "easeInOut" then
    (if t < 1/2 then 2 * t * t else 1 - (-2 * t + 2) ^ 2 / 2)
  else t

/-- The sparse `properties` object of a keyframe: the five animatable keys,
each optionally present (timeline.ts 10-16). -/
structure KfProps where
  x : Option ℚ
  y : Option ℚ
  rotation : Option ℚ
  scaleX : Option ℚ
  scaleY : Option ℚ
deriving DecidableEq

/-- The empty properties object `{}`. -/
def emptyProps : KfProps := ⟨none, none, none, none, none⟩

/-- One field of a JS object spread `{...old, ...new}`: the new value wins
when the key is present in `new`. -/
def mergeField (old new : Option ℚ) : Option ℚ :=
  match new with
  | some v => some v
  | none => old

/-- Shallow merge `{...old, ...new}` of two property objects
(timeline.ts 228). -/
def mergeProps (old new : KfProps) : KfProps :=
  ⟨mergeField old.x new.x, mergeField old.y new.y,
   mergeField old.rotation new.rotation,
   mergeField old.scaleX new.scaleX, mergeField old.scaleY new.scaleY⟩

/-- Spreading an optional argument: `{...old, ...undefined} = old`. -/
def mergeOpt (old : KfProps) (new : Option KfProps) : KfProps :=
  match new with
  | some p => mergeProps old p
  | none => old

/-- A keyframe record (timeline.ts 6-18). -/
structure Keyframe where
  id : String
  frame : ℚ
  boneId : String
  properties : KfProps
  easing : String
deriving DecidableEq

/-- A track record (timeline.ts 20-27). -/
structure TrackData where
  id : String
  name : String
  boneId : String
  keyframes : List Keyframe
  isVisible : Bool
  isLocked : Bool
deriving DecidableEq

/-- The `tracks : Map<string, Track>` store, as an insertion-ordered
association list. -/
abbrev Tracks := List (String × TrackData)

/-- `Map.get` on the tracks store. -/
def getTrack (tl : Tracks) (id : String) : Option TrackData :=
  (tl.find? (fun p => p.1 = id)).map (·.2)

/-- In-place mutation of the track object stored under `id`. -/
def updateTrack (tl : Tracks) (id : String) (f : TrackData → TrackData) : Tracks :=
  tl.map (fun p => if p.1 = id then (p.1, f p.2) else p)

/-- `track.keyframes.find(k => k.id === keyframeId)`: first keyframe with the
given id. -/
def findKfIn (kfs : List Keyframe) (id : String) : Option Keyframe :=
  kfs.find? (fun k => k.id = id)

/-- In-place mutation of the first keyframe whose id matches (the object
returned by `find`). -/
def replaceFirstKf (kfs : List Keyframe) (id : String) (f : Keyframe → Keyframe) :
    List Keyframe :=
  match kfs with
  | [] => []
  | k :: rest => if k.id = id then f k :: rest else k :: replaceFirstKf rest id f

/-- `findIndex` + `splice(index, 1)`: remove the first keyframe whose id
matches. -/
def removeFirstKf (kfs : List Keyframe) (id : String) : List Keyframe :=
  match kfs with
  | [] => []
  | k :: rest => if k.id = id then rest else k :: removeFirstKf rest id

/-- The in-place mutation `kf.properties = {...kf.properties, ...properties}`
performed by `updateKeyframe` on the keyframe it found. -/
def mergeIntoKf (props : Option KfProps) (k : Keyframe) : Keyframe :=
  { k with properties := mergeOpt k.properties props }

/-- Loop body of `TimelineSystem.updateKeyframe` (timeline.ts 224-233): walk
the tracks in insertion order, mutate the first keyframe found with the id and
return it; `none` when no track contains the id. -/
def updateKeyframeGo (kfId : String) (props : Option KfProps) :
    Tracks → Option (Tracks × Keyframe)
  | [] => none
  | (tid, tr) :: rest =>
    match findKfIn tr.keyframes kfId with
    | some kf =>
      some ((tid, { tr with
          keyframes := replaceFirstKf tr.keyframes kfId (mergeIntoKf props) }) :: rest,
        mergeIntoKf props kf)
    | none => (updateKeyframeGo kfId props rest).map (fun r => ((tid, tr) :: r.1, r.2))

/-- `TimelineSystem.updateKeyframe` (timeline.ts 224-233): throws
`Keyframe not found` when the loop finds nothing. -/
def updateKeyframe (tl : Tracks) (kfId : String) (props : Option KfProps) :
    Except String (Tracks × Keyframe) :=
  match updateKeyframeGo kfId props tl with
  | some r => .ok r
  | none => .error "Keyframe not found"

/-- Loop body of `TimelineSystem.deleteKeyframe` (timeline.ts 236-245):
`none` when no track contains the id. -/
def deleteKeyframeGo (kfId : String) : Tracks → Option Tracks
  | [] => none
  | (tid, tr) :: rest =>
    if (findKfIn tr.keyframes kfId).isSome then
      some ((tid, { tr with keyframes := removeFirstKf tr.keyframes kfId }) :: rest)
    else (deleteKeyframeGo kfId rest).map (fun r => (tid, tr) :: r)

/-- `TimelineSystem.deleteKeyframe` (timeline.ts 236-245): silently returns
when the id is absent. -/
def deleteKeyframe (tl : Tracks) (kfId : String) : Tracks :=
  (deleteKeyframeGo kfId tl).getD tl

/-- The keyframe object literal built by `addKeyframe` (timeline.ts 203-209):
`properties || {}` and default `linear` easing. -/
def newKf (id : String) (frame : ℚ) (boneId : String) (props : Option KfProps) :
    Keyframe :=
  ⟨id, frame, boneId, props.getD emptyProps, "linear"⟩

/-- `track.keyframes.sort((a, b) => a.frame - b.frame)`: a stable sort
ascending by frame (timeline.ts 212). -/
def sortByFrame (l : List Keyframe) : List Keyframe :=
  l.mergeSort (fun a b => decide (a.frame ≤ b.frame))

/-- `TimelineSystem.addKeyframe` (timeline.ts 193-221).  The generated
`'kf_' + Date.now()` id is passed explicitly as `newId`.  Throws
`Track not found` on an unknown track; merges via `updateKeyframe` when a
keyframe already exists at `frame`; otherwise pushes a new keyframe with
default `linear` easing and re-sorts ascending by frame. -/
def addKeyframe (tl : Tracks) (trackId : String) (frame : ℚ)
    (props : Option KfProps) (newId : String) : Except String (Tracks × Keyframe) :=
  match getTrack tl trackId with
  | none => .error "Track not found"
  | some track =>
    match track.keyframes.find? (fun kf => kf.frame = frame) with
    | some existing => updateKeyframe tl existing.id props
    | none =>
      let keyframe := newKf newId frame track.boneId props
      let tl' := updateTrack tl trackId (fun tr =>
        { tr with keyframes := sortByFrame (tr.keyframes ++ [keyframe]) })
      .ok (tl', keyframe)

/-- Adjacent-pair scan of `interpolateFrame` (timeline.ts 320-326): the first
pair `(kfs[i], kfs[i+1])` with `kfs[i].frame ≤ frame ≤ kfs[i+1].frame`, with
early `break`. -/
def scanPairs : List Keyframe → ℚ → Option (Keyframe × Keyframe)
  | a :: b :: rest, f =>
    if a.frame ≤ f ∧ f ≤ b.frame then some (a, b) else scanPairs (b :: rest) f
  | _, _ => none

/-- Interpolation of one property key (timeline.ts 337-341): only keys present
in `prev` are emitted; `start = prev[key] || 0`, `end = next[key] || 0`
(for a present key, `v || 0` equals `v` numerically). -/
def interpField (p n : Option ℚ) (eased : ℚ) : Option ℚ :=
  match p with
  | none => none
  | some s => some (s + (n.getD 0 - s) * eased)

/-- The interpolated properties record for a bracket `(prev, next)` and eased
progress. -/
def interpProps (p n : KfProps) (eased : ℚ) : KfProps :=
  ⟨interpField p.x n.x eased, interpField p.y n.y eased,
   interpField p.rotation n.rotation eased,
   interpField p.scaleX n.scaleX eased, interpField p.scaleY n.scaleY eased⟩

/-- Per-track body of `TimelineSystem.interpolateFrame` (timeline.ts 312-348):
`none` when the track is skipped (fewer than 2 keyframes, or the resolved
bracket has identical endpoints), otherwise the emitted property set.
The initial bracket is `(first, last)` and the adjacent-pair scan replaces it
when it finds a surrounding pair. -/
def interpolateTrack (kfs : List Keyframe) (f : ℚ) : Option KfProps :=
  match kfs with
  | [] => none
  | [_] => none
  | k0 :: k1 :: rest =>
    let first := k0
    let last := (k1 :: rest).getLast (by simp)
    let bracket := (scanPairs (k0 :: k1 :: rest) f).getD (first, last)
    let prevKf := bracket.1
    let nextKf := bracket.2
    if prevKf = nextKf then none
    else
      let range := nextKf.frame - prevKf.frame
      let progress := (f - prevKf.frame) / range
      let easedProgress := applyEasing progress prevKf.easing
      some (interpProps prevKf.properties nextKf.properties easedProgress)

/-- `TimelineSystem.interpolateFrame` (timeline.ts 312-348): the list of
`boneUpdate` emissions `(boneId, properties)`, one per non-skipped track, in
track insertion order. -/
def interpolateFrame (tl : Tracks) (f : ℚ) : List (String × KfProps) :=
  tl.foldr (fun p acc =>
    match interpolateTrack p.2.keyframes f with
    | some props => (p.2.boneId, props) :: acc
    | none => acc) []

/-- The clamp of `TimelineSystem.goToFrame` (timeline.ts 255):
`Math.max(1, Math.min(totalFrames, frame))`. -/
def goToFrameClamp (totalFrames frame : ℤ) : ℤ := max 1 (min totalFrames frame)

/-- One tick of the `play()` interval callback (timeline.ts 291-297): wrap to
frame 1 once `currentFrame` has reached `totalFrames`, else advance by one;
both through `goToFrame`'s clamp. -/
def playTick (totalFrames current : ℤ) : ℤ :=
  if current ≥ totalFrames then goToFrameClamp totalFrames 1
  else goToFrameClamp totalFrames (current + 1)

/-! ## C10 -/

/-- C10: for every easing tag outside {easeIn, easeOut, easeInOut} — including
unknown or misspelled tags, not only "linear" — `applyEasing t tag = t` for
every `t`: the switch's default branch silently treats any unrecognized tag as
linear. -/
theorem applyEasing_default (t : ℚ) (ty : String)
    (h1 : ty ≠ "easeIn") (h2 : ty ≠ "easeOut") (h3 : ty ≠ "easeInOut") :
    applyEasing t ty = t := by
  simp [applyEasing, h1, h2, h3]

/-- Witness for C10 at a concrete misspelled tag and input. -/
theorem applyEasing_default_witness : applyEasing (1/3) "easeoutt" = 1/3 :=
  applyEasing_default (1/3) "easeoutt" (by decide) (by decide) (by decide)

/-! ## C7 -/

/-- Any tick from inside `[1, totalFrames]` lands back inside it. -/
theorem playTick_bounded {t c : ℤ} (h1 : 1 ≤ c) (h2 : c ≤ t) :
    1 ≤ playTick t c ∧ playTick t c ≤ t := by
  unfold playTick goToFrameClamp
  split <;> constructor <;> omega

/-- C7: for every clock state with `1 ≤ currentFrame ≤ totalFrames`, one
playback tick takes `currentFrame` to `currentFrame + 1` when below
`totalFrames` and to `1` when it has reached `totalFrames`; hence under
repeated ticks `currentFrame` never leaves `[1, totalFrames]` and never takes
the value `totalFrames + 1`. -/
theorem playTick_spec (t c : ℤ) (h1 : 1 ≤ c) (h2 : c ≤ t) :
    (c < t → playTick t c = c + 1) ∧
    (c = t → playTick t c = 1) ∧
    (∀ n : ℕ, 1 ≤ (playTick t)^[n] c ∧ (playTick t)^[n] c ≤ t ∧
      (playTick t)^[n] c ≠ t + 1) := by
  refine ⟨?_, ?_, ?_⟩
  · intro hlt
    unfold playTick goToFrameClamp
    split <;> omega
  · intro heq
    unfold playTick goToFrameClamp
    split <;> omega
  · intro n
    induction n with
    | zero => simp; omega
    | succ n ih =>
      rw [Function.iterate_succ_apply']
      have h := playTick_bounded ih.1 ih.2.1
      exact ⟨h.1, h.2, by omega⟩

/-- Witness for C7 at the wrap point `currentFrame = totalFrames = 5`. -/
theorem playTick_spec_witness :
    ((5:ℤ) < 5 → playTick 5 5 = 5 + 1) ∧
    ((5:ℤ) = 5 → playTick 5 5 = 1) ∧
    (∀ n : ℕ, 1 ≤ (playTick 5)^[n] (5:ℤ) ∧ (playTick 5)^[n] (5:ℤ) ≤ 5 ∧
      (playTick 5)^[n] (5:ℤ) ≠ 5 + 1) :=
  playTick_spec 5 5 (by norm_num) (by norm_num)

/-! ## Interpolation lemmas (C2, C5) -/

/-- The `"linear"` tag falls through to the default branch of the easing
switch. -/
theorem applyEasing_linear (t : ℚ) : applyEasing t "linear" = t := by
  unfold applyEasing
  rw [if_neg (by decide), if_neg (by decide), if_neg (by decide)]

/-- The scan finds no pair when the frame is strictly below every keyframe. -/
theorem scanPairs_none_of_lt (f : ℚ) :
    ∀ kfs : List Keyframe, (∀ k ∈ kfs, f < k.frame) → scanPairs kfs f = none
  | [], _ => rfl
  | [_], _ => rfl
  | a :: b :: rest, h => by
    have ha := h a (by simp)
    rw [scanPairs, if_neg, scanPairs_none_of_lt f (b :: rest)
      (fun k hk => h k (List.mem_cons_of_mem a hk))]
    rintro ⟨h1, -⟩
    exact absurd ha (not_lt.mpr h1)

/-- The scan finds no pair when the frame is strictly above every keyframe. -/
theorem scanPairs_none_of_gt (f : ℚ) :
    ∀ kfs : List Keyframe, (∀ k ∈ kfs, k.frame < f) → scanPairs kfs f = none
  | [], _ => rfl
  | [_], _ => rfl
  | a :: b :: rest, h => by
    have hb := h b (by simp)
    rw [scanPairs, if_neg, scanPairs_none_of_gt f (b :: rest)
      (fun k hk => h k (List.mem_cons_of_mem a hk))]
    rintro ⟨-, h2⟩
    exact absurd hb (not_lt.mpr h2)

/-- In a frame-sorted keyframe list every frame is at most the last one's. -/
theorem frame_le_getLast :
    ∀ (l : List Keyframe) (hne : l ≠ []),
      l.Pairwise (fun a b => a.frame ≤ b.frame) →
      ∀ k ∈ l, k.frame ≤ (l.getLast hne).frame
  | [], hne, _, _, _ => absurd rfl hne
  | [a], _, _, k, hk => by
    simp only [List.mem_singleton] at hk
    simp [hk]
  | a :: b :: t, _, hp, k, hk => by
    have hrec := frame_le_getLast (b :: t) (by simp) hp.of_cons
    rw [List.getLast_cons (by simp)]
    rcases List.mem_cons.mp hk with rfl | hk'
    · exact le_trans (List.rel_of_pairwise_cons hp
        (@List.getLast_mem _ (b :: t) (by simp))) (le_refl _)
    · exact hrec k hk'

/-- C2 (corrected): for a frame outside the keyframe range the `(first, last)`
bracket is used, but the emitted values do NOT clamp: `progress` is computed
without clamping, so it is negative below the range and greater than 1 above
it, and the values are extrapolated through the easing. -/
theorem interpolateTrack_outside (k0 k1 : Keyframe) (rest : List Keyframe)
    (f : ℚ) (kLast : Keyframe) (hlast : kLast = (k1 :: rest).getLast (by simp))
    (hsort : (k0 :: k1 :: rest).Pairwise (fun a b => a.frame ≤ b.frame))
    (hout : f < k0.frame ∨ kLast.frame < f)
    (hne : k0 ≠ kLast) (hlt : k0.frame < kLast.frame) :
    interpolateTrack (k0 :: k1 :: rest) f =
      some (interpProps k0.properties kLast.properties
        (applyEasing ((f - k0.frame) / (kLast.frame - k0.frame)) k0.easing)) ∧
    (f < k0.frame → (f - k0.frame) / (kLast.frame - k0.frame) < 0) ∧
    (kLast.frame < f → 1 < (f - k0.frame) / (kLast.frame - k0.frame)) := by
  have hd : (0:ℚ) < kLast.frame - k0.frame := by linarith
  have hscan : scanPairs (k0 :: k1 :: rest) f = none := by
    rcases hout with hlo | hhi
    · refine scanPairs_none_of_lt f _ (fun k hk => ?_)
      rcases List.mem_cons.mp hk with rfl | hk'
      · exact hlo
      · have := frame_le_getLast (k0 :: k1 :: rest) (by simp) hsort k hk
        have hk0 : k0.frame ≤ k.frame := by
          rcases List.mem_cons.mp hk' with rfl | hk''
          · exact List.rel_of_pairwise_cons hsort (by simp)
          · exact List.rel_of_pairwise_cons hsort (by simp [hk''])
        linarith
    · refine scanPairs_none_of_gt f _ (fun k hk => ?_)
      have hle := frame_le_getLast (k0 :: k1 :: rest) (by simp) hsort k hk
      rw [List.getLast_cons (by simp)] at hle
      rw [hlast] at hhi
      linarith
  refine ⟨?_, fun hlo => div_neg_of_neg_of_pos (by linarith) hd,
    fun hhi => (one_lt_div hd).mpr (by linarith)⟩
  rw [interpolateTrack]
  rw [hscan]
  simp only [Option.getD_none]
  rw [if_neg (by rw [hlast] at hne; exact hne)]
  rw [hlast]

/-- Concrete track for the C2 counterexample: keyframes at frames 5 and 10
with `x = 0` and `x = 100`, linear easing. -/
def c2kf1 : Keyframe := ⟨"k1", 5, "b", { emptyProps with x := some 0 }, "linear"⟩

/-- Second keyframe of the C2 counterexample track. -/
def c2kf2 : Keyframe := ⟨"k2", 10, "b", { emptyProps with x := some 100 }, "linear"⟩

/-- C2 counterexample: at frame 1 (outside the range [5, 10]) the emitted `x`
is `-80`: it is not clamped to the nearest keyframe's value 0 and lies outside
the bracket's value range [0, 100], refuting the no-extrapolation claim. -/
theorem interpolateTrack_extrapolates :
    interpolateTrack [c2kf1, c2kf2] 1 =
      some ⟨some (-80), none, none, none, none⟩ ∧
    ¬ ((0:ℚ) ≤ -80) := by
  constructor
  · have hscan : scanPairs [c2kf1, c2kf2] 1 = none := by
      rw [scanPairs, if_neg]
      · rfl
      · rintro ⟨h, -⟩
        norm_num [c2kf1] at h
    rw [interpolateTrack, hscan]
    simp only [Option.getD_none, List.getLast_singleton]
    rw [if_neg (show c2kf1 ≠ c2kf2 from fun h => by simp [c2kf1, c2kf2] at h)]
    norm_num [c2kf1, c2kf2, interpProps, interpField, emptyProps, applyEasing_linear]
  · norm_num

/-- `applyEasing` maps 0 to 0 for every easing tag. -/
theorem applyEasing_zero (ty : String) : applyEasing 0 ty = 0 := by
  unfold applyEasing
  rcases eq_or_ne ty "easeIn" with h1 | h1
  · simp [h1]
  · rw [if_neg h1]
    rcases eq_or_ne ty "easeOut" with h2 | h2
    · rw [if_pos h2]; norm_num
    · rw [if_neg h2]
      rcases eq_or_ne ty "easeInOut" with h3 | h3
      · rw [if_pos h3, if_pos (by norm_num)]; norm_num
      · rw [if_neg h3]

/-- `applyEasing` maps 1 to 1 for every easing tag. -/
theorem applyEasing_one (ty : String) : applyEasing 1 ty = 1 := by
  unfold applyEasing
  rcases eq_or_ne ty "easeIn" with h1 | h1
  · rw [if_pos h1]; norm_num
  · rw [if_neg h1]
    rcases eq_or_ne ty "easeOut" with h2 | h2
    · rw [if_pos h2]; norm_num
    · rw [if_neg h2]
      rcases eq_or_ne ty "easeInOut" with h3 | h3
      · rw [if_pos h3, if_neg (by norm_num)]; norm_num
      · rw [if_neg h3]

/-- One property field interpolated at eased progress 0 is `prev`'s field. -/
theorem interpField_zero (p n : Option ℚ) : interpField p n 0 = p := by
  cases p <;> simp [interpField]

/-- Interpolating with eased progress 0 reproduces `prev`'s properties. -/
theorem interpProps_zero (p n : KfProps) : interpProps p n 0 = p := by
  rcases p with ⟨px, py, pr, psx, psy⟩
  simp [interpProps, interpField_zero]

/-- The properties emitted at eased progress 1: for each key present in
`prev`, the value `next` carries for it, defaulting to 0 when `next` lacks
it; keys absent from `prev` are not emitted. -/
def propsAtOne (p n : KfProps) : KfProps :=
  ⟨p.x.map (fun _ => n.x.getD 0), p.y.map (fun _ => n.y.getD 0),
   p.rotation.map (fun _ => n.rotation.getD 0),
   p.scaleX.map (fun _ => n.scaleX.getD 0), p.scaleY.map (fun _ => n.scaleY.getD 0)⟩

/-- One property field interpolated at eased progress 1 is `next`'s value,
defaulting to 0, when `prev` has the field. -/
theorem interpField_one (p n : Option ℚ) :
    interpField p n 1 = p.map (fun _ => n.getD 0) := by
  cases p <;> simp [interpField]

/-- Interpolating with eased progress 1 yields `next`'s value (or the default
0) on `prev`'s support. -/
theorem interpProps_one (p n : KfProps) : interpProps p n 1 = propsAtOne p n := by
  rcases p with ⟨px, py, pr, psx, psy⟩
  simp [interpProps, interpField_one, propsAtOne]

/-- C5 (corrected): when the scan resolves the bracket `(p, n)` with `p ≠ n`,
interpolating at `frame = p.frame` computes progress 0 and emits exactly `p`'s
property values whatever easing tag `p` carries; at `frame = n.frame` (with
`p.frame ≠ n.frame`) it computes progress 1 and emits, for each property
present in `p`, the value `n` carries for it defaulting to 0 — not `n`'s
property set verbatim. -/
theorem interpolateTrack_endpoints (k0 k1 : Keyframe) (rest : List Keyframe)
    (f : ℚ) (p n : Keyframe)
    (hscan : scanPairs (k0 :: k1 :: rest) f = some (p, n)) (hne : p ≠ n) :
    (f = p.frame → interpolateTrack (k0 :: k1 :: rest) f = some p.properties) ∧
    (f = n.frame → p.frame ≠ n.frame →
      interpolateTrack (k0 :: k1 :: rest) f =
        some (propsAtOne p.properties n.properties)) := by
  constructor
  · intro hf
    rw [interpolateTrack, hscan]
    simp only [Option.getD_some]
    rw [if_neg hne, hf]
    rw [sub_self, zero_div, applyEasing_zero, interpProps_zero]
  · intro hf hfne
    rw [interpolateTrack, hscan]
    simp only [Option.getD_some]
    rw [if_neg hne, hf]
    rw [div_self (sub_ne_zero.mpr (fun h => hfne h.symm)), applyEasing_one,
      interpProps_one]

/-- Witness for C2's amended statement on the concrete two-keyframe track at
the out-of-range frame 1. -/
theorem interpolateTrack_outside_witness :
    interpolateTrack [c2kf1, c2kf2] 1 =
      some (interpProps c2kf1.properties c2kf2.properties
        (applyEasing ((1 - c2kf1.frame) / (c2kf2.frame - c2kf1.frame)) c2kf1.easing)) ∧
    ((1:ℚ) < c2kf1.frame → (1 - c2kf1.frame) / (c2kf2.frame - c2kf1.frame) < 0) ∧
    (c2kf2.frame < 1 → 1 < (1 - c2kf1.frame) / (c2kf2.frame - c2kf1.frame)) :=
  interpolateTrack_outside c2kf1 c2kf2 [] 1 c2kf2 (by simp)
    (by simp [c2kf1, c2kf2]; norm_num)
    (Or.inl (by norm_num [c2kf1]))
    (fun h => by simp [c2kf1, c2kf2] at h)
    (by norm_num [c2kf1, c2kf2])

/-- Witness for C5's amended statement at `frame = prev.frame = 5` on the
concrete two-keyframe track. -/
theorem interpolateTrack_endpoints_witness :
    ((5:ℚ) = c2kf1.frame → interpolateTrack [c2kf1, c2kf2] 5 = some c2kf1.properties) ∧
    ((5:ℚ) = c2kf2.frame → c2kf1.frame ≠ c2kf2.frame →
      interpolateTrack [c2kf1, c2kf2] 5 =
        some (propsAtOne c2kf1.properties c2kf2.properties)) :=
  interpolateTrack_endpoints c2kf1 c2kf2 [] 5 c2kf1 c2kf2
    (by rw [scanPairs, if_pos]
        constructor
        · norm_num [c2kf1]
        · norm_num [c2kf2])
    (fun h => by simp [c2kf1, c2kf2] at h)

/-- First keyframe of the C5 counterexample track: frame 1 with `x = 5`. -/
def c5kf1 : Keyframe := ⟨"k1", 1, "b", { emptyProps with x := some 5 }, "linear"⟩

/-- Second keyframe of the C5 counterexample track: frame 10 with no
properties. -/
def c5kf2 : Keyframe := ⟨"k2", 10, "b", emptyProps, "linear"⟩

/-- C5 counterexample: at `frame = next.frame = 10` the emitted property set
is `{x := 0}` — the `x` present only in `prev` interpolates toward 0 — which
is not `next`'s property set (which has no `x` at all). -/
theorem interpolateTrack_at_next_not_next :
    interpolateTrack [c5kf1, c5kf2] 10 =
      some ⟨some 0, none, none, none, none⟩ ∧
    (⟨some 0, none, none, none, none⟩ : KfProps) ≠ c5kf2.properties := by
  constructor
  · have hscan : scanPairs [c5kf1, c5kf2] 10 = some (c5kf1, c5kf2) := by
      rw [scanPairs, if_pos]
      constructor
      · norm_num [c5kf1]
      · norm_num [c5kf2]
    rw [interpolateTrack, hscan]
    simp only [Option.getD_some]
    rw [if_neg (show c5kf1 ≠ c5kf2 from fun h => by simp [c5kf1, c5kf2] at h)]
    norm_num [c5kf1, c5kf2, interpProps, interpField, emptyProps, applyEasing_linear]
  · simp [c5kf2, emptyProps]

/-! ## Keyframe lookup lemmas (C6, C4) -/

/-- Keyframes whose id is not in the list are not found. -/
theorem findKfIn_none_of_not_mem (kfs : List Keyframe) (i : String)
    (h : i ∉ kfs.map (·.id)) : findKfIn kfs i = none := by
  rw [findKfIn, List.find?_eq_none]
  intro k hk
  simp only [decide_eq_true_eq]
  intro he
  exact h (List.mem_map.mpr ⟨k, hk, he⟩)

/-- The update walk returns `none` when no track contains the id. -/
theorem updateKeyframeGo_miss (kfId : String) (props : Option KfProps) :
    ∀ tl : Tracks, (∀ p ∈ tl, findKfIn p.2.keyframes kfId = none) →
      updateKeyframeGo kfId props tl = none
  | [], _ => rfl
  | (tid, tr) :: rest, h => by
    rw [updateKeyframeGo]
    rw [h (tid, tr) (by simp)]
    rw [updateKeyframeGo_miss kfId props rest
      (fun p hp => h p (List.mem_cons_of_mem _ hp))]
    rfl

/-- The update walk mutates the first track that contains the id. -/
theorem updateKeyframeGo_hit (kfId : String) (props : Option KfProps) :
    ∀ (A : Tracks) (tid : String) (tr : TrackData) (B : Tracks) (kf : Keyframe),
      (∀ p ∈ A, findKfIn p.2.keyframes kfId = none) →
      findKfIn tr.keyframes kfId = some kf →
      updateKeyframeGo kfId props (A ++ (tid, tr) :: B) =
        some (A ++ (tid, { tr with
            keyframes := replaceFirstKf tr.keyframes kfId (mergeIntoKf props) }) :: B,
          mergeIntoKf props kf)
  | [], tid, tr, B, kf, _, hkf => by
    simp only [List.nil_append]
    rw [updateKeyframeGo, hkf]
  | (qid, qtr) :: A, tid, tr, B, kf, hA, hkf => by
    rw [List.cons_append, updateKeyframeGo]
    rw [hA (qid, qtr) (by simp)]
    rw [updateKeyframeGo_hit kfId props A tid tr B kf
      (fun p hp => hA p (List.mem_cons_of_mem _ hp)) hkf]
    rfl

/-- The delete walk returns `none` when no track contains the id. -/
theorem deleteKeyframeGo_miss (kfId : String) :
    ∀ tl : Tracks, (∀ p ∈ tl, findKfIn p.2.keyframes kfId = none) →
      deleteKeyframeGo kfId tl = none
  | [], _ => rfl
  | (tid, tr) :: rest, h => by
    rw [deleteKeyframeGo]
    rw [h (tid, tr) (by simp)]
    rw [deleteKeyframeGo_miss kfId rest
      (fun p hp => h p (List.mem_cons_of_mem _ hp))]
    rfl

/-- The delete walk removes from the first track that contains the id. -/
theorem deleteKeyframeGo_hit (kfId : String) :
    ∀ (A : Tracks) (tid : String) (tr : TrackData) (B : Tracks) (kf : Keyframe),
      (∀ p ∈ A, findKfIn p.2.keyframes kfId = none) →
      findKfIn tr.keyframes kfId = some kf →
      deleteKeyframeGo kfId (A ++ (tid, tr) :: B) =
        some (A ++ (tid, { tr with keyframes := removeFirstKf tr.keyframes kfId }) :: B)
  | [], tid, tr, B, kf, _, hkf => by
    simp only [List.nil_append]
    rw [deleteKeyframeGo, if_pos (by rw [hkf]; rfl)]
  | (qid, qtr) :: A, tid, tr, B, kf, hA, hkf => by
    rw [List.cons_append, deleteKeyframeGo]
    rw [if_neg (by rw [hA (qid, qtr) (by simp)]; simp)]
    rw [deleteKeyframeGo_hit kfId A tid tr B kf
      (fun p hp => hA p (List.mem_cons_of_mem _ hp)) hkf]
    rfl

/-! ## C6 -/

/-- C6: for a keyframe id not present in any track, `updateKeyframe` fails
with `Keyframe not found` leaving the tracks unchanged (the error is raised
before any mutation), while `deleteKeyframe` is a silent no-op; for a present
id, `updateKeyframe` shallow-merges the properties into the first matching
keyframe and returns it, and `deleteKeyframe` removes that keyframe, in both
cases touching only the first track that contains the id. -/
theorem keyframe_lookup_spec (tl : Tracks) (kfId : String) (props : Option KfProps) :
    ((∀ p ∈ tl, findKfIn p.2.keyframes kfId = none) →
      updateKeyframe tl kfId props = .error "Keyframe not found" ∧
      deleteKeyframe tl kfId = tl) ∧
    (∀ (A B : Tracks) (tid : String) (tr : TrackData) (kf : Keyframe),
      tl = A ++ (tid, tr) :: B →
      (∀ p ∈ A, findKfIn p.2.keyframes kfId = none) →
      findKfIn tr.keyframes kfId = some kf →
      updateKeyframe tl kfId props =
        .ok (A ++ (tid, { tr with
            keyframes := replaceFirstKf tr.keyframes kfId (mergeIntoKf props) }) :: B,
          mergeIntoKf props kf) ∧
      deleteKeyframe tl kfId =
        A ++ (tid, { tr with keyframes := removeFirstKf tr.keyframes kfId }) :: B) := by
  constructor
  · intro h
    constructor
    · rw [updateKeyframe, updateKeyframeGo_miss kfId props tl h]
    · rw [deleteKeyframe, deleteKeyframeGo_miss kfId tl h]
      rfl
  · intro A B tid tr kf htl hA hkf
    subst htl
    constructor
    · rw [updateKeyframe, updateKeyframeGo_hit kfId props A tid tr B kf hA hkf]
    · rw [deleteKeyframe, deleteKeyframeGo_hit kfId A tid tr B kf hA hkf]
      rfl

/-- Keyframe used by the C6 witness. -/
def c6kf : Keyframe := ⟨"kf1", 1, "b", emptyProps, "linear"⟩

/-- Track store used by the C6 witness: one track holding one keyframe. -/
def c6tl : Tracks := [("t1", ⟨"t1", "n", "b", [c6kf], true, false⟩)]

/-- Witness for C6: the absent id "zz" errors on update and no-ops on delete;
the present id "kf1" is updated and deleted in place. -/
theorem keyframe_lookup_spec_witness :
    (updateKeyframe c6tl "zz" none = .error "Keyframe not found" ∧
      deleteKeyframe c6tl "zz" = c6tl) ∧
    (updateKeyframe c6tl "kf1" none =
      .ok ([] ++ ("t1", { (⟨"t1", "n", "b", [c6kf], true, false⟩ : TrackData) with
          keyframes := replaceFirstKf [c6kf] "kf1" (mergeIntoKf none) }) :: [],
        mergeIntoKf none c6kf) ∧
      deleteKeyframe c6tl "kf1" =
        [] ++ ("t1", { (⟨"t1", "n", "b", [c6kf], true, false⟩ : TrackData) with
          keyframes := removeFirstKf [c6kf] "kf1" }) :: []) := by
  constructor
  · exact (keyframe_lookup_spec c6tl "zz" none).1 (by decide)
  · exact (keyframe_lookup_spec c6tl "kf1" none).2 [] [] "t1"
      ⟨"t1", "n", "b", [c6kf], true, false⟩ c6kf (by rfl) (by simp) (by decide)

/-! ## C4: addKeyframe -/

/-- All keyframe ids across all tracks, in store order. -/
def allKfIds (tl : Tracks) : List String :=
  (tl.map (fun p => p.2.keyframes.map (·.id))).flatten

/-- A successful `find?` splits the list at the first match. -/
theorem find?_decompose {α : Type} (p : α → Bool) :
    ∀ (l : List α) (a : α), l.find? p = some a →
      ∃ l1 l2, l = l1 ++ a :: l2 ∧ ∀ x ∈ l1, p x = false
  | [], a, h => by simp at h
  | x :: l, a, h => by
    cases hp : p x with
    | true =>
      rw [List.find?_cons_of_pos l hp] at h
      obtain rfl : x = a := by injection h
      exact ⟨[], l, rfl, by simp⟩
    | false =>
      rw [List.find?_cons_of_neg l (by simp [hp])] at h
      obtain ⟨l1, l2, rfl, hm⟩ := find?_decompose p l a h
      exact ⟨x :: l1, l2, rfl, by
        intro y hy
        rcases List.mem_cons.mp hy with rfl | hy'
        · exact hp
        · exact hm y hy'⟩

/-- When exactly one element satisfies the predicate, `find?` returns any
satisfying member. -/
theorem find?_unique {α : Type} (p : α → Bool) :
    ∀ (l : List α) (a : α), l.countP p = 1 → a ∈ l → p a = true →
      l.find? p = some a
  | [], a, _, hm, _ => absurd hm (List.not_mem_nil a)
  | x :: l, a, hc, hm, hp => by
    rw [List.countP_cons] at hc
    cases hx : p x with
    | true =>
      rw [List.find?_cons_of_pos l hx]
      rw [if_pos hx] at hc
      rcases List.mem_cons.mp hm with rfl | hm'
      · rfl
      · exact absurd (List.countP_pos_iff.mpr ⟨a, hm', hp⟩) (by omega)
    | false =>
      rw [List.find?_cons_of_neg l (by simp [hx])]
      rw [if_neg (by simp [hx])] at hc
      rcases List.mem_cons.mp hm with rfl | hm'
      · rw [hp] at hx; exact absurd hx (by simp)
      · exact find?_unique p l a (by omega) hm' hp

/-- A keyframe id that occurs and whose ids list is duplicate-free is counted
exactly once. -/
theorem countP_id_unique :
    ∀ (kfs : List Keyframe) (i : String), (kfs.map (·.id)).Nodup →
      i ∈ kfs.map (·.id) → kfs.countP (fun k => k.id = i) = 1
  | [], i, _, hm => by simp at hm
  | k :: kfs, i, hnd, hm => by
    rw [List.map_cons, List.nodup_cons] at hnd
    rw [List.countP_cons]
    rw [List.map_cons, List.mem_cons] at hm
    rcases hm with rfl | hm'
    · have h0 : kfs.countP (fun q => q.id = k.id) = 0 := by
        rw [List.countP_eq_zero]
        intro q hq
        simp only [decide_eq_true_eq]
        intro he
        exact hnd.1 (List.mem_map.mpr ⟨q, hq, he⟩)
      simp [h0]
    · have hik : ¬ (k.id = i) := by
        rintro rfl
        exact hnd.1 hm'
      rw [countP_id_unique kfs i hnd.2 hm']
      simp [hik]

/-- An id absent from the keyframes is counted zero times. -/
theorem countP_id_zero (kfs : List Keyframe) (i : String)
    (h : i ∉ kfs.map (·.id)) : kfs.countP (fun k => k.id = i) = 0 := by
  rw [List.countP_eq_zero]
  intro q hq
  simp only [decide_eq_true_eq]
  intro he
  exact h (List.mem_map.mpr ⟨q, hq, he⟩)

/-- `updateTrack` leaves a store untouched when no key matches. -/
theorem updateTrack_id (tid : String) (g : TrackData → TrackData) :
    ∀ B : Tracks, (∀ p ∈ B, p.1 ≠ tid) → updateTrack B tid g = B
  | [], _ => rfl
  | q :: B, h => by
    simp only [updateTrack, List.map_cons]
    rw [if_neg (h q (by simp))]
    have hB := updateTrack_id tid g B (fun p hp => h p (List.mem_cons_of_mem _ hp))
    simp only [updateTrack] at hB
    rw [hB]

/-- `updateTrack` rewrites exactly the distinguished entry when all other
keys differ. -/
theorem updateTrack_append (tid : String) (g : TrackData → TrackData) :
    ∀ (A : Tracks) (tr : TrackData) (B : Tracks),
      (∀ p ∈ A, p.1 ≠ tid) → (∀ p ∈ B, p.1 ≠ tid) →
      updateTrack (A ++ (tid, tr) :: B) tid g = A ++ (tid, g tr) :: B
  | [], tr, B, _, hB => by
    show updateTrack ((tid, tr) :: B) tid g = (tid, g tr) :: B
    have hB' := updateTrack_id tid g B hB
    simp only [updateTrack] at hB'
    simp [updateTrack, hB']
  | q :: A, tr, B, hA, hB => by
    show updateTrack (q :: (A ++ (tid, tr) :: B)) tid g = q :: (A ++ (tid, g tr) :: B)
    simp only [updateTrack, List.map_cons]
    rw [if_neg (hA q (by simp))]
    have hrec := updateTrack_append tid g A tr B
      (fun p hp => hA p (List.mem_cons_of_mem _ hp)) hB
    simp only [updateTrack] at hrec
    rw [hrec]

/-- `getTrack` reads the distinguished entry when the keys before it differ. -/
theorem getTrack_append_hit (tid : String) :
    ∀ (A : Tracks) (tr : TrackData) (B : Tracks),
      (∀ p ∈ A, p.1 ≠ tid) →
      getTrack (A ++ (tid, tr) :: B) tid = some tr
  | [], tr, B, _ => by
    show getTrack ((tid, tr) :: B) tid = some tr
    rw [getTrack, List.find?_cons_of_pos _ (by simp)]
    rfl
  | q :: A, tr, B, hA => by
    show getTrack (q :: (A ++ (tid, tr) :: B)) tid = some tr
    rw [getTrack, List.find?_cons_of_neg _ (by simp [hA q (by simp)])]
    have hrec := getTrack_append_hit tid A tr B
      (fun p hp => hA p (List.mem_cons_of_mem _ hp))
    rw [getTrack] at hrec
    exact hrec

/-- A `getTrack` hit splits the store at the first entry with the key. -/
theorem getTrack_decompose (tl : Tracks) (tid : String) (tr : TrackData)
    (h : getTrack tl tid = some tr) :
    ∃ A B, tl = A ++ (tid, tr) :: B ∧ ∀ p ∈ A, p.1 ≠ tid := by
  rw [getTrack] at h
  cases hf : tl.find? (fun p => p.1 = tid) with
  | none => rw [hf] at h; simp at h
  | some q =>
    rw [hf] at h
    have hq1 : q.1 = tid := by
      have := List.find?_some hf
      simpa using this
    have hq2 : q.2 = tr := by simpa using h
    obtain ⟨A, B, hsplit, hmiss⟩ := find?_decompose _ tl q hf
    refine ⟨A, B, ?_, fun p hp => by simpa using hmiss p hp⟩
    rw [hsplit, ← hq1, ← hq2]

/-- Replacing the first id match with a frame-preserving mutation leaves the
frame sequence unchanged. -/
theorem replaceFirstKf_map_frame (i : String) (g : Keyframe → Keyframe)
    (hg : ∀ k, (g k).frame = k.frame) :
    ∀ kfs : List Keyframe,
      (replaceFirstKf kfs i g).map (·.frame) = kfs.map (·.frame)
  | [] => rfl
  | k :: kfs => by
    rw [replaceFirstKf]
    by_cases hk : k.id = i
    · rw [if_pos hk, List.map_cons, List.map_cons, hg]
    · rw [if_neg hk, List.map_cons, List.map_cons,
        replaceFirstKf_map_frame i g hg kfs]

/-- The mutated keyframe is a member of the replaced list. -/
theorem replaceFirstKf_mem (i : String) (g : Keyframe → Keyframe) :
    ∀ (kfs : List Keyframe) (kf : Keyframe), findKfIn kfs i = some kf →
      g kf ∈ replaceFirstKf kfs i g
  | [], kf, h => by simp [findKfIn] at h
  | k :: kfs, kf, h => by
    rw [replaceFirstKf]
    by_cases hk : k.id = i
    · rw [findKfIn, List.find?_cons_of_pos _ (by simp [hk])] at h
      obtain rfl : k = kf := by injection h
      rw [if_pos hk]
      exact List.mem_cons_self _ _
    · rw [findKfIn, List.find?_cons_of_neg _ (by simp [hk])] at h
      rw [if_neg hk]
      exact List.mem_cons_of_mem _ (replaceFirstKf_mem i g kfs kf h)

/-- Replacing the first id match keeps it the first id match when the
mutation preserves the id. -/
theorem findKfIn_replaceFirstKf (i : String) (g : Keyframe → Keyframe) :
    ∀ (kfs : List Keyframe) (kf : Keyframe), findKfIn kfs i = some kf →
      (g kf).id = kf.id →
      findKfIn (replaceFirstKf kfs i g) i = some (g kf)
  | [], kf, h, _ => by simp [findKfIn] at h
  | k :: kfs, kf, h, hid => by
    rw [replaceFirstKf]
    by_cases hk : k.id = i
    · rw [findKfIn, List.find?_cons_of_pos _ (by simp [hk])] at h
      obtain rfl : k = kf := by injection h
      rw [if_pos hk, findKfIn, List.find?_cons_of_pos _ (by simp [hid, hk])]
    · rw [findKfIn, List.find?_cons_of_neg _ (by simp [hk])] at h
      rw [if_neg hk, findKfIn, List.find?_cons_of_neg _ (by simp [hk])]
      exact findKfIn_replaceFirstKf i g kfs kf h hid

/-- When the first frame match and the first id match are the same keyframe,
replacing it keeps it the first frame match (for a frame-preserving
mutation). -/
theorem find?_frame_replaceFirstKf (i : String) (g : Keyframe → Keyframe)
    (f : ℚ) (hg : ∀ k, (g k).frame = k.frame) :
    ∀ (kfs : List Keyframe) (kf : Keyframe), findKfIn kfs i = some kf →
      kfs.find? (fun k => k.frame = f) = some kf →
      (replaceFirstKf kfs i g).find? (fun k => k.frame = f) = some (g kf)
  | [], kf, h, _ => by simp [findKfIn] at h
  | k :: kfs, kf, hid, hfr => by
    rw [replaceFirstKf]
    by_cases hk : k.id = i
    · rw [findKfIn, List.find?_cons_of_pos _ (by simp [hk])] at hid
      obtain rfl : k = kf := by injection hid
      have hkf : k.frame = f := by
        have := List.find?_some hfr
        simpa using this
      rw [if_pos hk, List.find?_cons_of_pos _ (by simp [hg, hkf])]
    · rw [findKfIn, List.find?_cons_of_neg _ (by simp [hk])] at hid
      have hkfr : ¬ (k.frame = f) := by
        intro hkf
        rw [List.find?_cons_of_pos _ (by simp [hkf])] at hfr
        obtain rfl : k = kf := by injection hfr
        exact hk (by simpa using List.find?_some hid)
      rw [List.find?_cons_of_neg _ (by simp [hkfr])] at hfr
      rw [if_neg hk, List.find?_cons_of_neg _ (by simp [hkfr])]
      exact find?_frame_replaceFirstKf i g f hg kfs kf hid hfr

/-- Two keyframe lists with the same frame sequence have the same frame
counts. -/
theorem countP_frame_congr (L1 L2 : List Keyframe) (f : ℚ)
    (h : L1.map (·.frame) = L2.map (·.frame)) :
    L1.countP (fun k => k.frame = f) = L2.countP (fun k => k.frame = f) := by
  have h1 := List.countP_map (fun q : ℚ => decide (q = f))
    (fun k : Keyframe => k.frame) L1
  have h2 := List.countP_map (fun q : ℚ => decide (q = f))
    (fun k : Keyframe => k.frame) L2
  rw [h] at h1
  rw [h2] at h1
  exact h1.symm

/-- Two keyframe lists with the same frame sequence are equi-sorted. -/
theorem pairwise_frame_congr (L1 L2 : List Keyframe)
    (h : L1.map (·.frame) = L2.map (·.frame))
    (hp : L2.Pairwise (fun a b => a.frame ≤ b.frame)) :
    L1.Pairwise (fun a b => a.frame ≤ b.frame) := by
  have h2 : (L2.map (·.frame)).Pairwise (fun a b => a ≤ b) :=
    List.pairwise_map.mpr hp
  rw [← h] at h2
  exact List.pairwise_map.mp h2

/-- `addKeyframe` on an unknown track id throws before mutating anything. -/
theorem addKeyframe_notfound (tl : Tracks) (tid : String) (f : ℚ)
    (props : Option KfProps) (newId : String)
    (h : getTrack tl tid = none) :
    addKeyframe tl tid f props newId = .error "Track not found" := by
  simp only [addKeyframe, h]

/-- The track record produced by `addKeyframe`'s insert path: push the new
keyframe and re-sort by frame. -/
def insertedTrack (tr : TrackData) (kf : Keyframe) : TrackData :=
  { tr with keyframes := sortByFrame (tr.keyframes ++ [kf]) }

/-- `addKeyframe`'s insert path: no keyframe exists at the frame yet. -/
theorem addKeyframe_insert (tl : Tracks) (tid : String) (f : ℚ)
    (props : Option KfProps) (newId : String) (tr : TrackData)
    (htr : getTrack tl tid = some tr)
    (hfind : tr.keyframes.find? (fun kf => kf.frame = f) = none) :
    addKeyframe tl tid f props newId =
      .ok (updateTrack tl tid (fun tr' => insertedTrack tr' (newKf newId f tr.boneId props)),
        newKf newId f tr.boneId props) := by
  simp only [addKeyframe, htr, hfind]
  rfl

/-- `addKeyframe`'s merge path: a keyframe already exists at the frame, so the
call defers to `updateKeyframe` on its id. -/
theorem addKeyframe_merge (tl : Tracks) (tid : String) (f : ℚ)
    (props : Option KfProps) (newId : String) (tr : TrackData) (kf0 : Keyframe)
    (htr : getTrack tl tid = some tr)
    (hfind : tr.keyframes.find? (fun kf => kf.frame = f) = some kf0) :
    addKeyframe tl tid f props newId = updateKeyframe tl kf0.id props := by
  simp only [addKeyframe, htr, hfind]

/-- The comparator used by `addKeyframe`'s re-sort produces a frame-sorted
list. -/
theorem sortByFrame_sorted (l : List Keyframe) :
    (sortByFrame l).Pairwise (fun a b => a.frame ≤ b.frame) := by
  have h := @List.sorted_mergeSort _ (fun a b => decide (a.frame ≤ b.frame))
    (fun a b c hab hbc => by
      simp only [decide_eq_true_eq] at hab hbc ⊢
      exact le_trans hab hbc)
    (fun a b => by simpa using le_total a.frame b.frame) l
  exact h.imp (fun hab => by simpa using hab)

/-- Sorting permutes, so membership and counts carry over. -/
theorem sortByFrame_perm (l : List Keyframe) : (sortByFrame l).Perm l :=
  List.mergeSort_perm l _

/-- C4: on a well-formed store (unique track keys, globally unique keyframe
ids) with an existing frame-sorted track `tid` having at most one keyframe at
frame `f`, calling `addKeyframe` twice at `f` (the first call with a fresh id
`i1`) succeeds twice and leaves exactly one keyframe at `f` in the track; the
second call's properties are shallow-merged into the keyframe the first call
produced (overlapping keys overwritten, new keys added), the sequence stays
sorted ascending by frame, and `addKeyframe` on an unknown trackId fails with
`Track not found`. -/
theorem addKeyframe_twice_spec
    (tl : Tracks) (tid : String) (f : ℚ) (p1 p2 : Option KfProps)
    (i1 i2 : String) (tr : TrackData)
    (htr : getTrack tl tid = some tr)
    (hkeys : (tl.map Prod.fst).Nodup)
    (hsort : tr.keyframes.Pairwise (fun a b => a.frame ≤ b.frame))
    (hcount : tr.keyframes.countP (fun k => k.frame = f) ≤ 1)
    (hids : (allKfIds tl).Nodup)
    (hfresh : i1 ∉ allKfIds tl) :
    (∃ (tl1 tl2 : Tracks) (kf1 kf2 : Keyframe) (tr2 : TrackData),
      addKeyframe tl tid f p1 i1 = .ok (tl1, kf1) ∧
      addKeyframe tl1 tid f p2 i2 = .ok (tl2, kf2) ∧
      getTrack tl2 tid = some tr2 ∧
      tr2.keyframes.countP (fun k => k.frame = f) = 1 ∧
      kf2 ∈ tr2.keyframes ∧ kf2.frame = f ∧
      kf2.properties = mergeOpt kf1.properties p2 ∧
      tr2.keyframes.Pairwise (fun a b => a.frame ≤ b.frame)) ∧
    (∀ tid', getTrack tl tid' = none →
      addKeyframe tl tid' f p1 i1 = .error "Track not found") := by
  refine ⟨?_, fun tid' h => addKeyframe_notfound tl tid' f p1 i1 h⟩
  obtain ⟨A, B, htl, hA⟩ := getTrack_decompose tl tid tr htr
  subst htl
  have hBfst : tid ∉ B.map Prod.fst := by
    have h2 : (A.map Prod.fst ++ tid :: B.map Prod.fst).Nodup := by
      simpa using hkeys
    exact (List.nodup_cons.mp (List.nodup_append.mp h2).2.1).1
  have hB : ∀ p ∈ B, p.1 ≠ tid :=
    fun p hp he => hBfst (List.mem_map.mpr ⟨p, hp, he⟩)
  have hidsSplit : allKfIds (A ++ (tid, tr) :: B)
      = allKfIds A ++ (tr.keyframes.map (·.id) ++ allKfIds B) := by
    simp [allKfIds]
  rw [hidsSplit] at hids hfresh
  have hndmid : (tr.keyframes.map (·.id)).Nodup :=
    (List.nodup_append.mp (List.nodup_append.mp hids).2.1).1
  have hdisj : List.Disjoint (allKfIds A) (tr.keyframes.map (·.id) ++ allKfIds B) :=
    (List.nodup_append.mp hids).2.2
  have hAmiss : ∀ s ∈ tr.keyframes.map (·.id), ∀ p ∈ A,
      findKfIn p.2.keyframes s = none := by
    intro s hs p hp
    apply findKfIn_none_of_not_mem
    intro hmem
    have hsA : s ∈ allKfIds A :=
      List.mem_flatten.mpr ⟨_, List.mem_map.mpr ⟨p, hp, rfl⟩, hmem⟩
    exact hdisj hsA (List.mem_append_left _ hs)
  have hfreshA : ∀ p ∈ A, findKfIn p.2.keyframes i1 = none := by
    intro p hp
    apply findKfIn_none_of_not_mem
    intro hmem
    exact hfresh (List.mem_append_left _
      (List.mem_flatten.mpr ⟨_, List.mem_map.mpr ⟨p, hp, rfl⟩, hmem⟩))
  have hfreshTr : i1 ∉ tr.keyframes.map (·.id) := fun hmem =>
    hfresh (List.mem_append_right _ (List.mem_append_left _ hmem))
  cases hfind : tr.keyframes.find? (fun kf => kf.frame = f) with
  | none =>
    -- First call inserts a fresh keyframe, second call merges into it.
    have hc1 := addKeyframe_insert _ tid f p1 i1 tr htr hfind
    rw [updateTrack_append tid _ A tr B hA hB] at hc1
    have hcnt0 : tr.keyframes.countP (fun k => k.frame = f) = 0 := by
      rw [List.countP_eq_zero]
      exact fun k hk => List.find?_eq_none.mp hfind k hk
    have hcnt1 : (insertedTrack tr (newKf i1 f tr.boneId p1)).keyframes.countP
        (fun k => k.frame = f) = 1 := by
      show (sortByFrame (tr.keyframes ++ [newKf i1 f tr.boneId p1])).countP
        (fun k => k.frame = f) = 1
      rw [List.Perm.countP_eq _ (sortByFrame_perm _), List.countP_append, hcnt0,
        List.countP_cons]
      simp [newKf]
    have htr1get : getTrack (A ++ (tid, insertedTrack tr (newKf i1 f tr.boneId p1)) :: B)
        tid = some (insertedTrack tr (newKf i1 f tr.boneId p1)) :=
      getTrack_append_hit tid A _ B hA
    have hmem1 : newKf i1 f tr.boneId p1
        ∈ (insertedTrack tr (newKf i1 f tr.boneId p1)).keyframes := by
      show _ ∈ sortByFrame (tr.keyframes ++ [newKf i1 f tr.boneId p1])
      exact ((sortByFrame_perm _).mem_iff).mpr (List.mem_append_right _ (by simp))
    have hfind1 : (insertedTrack tr (newKf i1 f tr.boneId p1)).keyframes.find?
        (fun kf => kf.frame = f) = some (newKf i1 f tr.boneId p1) :=
      find?_unique _ _ _ hcnt1 hmem1 (by simp [newKf])
    have hc2 := addKeyframe_merge _ tid f p2 i2 _ _ htr1get hfind1
    rw [show (newKf i1 f tr.boneId p1).id = i1 from rfl] at hc2
    have hcntid : (insertedTrack tr (newKf i1 f tr.boneId p1)).keyframes.countP
        (fun k => k.id = i1) = 1 := by
      show (sortByFrame (tr.keyframes ++ [newKf i1 f tr.boneId p1])).countP
        (fun k => k.id = i1) = 1
      rw [List.Perm.countP_eq _ (sortByFrame_perm _), List.countP_append,
        countP_id_zero _ _ hfreshTr, List.countP_cons]
      simp [newKf]
    have hhit : findKfIn (insertedTrack tr (newKf i1 f tr.boneId p1)).keyframes i1
        = some (newKf i1 f tr.boneId p1) := by
      rw [findKfIn]
      exact find?_unique _ _ _ hcntid hmem1 (by simp [newKf])
    have hupd := updateKeyframeGo_hit i1 p2 A tid
      (insertedTrack tr (newKf i1 f tr.boneId p1)) B (newKf i1 f tr.boneId p1)
      hfreshA hhit
    have hc2' : addKeyframe (A ++ (tid, insertedTrack tr (newKf i1 f tr.boneId p1)) :: B)
        tid f p2 i2 =
        .ok (A ++ (tid, { insertedTrack tr (newKf i1 f tr.boneId p1) with
            keyframes := replaceFirstKf
              (insertedTrack tr (newKf i1 f tr.boneId p1)).keyframes i1
              (mergeIntoKf p2) }) :: B,
          mergeIntoKf p2 (newKf i1 f tr.boneId p1)) := by
      rw [hc2]
      simp only [updateKeyframe, hupd]
    have hfr2 : (replaceFirstKf (insertedTrack tr (newKf i1 f tr.boneId p1)).keyframes
          i1 (mergeIntoKf p2)).map (·.frame)
        = (insertedTrack tr (newKf i1 f tr.boneId p1)).keyframes.map (·.frame) :=
      replaceFirstKf_map_frame i1 (mergeIntoKf p2) (fun k => rfl) _
    refine ⟨_, _, _, _, _, hc1, hc2', getTrack_append_hit tid A _ B hA, ?_, ?_,
      rfl, rfl, ?_⟩
    · rw [countP_frame_congr _ _ f hfr2]
      exact hcnt1
    · exact replaceFirstKf_mem i1 (mergeIntoKf p2) _ _ hhit
    · exact pairwise_frame_congr _ _ hfr2 (by
        show (sortByFrame (tr.keyframes ++ [newKf i1 f tr.boneId p1])).Pairwise _
        exact sortByFrame_sorted _)
  | some kf0 =>
    -- Both calls merge into the keyframe that already sits at the frame.
    have hkf0mem : kf0 ∈ tr.keyframes := List.mem_of_find?_eq_some hfind
    have hkf0f : kf0.frame = f := by simpa using List.find?_some hfind
    have hkf0id : kf0.id ∈ tr.keyframes.map (·.id) :=
      List.mem_map.mpr ⟨kf0, hkf0mem, rfl⟩
    have hAmiss0 := hAmiss kf0.id hkf0id
    have hhit0 : findKfIn tr.keyframes kf0.id = some kf0 := by
      rw [findKfIn]
      exact find?_unique _ _ _ (countP_id_unique _ _ hndmid hkf0id) hkf0mem (by simp)
    have hc1 := addKeyframe_merge _ tid f p1 i1 _ _ htr hfind
    have hupd1 := updateKeyframeGo_hit kf0.id p1 A tid tr B kf0 hAmiss0 hhit0
    have hc1' : addKeyframe (A ++ (tid, tr) :: B) tid f p1 i1 =
        .ok (A ++ (tid, { tr with
            keyframes := replaceFirstKf tr.keyframes kf0.id (mergeIntoKf p1) }) :: B,
          mergeIntoKf p1 kf0) := by
      rw [hc1]
      simp only [updateKeyframe, hupd1]
    have hget1 : getTrack (A ++ (tid, { tr with
        keyframes := replaceFirstKf tr.keyframes kf0.id (mergeIntoKf p1) }) :: B) tid
        = some { tr with
          keyframes := replaceFirstKf tr.keyframes kf0.id (mergeIntoKf p1) } :=
      getTrack_append_hit tid A _ B hA
    have hfind1 : (replaceFirstKf tr.keyframes kf0.id (mergeIntoKf p1)).find?
        (fun kf => kf.frame = f) = some (mergeIntoKf p1 kf0) :=
      find?_frame_replaceFirstKf kf0.id (mergeIntoKf p1) f (fun k => rfl)
        tr.keyframes kf0 hhit0 hfind
    have hc2 := addKeyframe_merge _ tid f p2 i2 _ _ hget1 hfind1
    rw [show (mergeIntoKf p1 kf0).id = kf0.id from rfl] at hc2
    have hhit1 : findKfIn (replaceFirstKf tr.keyframes kf0.id (mergeIntoKf p1)) kf0.id
        = some (mergeIntoKf p1 kf0) :=
      findKfIn_replaceFirstKf kf0.id (mergeIntoKf p1) tr.keyframes kf0 hhit0 rfl
    have hupd2 := updateKeyframeGo_hit kf0.id p2 A tid
      { tr with keyframes := replaceFirstKf tr.keyframes kf0.id (mergeIntoKf p1) }
      B (mergeIntoKf p1 kf0) hAmiss0 hhit1
    have hc2' : addKeyframe (A ++ (tid, { tr with
        keyframes := replaceFirstKf tr.keyframes kf0.id (mergeIntoKf p1) }) :: B)
        tid f p2 i2 =
        .ok (A ++ (tid, { tr with
            keyframes := replaceFirstKf
              (replaceFirstKf tr.keyframes kf0.id (mergeIntoKf p1)) kf0.id
              (mergeIntoKf p2) }) :: B,
          mergeIntoKf p2 (mergeIntoKf p1 kf0)) := by
      rw [hc2]
      simp only [updateKeyframe, hupd2]
    have hfrA : (replaceFirstKf tr.keyframes kf0.id (mergeIntoKf p1)).map (·.frame)
        = tr.keyframes.map (·.frame) :=
      replaceFirstKf_map_frame kf0.id (mergeIntoKf p1) (fun k => rfl) _
    have hfrB : (replaceFirstKf (replaceFirstKf tr.keyframes kf0.id (mergeIntoKf p1))
          kf0.id (mergeIntoKf p2)).map (·.frame)
        = (replaceFirstKf tr.keyframes kf0.id (mergeIntoKf p1)).map (·.frame) :=
      replaceFirstKf_map_frame kf0.id (mergeIntoKf p2) (fun k => rfl) _
    refine ⟨_, _, _, _, _, hc1', hc2', getTrack_append_hit tid A _ B hA, ?_, ?_,
      ?_, rfl, ?_⟩
    · rw [countP_frame_congr _ _ f hfrB, countP_frame_congr _ _ f hfrA]
      have hpos : 0 < tr.keyframes.countP (fun k => k.frame = f) :=
        List.countP_pos_iff.mpr ⟨kf0, hkf0mem, by simp [hkf0f]⟩
      omega
    · exact replaceFirstKf_mem kf0.id (mergeIntoKf p2) _ _ hhit1
    · show (mergeIntoKf p2 (mergeIntoKf p1 kf0)).frame = f
      exact hkf0f
    · exact pairwise_frame_congr _ _ hfrB (pairwise_frame_congr _ _ hfrA hsort)

/-- Track used by the C4 witness: empty keyframe list. -/
def c4tr : TrackData := ⟨"t1", "n", "b", [], true, false⟩

/-- Store used by the C4 witness. -/
def c4tl : Tracks := [("t1", c4tr)]

/-- First-call properties for the C4 witness. -/
def c4p1 : Option KfProps := some ⟨some 1, none, none, none, none⟩

/-- Second-call properties for the C4 witness. -/
def c4p2 : Option KfProps := some ⟨none, some 3, none, none, none⟩

/-- Witness for C4 on a concrete one-track store at frame 2. -/
theorem addKeyframe_twice_spec_witness :
    (∃ (tl1 tl2 : Tracks) (kf1 kf2 : Keyframe) (tr2 : TrackData),
      addKeyframe c4tl "t1" 2 c4p1 "a" = .ok (tl1, kf1) ∧
      addKeyframe tl1 "t1" 2 c4p2 "b2" = .ok (tl2, kf2) ∧
      getTrack tl2 "t1" = some tr2 ∧
      tr2.keyframes.countP (fun k => k.frame = 2) = 1 ∧
      kf2 ∈ tr2.keyframes ∧ kf2.frame = 2 ∧
      kf2.properties = mergeOpt kf1.properties c4p2 ∧
      tr2.keyframes.Pairwise (fun a b => a.frame ≤ b.frame)) ∧
    (∀ tid', getTrack c4tl tid' = none →
      addKeyframe c4tl tid' 2 c4p1 "a" = .error "Track not found") :=
  addKeyframe_twice_spec c4tl "t1" 2 c4p1 c4p2 "a" "b2" c4tr
    (by simp [c4tl, c4tr, getTrack]) (by simp [c4tl]) (by simp [c4tr])
    (by simp [c4tr]) (by simp [allKfIds, c4tl, c4tr])
    (by simp [allKfIds, c4tl, c4tr])

/-! ## Bone system (bones.ts), over ℝ

The bone geometry uses `cos`, `sin`, `atan2`, `sqrt`: these live on `ℝ`,
which has no executable code, so this part of the development is
`noncomputable`; concrete evaluations in witnesses go through `simp` /
`norm_num` instead of kernel reduction. -/

noncomputable section

/-- 2D vector (bones.ts 6-9). -/
structure Vector2 where
  x : ℝ
  y : ℝ

/-- The `'FK' | 'IK'` bone type tag. -/
inductive BoneType where
  | FK
  | IK
deriving DecidableEq

/-- A bone record (bones.ts 11-24). -/
structure BoneData where
  id : String
  name : String
  x : ℝ
  y : ℝ
  length : ℝ
  angle : ℝ
  color : String
  thickness : ℝ
  parentId : Option String
  children : List String
  type : BoneType
  isSelected : Bool

/-- The `bones : Map<string, BoneData>` store, as an insertion-ordered
association list; in-place mutation of a bone object becomes an update of its
entry. -/
abbrev Bones := List (String × BoneData)

/-- `Map.get`. -/
def getBone (bones : Bones) (id : String) : Option BoneData :=
  (bones.find? (fun p => p.1 = id)).map (·.2)

/-- In-place mutation of the bone object stored under `id`. -/
def updateBone (bones : Bones) (id : String) (g : BoneData → BoneData) : Bones :=
  bones.map (fun p => if p.1 = id then (p.1, g p.2) else p)

/-- `Map.set`: replace in place if present, else append. -/
def setBone (bones : Bones) (id : String) (b : BoneData) : Bones :=
  if (bones.find? (fun p => p.1 = id)).isSome then updateBone bones id (fun _ => b)
  else bones ++ [(id, b)]

/-- `Map.delete`. -/
def removeBone (bones : Bones) (id : String) : Bones :=
  bones.filter (fun p => p.1 ≠ id)

/-- `BoneSystem.distance` (bones.ts 400-402): `Math.hypot`. -/
def distance (a b : Vector2) : ℝ :=
  Real.sqrt ((b.x - a.x) ^ 2 + (b.y - a.y) ^ 2)

/-- `BoneSystem.normalize` (bones.ts 404-407): maps the zero vector to
`(0, 0)` instead of dividing by zero. -/
def normalize (v : Vector2) : Vector2 :=
  if Real.sqrt (v.x ^ 2 + v.y ^ 2) > 0 then
    ⟨v.x / Real.sqrt (v.x ^ 2 + v.y ^ 2), v.y / Real.sqrt (v.x ^ 2 + v.y ^ 2)⟩
  else ⟨0, 0⟩

/-- `Math.atan2(y, x)`, with value in `(-π, π]` and `atan2 0 0 = 0`, embedded
as the complex argument of `x + y·i`. -/
def atan2 (y x : ℝ) : ℝ := Complex.arg ⟨x, y⟩

/-- `BoneSystem.getBoneEnd` (bones.ts 241-246):
`position + length·(cos angle, sin angle)`. -/
def getBoneEnd (bone : BoneData) : Vector2 :=
  ⟨bone.x + Real.cos bone.angle * bone.length,
   bone.y + Real.sin bone.angle * bone.length⟩

mutual

/-- `BoneSystem.updateBonePosition` (bones.ts 249-266): if the bone has a
resolvable parent, snap its position to the parent's end, then recurse on the
children.  The `fuel` argument models the JS call-stack depth; call sites
pass the store size, which bounds the recursion depth on any forest. -/
def updateBonePosition : ℕ → Bones → String → Bones
  | 0, bones, _ => bones
  | fuel + 1, bones, id =>
    match getBone bones id with
    | none => bones
    | some bone =>
      let bones1 :=
        match bone.parentId with
        | none => bones
        | some pid =>
          match getBone bones pid with
          | none => bones
          | some parent =>
            updateBone bones id (fun b =>
              { b with x := (getBoneEnd parent).x, y := (getBoneEnd parent).y })
      updateChildrenPositions fuel bones1 bone.children
termination_by fuel _ _ => (fuel, 0)

/-- The `bone.children.forEach` loop of `updateBonePosition`: skip missing
children, recurse on present ones. -/
def updateChildrenPositions : ℕ → Bones → List String → Bones
  | _, bones, [] => bones
  | fuel, bones, cid :: rest =>
    let bones1 := if (getBone bones cid).isSome
      then updateBonePosition fuel bones cid else bones
    updateChildrenPositions fuel bones1 rest
termination_by fuel _ kids => (fuel, kids.length + 1)

end

/-- `BoneSystem.createBone` (bones.ts 43-84).  The `Date.now()`-based id is an
explicit argument.  The record (with the raw coordinates and the given
`parentId`, resolvable or not) is stored first; if the parent resolves, the
new id is pushed onto its children and the new bone's position is overridden
to the parent's end point.  Rendering calls are presentation-only and
omitted. -/
def createBone (bones : Bones) (id name : String) (x y len angle : ℝ)
    (ty : BoneType) (parentId : Option String) : Bones :=
  let bone : BoneData :=
    ⟨id, name, x, y, len, angle, "#00ff88", 3, parentId, [], ty, false⟩
  let bones1 := setBone bones id bone
  match parentId with
  | none => bones1
  | some pid =>
    match getBone bones1 pid with
    | none => bones1
    | some parent =>
      let bones2 := updateBone bones1 pid
        (fun p => { p with children := p.children ++ [id] })
      updateBone bones2 id
        (fun b => { b with x := (getBoneEnd parent).x, y := (getBoneEnd parent).y })

/-- `BoneSystem.moveChildren` (bones.ts 299-309): shift each present child by
`(dx, dy)` and recurse into its children (reading the child's list before the
recursion, as the JS closure does).  `fuel` bounds the recursion depth. -/
def moveChildren (dx dy : ℝ) : ℕ → Bones → List String → Bones
  | 0, bones, _ => bones
  | _ + 1, bones, [] => bones
  | fuel + 1, bones, cid :: rest =>
    match getBone bones cid with
    | none => moveChildren dx dy (fuel + 1) bones rest
    | some child =>
      let bs1 := updateBone bones cid (fun b => { b with x := b.x + dx, y := b.y + dy })
      let bs2 := moveChildren dx dy fuel bs1 child.children
      moveChildren dx dy (fuel + 1) bs2 rest
termination_by fuel _ kids => (fuel, kids.length)

/-- `BoneSystem.moveBone` (bones.ts 284-297): set the bone's position to the
target and rigidly shift every descendant by the same delta.  Graphics
refresh calls are omitted. -/
def moveBone (bones : Bones) (id : String) (pos : Vector2) : Bones :=
  match getBone bones id with
  | none => bones
  | some bone =>
    let dx := pos.x - bone.x
    let dy := pos.y - bone.y
    let bones1 := updateBone bones id (fun b => { b with x := pos.x, y := pos.y })
    moveChildren dx dy bones1.length bones1 bone.children

/-- `BoneSystem.setBoneAngle` (bones.ts 312-323): set the angle, then
propagate positions through the subtree (the graphics refresh over all bones
is presentation-only and omitted). -/
def setBoneAngle (bones : Bones) (id : String) (angle : ℝ) : Bones :=
  match getBone bones id with
  | none => bones
  | some _ =>
    let bones1 := updateBone bones id (fun b => { b with angle := angle })
    updateBonePosition bones1.length bones1 id

mutual

/-- `BoneSystem.deleteBone` (bones.ts 349-376): filter the bone out of its
parent's children, recursively delete the children (reading the list after
the parent filter, as the live array reference does), then remove the entry.
`fuel` models the call stack. -/
def deleteBone : ℕ → Bones → String → Bones
  | 0, bones, _ => bones
  | fuel + 1, bones, id =>
    match getBone bones id with
    | none => bones
    | some bone =>
      let bones1 :=
        match bone.parentId with
        | none => bones
        | some pid =>
          updateBone bones pid
            (fun p => { p with children := p.children.filter (fun c => c ≠ id) })
      let kids := match getBone bones1 id with
        | some b => b.children
        | none => []
      removeBone (deleteList fuel bones1 kids) id
termination_by fuel _ _ => (fuel, 0)

/-- The `bone.children.forEach(childId => this.deleteBone(childId))` loop. -/
def deleteList : ℕ → Bones → List String → Bones
  | _, bones, [] => bones
  | fuel, bones, cid :: rest => deleteList fuel (deleteBone fuel bones cid) rest
termination_by fuel _ kids => (fuel, kids.length + 1)

end

/-- IK iteration budget (bones.ts 33). -/
def ikIterations : ℕ := 10

/-- IK stop tolerance (bones.ts 34). -/
def ikTolerance : ℝ := 1 / 10

/-- The ancestor-chain construction of `solveIK` (bones.ts 194-200): walk the
`parentId` links from the effector to the root, listing ids root-first.
`fuel` models the JS `while` loop, which would not terminate on a cyclic
parent graph. -/
def buildChain : ℕ → Bones → String → List String
  | 0, _, id => [id]
  | fuel + 1, bones, id =>
    match getBone bones id with
    | none => [id]
    | some bone =>
      match bone.parentId with
      | none => [id]
      | some pid =>
        match getBone bones pid with
        | none => [id]
        | some _ => buildChain fuel bones pid ++ [id]

/-- `BoneSystem.getChainEnd` (bones.ts 235-238): the end point of the chain's
last bone (the chain is never empty at call sites). -/
def getChainEnd (bones : Bones) (chain : List String) : Vector2 :=
  match chain.getLast? with
  | none => ⟨0, 0⟩
  | some lastId =>
    match getBone bones lastId with
    | none => ⟨0, 0⟩
    | some b => getBoneEnd b

/-- One joint adjustment of the CCD inner loop (bones.ts 212-229), given the
end-effector position computed for this joint: rotate the joint by
`atan2(cross, dot)` of the unit vectors toward the target and toward the
end-effector, then propagate positions down the joint's subtree. -/
def ccdJointUpdate (bones : Bones) (endEffector target : Vector2) (id : String) :
    Bones :=
  match getBone bones id with
  | none => bones
  | some cb =>
    let toTarget := normalize ⟨target.x - cb.x, target.y - cb.y⟩
    let toEnd := normalize ⟨endEffector.x - cb.x, endEffector.y - cb.y⟩
    let cross := toTarget.x * toEnd.y - toTarget.y * toEnd.x
    let dot := toTarget.x * toEnd.x + toTarget.y * toEnd.y
    let angleDiff := atan2 cross dot
    let bones1 := updateBone bones id (fun b => { b with angle := b.angle + angleDiff })
    updateBonePosition bones1.length bones1 id

/-- One CCD pass over the chain, effector joint first (bones.ts 204-230):
before each joint the end effector is recomputed and the early-exit tolerance
check performed; `Sum.inl` signals the early `return` from `solveIK`. -/
def ccdPass (target : Vector2) (chain : List String) :
    List String → Bones → Bones ⊕ Bones
  | [], bones => Sum.inr bones
  | id :: rest, bones =>
    let e := getChainEnd bones chain
    if distance e target < ikTolerance then Sum.inl bones
    else ccdPass target chain rest (ccdJointUpdate bones e target id)
termination_by l _ => l.length

/-- The outer `for (iter …)` loop of `solveIK` (bones.ts 203): up to
`ikIterations` passes, stopping early when a pass returned. -/
def ccdIterate (target : Vector2) (chain : List String) : ℕ → Bones → Bones
  | 0, bones => bones
  | n + 1, bones =>
    match ccdPass target chain chain.reverse bones with
    | Sum.inl bones' => bones'
    | Sum.inr bones' => ccdIterate target chain n bones'

/-- `BoneSystem.solveIK` (bones.ts 189-232): no-op on a missing bone,
otherwise CCD on the ancestor chain of the effector bone. -/
def solveIK (bones : Bones) (boneId : String) (target : Vector2) : Bones :=
  match getBone bones boneId with
  | none => bones
  | some _ => ccdIterate target (buildChain bones.length bones boneId) ikIterations bones

/-- The public mutating operations of `BoneSystem` (C3's operation
alphabet). -/
inductive Op where
  | create (id name : String) (x y len angle : ℝ) (ty : BoneType)
      (parentId : Option String)
  | delete (id : String)
  | move (id : String) (pos : Vector2)
  | setAngle (id : String) (angle : ℝ)
  | ik (id : String) (target : Vector2)

/-- Run one public operation on the store. -/
def execOp (bones : Bones) : Op → Bones
  | .create id name x y len angle ty parentId =>
      createBone bones id name x y len angle ty parentId
  | .delete id => deleteBone bones.length bones id
  | .move id pos => moveBone bones id pos
  | .setAngle id angle => setBoneAngle bones id angle
  | .ik id target => solveIK bones id target

/-- Run a sequence of public operations. -/
def execOps (bones : Bones) (ops : List Op) : Bones := ops.foldl execOp bones

/-! ## Store lemmas for the bone system -/

/-- A bone record with its cached position scrubbed; two stores agree up to
positions when their scrubbed entry lists coincide. -/
def scrubB (b : BoneData) : BoneData := { b with x := 0, y := 0 }

/-- A store entry with the position scrubbed. -/
def scrubP (p : String × BoneData) : String × BoneData := (p.1, scrubB p.2)

/-- Mutating a bone in place leaves the store untouched when the mutation
fixes every entry stored under the id. -/
theorem updateBone_self :
    ∀ (s : Bones) (bid : String) (g : BoneData → BoneData),
      (∀ p ∈ s, p.1 = bid → g p.2 = p.2) → updateBone s bid g = s
  | [], _, _, _ => rfl
  | p :: s, bid, g, h => by
    simp only [updateBone, List.map_cons]
    have ht := updateBone_self s bid g (fun q hq => h q (List.mem_cons_of_mem _ hq))
    simp only [updateBone] at ht
    rw [ht]
    by_cases hpe : p.1 = bid
    · rw [if_pos hpe, h p (by simp) hpe]
    · rw [if_neg hpe]

/-- A position-only in-place mutation preserves the scrubbed store. -/
theorem updateBone_scrub (s : Bones) (bid : String) (g : BoneData → BoneData)
    (hg : ∀ b, scrubB (g b) = scrubB b) :
    (updateBone s bid g).map scrubP = s.map scrubP := by
  rw [updateBone, List.map_map]
  apply List.map_congr_left
  intro p _
  by_cases hpe : p.1 = bid
  · simp only [Function.comp_apply, if_pos hpe, scrubP, hg]
  · simp only [Function.comp_apply, if_neg hpe]

/-- `updateBonePosition` only moves cached positions. -/
theorem updateBonePosition_scrub :
    ∀ fuel, ∀ (bid : String) (s : Bones),
      (updateBonePosition fuel s bid).map scrubP = s.map scrubP := by
  intro fuel
  induction fuel with
  | zero => intro bid s; rw [updateBonePosition]
  | succ fuel ih =>
    have hkids : ∀ (kids : List String) (s : Bones),
        (updateChildrenPositions fuel s kids).map scrubP = s.map scrubP := by
      intro kids
      induction kids with
      | nil => intro s; rw [updateChildrenPositions]
      | cons cid rest ihk =>
        intro s
        simp only [updateChildrenPositions]
        rw [ihk]
        split
        · exact ih cid s
        · rfl
    intro bid s
    cases hb : getBone s bid with
    | none => simp only [updateBonePosition, hb]
    | some bone =>
      cases hp : bone.parentId with
      | none =>
        simp only [updateBonePosition, hb, hp]
        exact hkids bone.children s
      | some pid =>
        cases hpp : getBone s pid with
        | none =>
          simp only [updateBonePosition, hb, hp, hpp]
          exact hkids bone.children s
        | some parent =>
          simp only [updateBonePosition, hb, hp, hpp]
          rw [hkids]
          exact updateBone_scrub s bid _ (fun b => rfl)

/-- Scrubbed-store equality transfers `getBone` lookups up to scrubbing. -/
theorem getBone_scrub_congr (s s' : Bones)
    (h : s'.map scrubP = s.map scrubP) (q : String) :
    (getBone s' q).map scrubB = (getBone s q).map scrubB := by
  have hf : ∀ t : Bones,
      (t.map scrubP).find? (fun p => p.1 = q) =
        (t.find? (fun p => p.1 = q)).map scrubP := by
    intro t
    rw [List.find?_map]
    rfl
  have h1 := hf s'
  have h2 := hf s
  rw [h] at h1
  rw [h2] at h1
  rw [getBone, getBone]
  cases hs' : s'.find? (fun p => p.1 = q) with
  | none =>
    rw [hs'] at h1
    cases hs : s.find? (fun p => p.1 = q) with
    | some v => rw [hs] at h1; simp at h1
    | none => rfl
  | some v' =>
    rw [hs'] at h1
    cases hs : s.find? (fun p => p.1 = q) with
    | none => rw [hs] at h1; simp at h1
    | some v =>
      rw [hs] at h1
      have hpv : scrubP v' = scrubP v := by simpa using h1.symm
      have hb : scrubB v'.2 = scrubB v.2 := congrArg Prod.snd hpv
      simp [hb]

/-- Scrubbed-store equality preserves every bone's angle. -/
theorem getBone_angle_of_scrub (s s' : Bones)
    (h : s'.map scrubP = s.map scrubP) (q : String) :
    (getBone s' q).map (·.angle) = (getBone s q).map (·.angle) := by
  have hsc := getBone_scrub_congr s s' h q
  cases h1 : getBone s' q with
  | none =>
    rw [h1] at hsc
    cases h2 : getBone s q with
    | none => rfl
    | some b => rw [h2] at hsc; simp at hsc
  | some b' =>
    rw [h1] at hsc
    cases h2 : getBone s q with
    | none => rw [h2] at hsc; simp at hsc
    | some b =>
      rw [h2] at hsc
      have hb : scrubB b' = scrubB b := by simpa using hsc
      have hangle : b'.angle = b.angle := by
        have h3 := congrArg BoneData.angle hb
        simpa [scrubB] using h3
      simp [hangle]

/-! ## C9 -/

/-- `normalize` maps the zero vector to the zero vector. -/
theorem normalize_zero : normalize ⟨0, 0⟩ = ⟨0, 0⟩ := by
  simp [normalize]

/-- `atan2 0 0 = 0`, as `Math.atan2(0, 0)` in JS. -/
theorem atan2_zero_zero : atan2 0 0 = 0 := Complex.arg_zero

/-- C9: `normalize` maps the zero vector to `(0, 0)` instead of dividing by
zero, `atan2(0, 0) = 0`, and whenever a CCD joint's origin coincides with the
target or with the current end-effector the computed `angleDiff` is 0: the
joint step degenerates to a pure position propagation and no bone's angle
changes, so `solveIK` never produces a division by zero there. -/
theorem ccdJointUpdate_degenerate (bones : Bones) (e target : Vector2)
    (bid : String) (cb : BoneData) (hget : getBone bones bid = some cb)
    (hdeg : target = ⟨cb.x, cb.y⟩ ∨ e = ⟨cb.x, cb.y⟩) :
    normalize ⟨0, 0⟩ = ⟨0, 0⟩ ∧ atan2 0 0 = 0 ∧
    ccdJointUpdate bones e target bid =
      updateBonePosition bones.length bones bid ∧
    (∀ q, (getBone (ccdJointUpdate bones e target bid) q).map (·.angle) =
      (getBone bones q).map (·.angle)) := by
  have hcross : ccdJointUpdate bones e target bid =
      updateBonePosition bones.length bones bid := by
    simp only [ccdJointUpdate, hget]
    have hdiff :
        atan2 ((normalize ⟨target.x - cb.x, target.y - cb.y⟩).x *
            (normalize ⟨e.x - cb.x, e.y - cb.y⟩).y -
          (normalize ⟨target.x - cb.x, target.y - cb.y⟩).y *
            (normalize ⟨e.x - cb.x, e.y - cb.y⟩).x)
          ((normalize ⟨target.x - cb.x, target.y - cb.y⟩).x *
            (normalize ⟨e.x - cb.x, e.y - cb.y⟩).x +
          (normalize ⟨target.x - cb.x, target.y - cb.y⟩).y *
            (normalize ⟨e.x - cb.x, e.y - cb.y⟩).y) = 0 := by
      rcases hdeg with rfl | rfl
      · simp [normalize_zero, atan2_zero_zero]
      · simp [normalize_zero, atan2_zero_zero]
    rw [hdiff]
    have hub : updateBone bones bid (fun b => { b with angle := b.angle + 0 })
        = bones :=
      updateBone_self bones bid _ (fun p _ _ => by simp)
    rw [hub]
  refine ⟨normalize_zero, atan2_zero_zero, hcross, fun q => ?_⟩
  rw [hcross]
  exact getBone_angle_of_scrub bones _ (updateBonePosition_scrub _ bid bones) q

/-- Witness bone for C9. -/
def c9bone : BoneData := ⟨"c9", "n", 0, 0, 1, 0, "#00ff88", 3, none, [], .FK, false⟩

/-- Witness store for C9. -/
def c9s : Bones := [("c9", c9bone)]

/-- Witness for C9: a joint sitting exactly on the target. -/
theorem ccdJointUpdate_degenerate_witness :
    normalize ⟨0, 0⟩ = ⟨0, 0⟩ ∧ atan2 0 0 = 0 ∧
    ccdJointUpdate c9s ⟨5, 5⟩ ⟨0, 0⟩ "c9" =
      updateBonePosition c9s.length c9s "c9" ∧
    (∀ q, (getBone (ccdJointUpdate c9s ⟨5, 5⟩ ⟨0, 0⟩ "c9") q).map (·.angle) =
      (getBone c9s q).map (·.angle)) :=
  ccdJointUpdate_degenerate c9s ⟨5, 5⟩ ⟨0, 0⟩ "c9" c9bone
    (by simp [getBone, c9s]) (Or.inl (by simp [c9bone]))

/-! ## C1: CCD on a collinear two-bone chain -/

/-- `normalize` of a positive x-axis vector is the unit x vector. -/
theorem normalize_pos (a : ℝ) (ha : 0 < a) : normalize ⟨a, 0⟩ = ⟨1, 0⟩ := by
  have hs : Real.sqrt (a ^ 2) = a := Real.sqrt_sq ha.le
  simp [normalize, hs, ha, ne_of_gt ha]

/-- `distance` along the x axis. -/
theorem distance_xaxis (x1 x2 : ℝ) : distance ⟨x1, 0⟩ ⟨x2, 0⟩ = |x2 - x1| := by
  rw [distance]
  rw [show ((⟨x2, 0⟩ : Vector2).x - (⟨x1, 0⟩ : Vector2).x) ^ 2 +
      ((⟨x2, 0⟩ : Vector2).y - (⟨x1, 0⟩ : Vector2).y) ^ 2 = (x2 - x1) ^ 2 from by
    simp]
  exact Real.sqrt_sq_eq_abs _

/-- `atan2 0 1 = 0`: collinear vectors need no rotation. -/
theorem atan2_zero_one : atan2 0 1 = 0 := Complex.arg_one

/-- The root bone of the collinear two-bone chain. -/
def b1rec (L1 : ℝ) : BoneData :=
  ⟨"b1", "root", 0, 0, L1, 0, "#00ff88", 3, none, ["b2"], .FK, false⟩

/-- The child bone of the collinear two-bone chain. -/
def b2rec (L1 L2 : ℝ) : BoneData :=
  ⟨"b2", "child", L1, 0, L2, 0, "#00ff88", 3, some "b1", [], .FK, false⟩

/-- The two-bone store: root at the origin, child at the root's end, both at
angle 0. -/
def chainState (L1 L2 : ℝ) : Bones := [("b1", b1rec L1), ("b2", b2rec L1 L2)]

/-- The chain as built by two `createBone` calls (the child's supplied
coordinates (9, 9) are overridden to the parent's end). -/
def twoBoneChain (L1 L2 : ℝ) : Bones :=
  createBone (createBone [] "b1" "root" 0 0 L1 0 .FK none)
    "b2" "child" 9 9 L2 0 .FK (some "b1")

theorem b1rec_parent (L1 : ℝ) : (b1rec L1).parentId = none := rfl

theorem b1rec_children (L1 : ℝ) : (b1rec L1).children = ["b2"] := rfl

theorem b2rec_parent (L1 L2 : ℝ) : (b2rec L1 L2).parentId = some "b1" := rfl

theorem b2rec_children (L1 L2 : ℝ) : (b2rec L1 L2).children = [] := rfl

theorem b2rec_x (L1 L2 : ℝ) : (b2rec L1 L2).x = L1 := rfl

theorem b2rec_y (L1 L2 : ℝ) : (b2rec L1 L2).y = 0 := rfl

theorem b1rec_x (L1 : ℝ) : (b1rec L1).x = 0 := rfl

theorem b1rec_y (L1 : ℝ) : (b1rec L1).y = 0 := rfl

/-- Lookup of the root in the chain store. -/
theorem getBone_b1 (L1 L2 : ℝ) :
    getBone (chainState L1 L2) "b1" = some (b1rec L1) := by
  simp [getBone, chainState]

/-- Lookup of the child in the chain store. -/
theorem getBone_b2 (L1 L2 : ℝ) :
    getBone (chainState L1 L2) "b2" = some (b2rec L1 L2) := by
  simp [getBone, chainState]

/-- The end of the root bone is the child's origin. -/
theorem b1rec_end (L1 : ℝ) : getBoneEnd (b1rec L1) = ⟨L1, 0⟩ := by
  simp [getBoneEnd, b1rec]

/-- The end of the child bone is the chain's end effector. -/
theorem b2rec_end (L1 L2 : ℝ) : getBoneEnd (b2rec L1 L2) = ⟨L1 + L2, 0⟩ := by
  simp [getBoneEnd, b2rec]

/-- Building the chain via `createBone` yields exactly the collinear store. -/
theorem twoBoneChain_eq (L1 L2 : ℝ) : twoBoneChain L1 L2 = chainState L1 L2 := by
  simp [twoBoneChain, createBone, setBone, getBone, updateBone, getBoneEnd,
    chainState, b1rec, b2rec]

/-- Snapping the child's position to the root's end is a no-op on the chain
store. -/
theorem chainState_b2_reposition (L1 L2 : ℝ) :
    updateBone (chainState L1 L2) "b2" (fun b =>
      { b with x := (getBoneEnd (b1rec L1)).x, y := (getBoneEnd (b1rec L1)).y })
    = chainState L1 L2 := by
  apply updateBone_self
  intro p hp hpe
  simp only [chainState, List.mem_cons, List.mem_singleton] at hp
  rcases hp with rfl | hp
  · simp at hpe
  · rcases hp with rfl | hp
    · simp [b2rec, b1rec_end]
    · simp at hp

/-- Propagating the child's position is a no-op on the chain store. -/
theorem ubp_b2 (L1 L2 : ℝ) (fuel : ℕ) :
    updateBonePosition (fuel + 1) (chainState L1 L2) "b2" = chainState L1 L2 := by
  simp only [updateBonePosition, getBone_b2, b2rec_parent, getBone_b1,
    b2rec_children, chainState_b2_reposition]
  rw [updateChildrenPositions]

/-- Propagating the root's position is a no-op on the chain store. -/
theorem ubp_b1 (L1 L2 : ℝ) (fuel : ℕ) :
    updateBonePosition (fuel + 2) (chainState L1 L2) "b1" = chainState L1 L2 := by
  simp only [updateBonePosition, getBone_b1, b1rec_parent, b1rec_children]
  simp only [updateChildrenPositions, getBone_b2, Option.isSome_some, if_true]
  rw [ubp_b2]

/-- The CCD joint step at the child is the identity on the collinear chain
pointing at a collinear target beyond the child's origin. -/
theorem ccdJoint_b2 (L1 L2 t : ℝ) (h2 : 0 < L2) (h3 : L1 < t) :
    ccdJointUpdate (chainState L1 L2) ⟨L1 + L2, 0⟩ ⟨t, 0⟩ "b2"
      = chainState L1 L2 := by
  simp only [ccdJointUpdate, getBone_b2, b2rec_x, b2rec_y, sub_zero,
    add_sub_cancel_left]
  rw [normalize_pos (t - L1) (by linarith), normalize_pos L2 h2]
  norm_num
  rw [atan2_zero_one]
  rw [updateBone_self (chainState L1 L2) "b2" _ (fun p _ _ => by simp)]
  rw [show (chainState L1 L2).length = 2 from rfl]
  exact ubp_b2 L1 L2 1

/-- The CCD joint step at the root is the identity on the collinear chain. -/
theorem ccdJoint_b1 (L1 L2 t : ℝ) (h1 : 0 < L1) (h2 : 0 < L2) (h3 : L1 < t) :
    ccdJointUpdate (chainState L1 L2) ⟨L1 + L2, 0⟩ ⟨t, 0⟩ "b1"
      = chainState L1 L2 := by
  simp only [ccdJointUpdate, getBone_b1, b1rec_x, b1rec_y, sub_zero]
  rw [normalize_pos t (by linarith), normalize_pos (L1 + L2) (by linarith)]
  norm_num
  rw [atan2_zero_one]
  rw [updateBone_self (chainState L1 L2) "b1" _ (fun p _ _ => by simp)]
  rw [show (chainState L1 L2).length = 2 from rfl]
  exact ubp_b1 L1 L2 0

/-- The chain's end effector on the collinear store. -/
theorem chainEnd_eval (L1 L2 : ℝ) :
    getChainEnd (chainState L1 L2) ["b1", "b2"] = ⟨L1 + L2, 0⟩ := by
  simp [getChainEnd, getBone_b2, b2rec_end]

/-- A full CCD pass over the collinear chain changes nothing and does not
trigger the early exit when the target is at least the tolerance short of the
end effector. -/
theorem ccdPass_fixed (L1 L2 t : ℝ) (h1 : 0 < L1) (h2 : 0 < L2) (h3 : L1 < t)
    (h4 : t + ikTolerance ≤ L1 + L2) :
    ccdPass ⟨t, 0⟩ ["b1", "b2"] ["b2", "b1"] (chainState L1 L2)
      = Sum.inr (chainState L1 L2) := by
  have h4' : t + 1 / 10 ≤ L1 + L2 := by rw [ikTolerance] at h4; exact h4
  have hdist : distance ⟨L1 + L2, 0⟩ ⟨t, 0⟩ = L1 + L2 - t := by
    rw [distance_xaxis, abs_of_nonpos (by linarith)]
    ring
  have hnlt : ¬ (L1 + L2 - t < ikTolerance) := by
    rw [ikTolerance]
    intro hlt
    linarith
  rw [ccdPass]
  simp only [chainEnd_eval, hdist]
  rw [if_neg hnlt, ccdJoint_b2 L1 L2 t h2 h3]
  rw [ccdPass]
  simp only [chainEnd_eval, hdist]
  rw [if_neg hnlt, ccdJoint_b1 L1 L2 t h1 h2 h3]
  rw [ccdPass]

/-- Every number of CCD iterations fixes the collinear chain. -/
theorem ccdIterate_fixed (L1 L2 t : ℝ) (h1 : 0 < L1) (h2 : 0 < L2)
    (h3 : L1 < t) (h4 : t + ikTolerance ≤ L1 + L2) :
    ∀ n, ccdIterate ⟨t, 0⟩ ["b1", "b2"] n (chainState L1 L2) = chainState L1 L2
  | 0 => by rw [ccdIterate]
  | n + 1 => by
    rw [ccdIterate]
    rw [show (["b1", "b2"] : List String).reverse = ["b2", "b1"] from rfl]
    rw [ccdPass_fixed L1 L2 t h1 h2 h3 h4]
    exact ccdIterate_fixed L1 L2 t h1 h2 h3 h4 n

/-- The ancestor chain of the child bone. -/
theorem buildChain_eval (L1 L2 : ℝ) :
    buildChain 2 (chainState L1 L2) "b2" = ["b1", "b2"] := by
  simp [buildChain, getBone_b2, getBone_b1, b2rec_parent, b1rec_parent]

/-- Shared computation for C1: on the collinear two-bone chain with a target
on the chain axis strictly beyond the first joint and at least the tolerance
short of the end effector, `solveIK` is the identity and the final distance
is exactly the initial gap. -/
theorem solveIK_collinear_aux (L1 L2 t : ℝ) (h1 : 0 < L1) (h2 : 0 < L2)
    (h3 : L1 < t) (h4 : t + ikTolerance ≤ L1 + L2) :
    solveIK (twoBoneChain L1 L2) "b2" ⟨t, 0⟩ = twoBoneChain L1 L2 ∧
    (getBone (solveIK (twoBoneChain L1 L2) "b2" ⟨t, 0⟩) "b2").map
      (fun b => distance (getBoneEnd b) ⟨t, 0⟩) = some (L1 + L2 - t) ∧
    ¬ (L1 + L2 - t < ikTolerance) := by
  have h4' : t + 1 / 10 ≤ L1 + L2 := by rw [ikTolerance] at h4; exact h4
  have hnlt : ¬ (L1 + L2 - t < ikTolerance) := by
    rw [ikTolerance]
    intro hlt
    linarith
  have hsolve : solveIK (twoBoneChain L1 L2) "b2" ⟨t, 0⟩ = twoBoneChain L1 L2 := by
    rw [twoBoneChain_eq]
    simp only [solveIK, getBone_b2]
    rw [show (chainState L1 L2).length = 2 from rfl, buildChain_eval]
    exact ccdIterate_fixed L1 L2 t h1 h2 h3 h4 ikIterations
  refine ⟨hsolve, ?_, hnlt⟩
  rw [hsolve, twoBoneChain_eq, getBone_b2]
  simp only [Option.map]
  rw [b2rec_end]
  rw [distance_xaxis, abs_of_nonpos (by linarith)]
  ring_nf

/-- C1 (corrected): `solveIK` with the default settings does NOT bring every
reachable target within `ikTolerance`.  On a two-bone chain extended along the
x axis, any target on the chain axis strictly beyond the first joint and at
least `ikTolerance` short of the end effector (hence reachable:
`|target| = t ≤ L1 + L2`) is a fixed point of the CCD update — every
`atan2(cross, dot)` is `atan2 0 1 = 0` — so after `solveIK` the end-effector
distance equals the initial gap `L1 + L2 - t`, which is not below the
tolerance. -/
theorem solveIK_collinear_no_convergence (L1 L2 t : ℝ) (h1 : 0 < L1)
    (h2 : 0 < L2) (h3 : L1 < t) (h4 : t + ikTolerance ≤ L1 + L2) :
    solveIK (twoBoneChain L1 L2) "b2" ⟨t, 0⟩ = twoBoneChain L1 L2 ∧
    (getBone (solveIK (twoBoneChain L1 L2) "b2" ⟨t, 0⟩) "b2").map
      (fun b => distance (getBoneEnd b) ⟨t, 0⟩) = some (L1 + L2 - t) ∧
    ¬ (L1 + L2 - t < ikTolerance) :=
  solveIK_collinear_aux L1 L2 t h1 h2 h3 h4

/-- Witness for C1's amended statement at `L1 = L2 = 1`, target `(3/2, 0)`. -/
theorem solveIK_collinear_no_convergence_witness :
    solveIK (twoBoneChain 1 1) "b2" ⟨3/2, 0⟩ = twoBoneChain 1 1 ∧
    (getBone (solveIK (twoBoneChain 1 1) "b2" ⟨3/2, 0⟩) "b2").map
      (fun b => distance (getBoneEnd b) ⟨3/2, 0⟩) = some (1 + 1 - 3/2) ∧
    ¬ ((1:ℝ) + 1 - 3/2 < ikTolerance) :=
  solveIK_collinear_no_convergence 1 1 (3/2) (by norm_num) (by norm_num)
    (by norm_num) (by rw [ikTolerance]; norm_num)

/-- C1 counterexample: on the chain with `L1 = L2 = 1` the target `(3/2, 0)`
is reachable (`|target| = 3/2 ≤ 2`), yet after `solveIK` with the default 10
iterations and tolerance `1/10` the end-effector distance is `1/2`, not below
the tolerance — refuting the claimed reachable-target convergence. -/
theorem solveIK_reachable_not_within_tolerance :
    Real.sqrt ((3/2) ^ 2 + 0 ^ 2) ≤ 1 + 1 ∧
    (getBone (solveIK (twoBoneChain 1 1) "b2" ⟨3/2, 0⟩) "b2").map
      (fun b => distance (getBoneEnd b) ⟨3/2, 0⟩) = some (1/2) ∧
    ¬ ((1/2 : ℝ) < ikTolerance) := by
  have h := solveIK_collinear_aux 1 1 (3/2) (by norm_num) (by norm_num)
    (by norm_num) (by rw [ikTolerance]; norm_num)
  refine ⟨?_, ?_, ?_⟩
  · rw [show ((3:ℝ)/2) ^ 2 + 0 ^ 2 = (3/2) ^ 2 by ring,
      Real.sqrt_sq (by norm_num)]
    norm_num
  · rw [h.2.1]
    norm_num
  · rw [ikTolerance]
    norm_num

/-! ## C8: moveBone rigidly translates the subtree -/

/-- The rigid shift applied by `moveChildren` to each descendant record. -/
def shiftB (dx dy : ℝ) (b : BoneData) : BoneData :=
  { b with x := b.x + dx, y := b.y + dy }

/-- The ids visited by `moveChildren`, in visit order, mirroring its recursion
(including its fuel cut-off). -/
def subtreeIds : ℕ → Bones → List String → List String
  | 0, _, _ => []
  | _ + 1, _, [] => []
  | fuel + 1, bones, cid :: rest =>
    match getBone bones cid with
    | none => subtreeIds (fuel + 1) bones rest
    | some child =>
      cid :: (subtreeIds fuel bones child.children ++ subtreeIds (fuel + 1) bones rest)
termination_by fuel _ kids => (fuel, kids.length)

/-- `getBone` on a cons whose head key matches. -/
theorem getBone_cons_hit (p : String × BoneData) (s : Bones) (q : String)
    (h : p.1 = q) : getBone (p :: s) q = some p.2 := by
  rw [getBone, List.find?_cons_of_pos _ (by simp [h])]
  rfl

/-- `getBone` on a cons whose head key differs. -/
theorem getBone_cons_miss (p : String × BoneData) (s : Bones) (q : String)
    (h : ¬ p.1 = q) : getBone (p :: s) q = getBone s q := by
  rw [getBone, List.find?_cons_of_neg _ (by simp [h])]
  rfl

/-- `getBone` after an in-place mutation. -/
theorem getBone_updateBone (s : Bones) (bid : String) (g : BoneData → BoneData)
    (q : String) :
    getBone (updateBone s bid g) q =
      if q = bid then (getBone s bid).map g else getBone s q := by
  induction s with
  | nil =>
    rw [updateBone]
    simp [getBone]
  | cons p s ih =>
    simp only [updateBone, List.map_cons]
    by_cases hpb : p.1 = bid
    · rw [if_pos hpb]
      by_cases hpq : p.1 = q
      · have hq : q = bid := hpq.symm.trans hpb
        rw [getBone_cons_hit (p.1, g p.2) _ q hpq, if_pos hq,
          getBone_cons_hit p _ bid hpb]
        simp
      · have hq : ¬ q = bid := fun h => hpq (hpb.trans h.symm)
        rw [getBone_cons_miss (p.1, g p.2) _ q hpq, if_neg hq,
          getBone_cons_miss p _ q hpq]
        have hih := ih
        rw [if_neg hq] at hih
        exact hih
    · rw [if_neg hpb]
      by_cases hpq : p.1 = q
      · have hq : ¬ q = bid := fun h => hpb (hpq.trans h)
        rw [getBone_cons_hit p _ q hpq, if_neg hq, getBone_cons_hit p _ q hpq]
      · rw [getBone_cons_miss p _ q hpq]
        by_cases hq : q = bid
        · rw [if_pos hq, getBone_cons_miss p _ bid hpb]
          have hih := ih
          rw [if_pos hq] at hih
          exact hih
        · rw [if_neg hq, getBone_cons_miss p _ q hpq]
          have hih := ih
          rw [if_neg hq] at hih
          exact hih

/-- `moveChildren` only moves cached positions. -/
theorem moveChildren_scrub (dx dy : ℝ) :
    ∀ fuel (s : Bones) (kids : List String),
      (moveChildren dx dy fuel s kids).map scrubP = s.map scrubP := by
  intro fuel
  induction fuel with
  | zero =>
    intro s kids
    rw [moveChildren]
  | succ fuel ih =>
    intro s kids
    induction kids generalizing s with
    | nil => rw [moveChildren]
    | cons cid rest ihk =>
      cases h1 : getBone s cid with
      | none =>
        simp only [moveChildren, h1]
        exact ihk s
      | some child =>
        simp only [moveChildren, h1]
        rw [ihk _, ih _ _]
        exact updateBone_scrub s cid _ (fun b => rfl)

/-- `subtreeIds` only looks at the scrubbed store. -/
theorem subtreeIds_congr (s s' : Bones) (h : s'.map scrubP = s.map scrubP) :
    ∀ fuel kids, subtreeIds fuel s' kids = subtreeIds fuel s kids := by
  intro fuel
  induction fuel with
  | zero => intro kids; rw [subtreeIds, subtreeIds]
  | succ fuel ih =>
    intro kids
    induction kids with
    | nil => rw [subtreeIds, subtreeIds]
    | cons cid rest ihk =>
      have hg := getBone_scrub_congr s s' h cid
      cases h1 : getBone s' cid with
      | none =>
        rw [h1] at hg
        have h2 : getBone s cid = none := by
          cases h2 : getBone s cid with
          | none => rfl
          | some b => rw [h2] at hg; simp at hg
        simp only [subtreeIds, h1, h2]
        exact ihk
      | some child' =>
        rw [h1] at hg
        cases h2 : getBone s cid with
        | none => rw [h2] at hg; simp at hg
        | some child =>
          rw [h2] at hg
          have hb : scrubB child' = scrubB child := by simpa using hg
          have hcc : child'.children = child.children := by
            have h3 := congrArg BoneData.children hb
            simpa [scrubB] using h3
          simp only [subtreeIds, h1, h2, hcc]
          rw [ih child.children, ihk]

/-- `moveChildren` shifts exactly the bones listed by `subtreeIds` (visited
once each, by the `Nodup` hypothesis), by `(dx, dy)`, and leaves every other
entry untouched. -/
theorem moveChildren_spec (dx dy : ℝ) :
    ∀ fuel (s : Bones) (kids : List String), (subtreeIds fuel s kids).Nodup →
      ∀ q, getBone (moveChildren dx dy fuel s kids) q =
        if q ∈ subtreeIds fuel s kids then (getBone s q).map (shiftB dx dy)
        else getBone s q := by
  intro fuel
  induction fuel with
  | zero =>
    intro s kids _ q
    rw [moveChildren, subtreeIds]
    simp
  | succ fuel ih =>
    intro s kids
    induction kids generalizing s with
    | nil =>
      intro _ q
      rw [moveChildren, subtreeIds]
      simp
    | cons cid rest ihk =>
      intro hnd q
      cases h1 : getBone s cid with
      | none =>
        simp only [subtreeIds, h1] at hnd ⊢
        simp only [moveChildren, h1]
        exact ihk s hnd q
      | some child =>
        simp only [subtreeIds, h1] at hnd ⊢
        simp only [moveChildren, h1]
        rw [List.nodup_cons] at hnd
        obtain ⟨hcid, hnd12⟩ := hnd
        rw [List.nodup_append] at hnd12
        obtain ⟨hnd1, hnd2, hdisj⟩ := hnd12
        have hscr1 : (updateBone s cid (fun b =>
            { b with x := b.x + dx, y := b.y + dy })).map scrubP = s.map scrubP :=
          updateBone_scrub s cid _ (fun b => rfl)
        have hscr2 : (moveChildren dx dy fuel
            (updateBone s cid (fun b => { b with x := b.x + dx, y := b.y + dy }))
            child.children).map scrubP = s.map scrubP := by
          rw [moveChildren_scrub]
          exact hscr1
        have hS1 : subtreeIds fuel
            (updateBone s cid (fun b => { b with x := b.x + dx, y := b.y + dy }))
            child.children = subtreeIds fuel s child.children :=
          subtreeIds_congr s _ hscr1 fuel _
        have hS2 : subtreeIds (fuel + 1)
            (moveChildren dx dy fuel
              (updateBone s cid (fun b => { b with x := b.x + dx, y := b.y + dy }))
              child.children) rest = subtreeIds (fuel + 1) s rest :=
          subtreeIds_congr s _ hscr2 (fuel + 1) _
        have hB1 := getBone_updateBone s cid
          (fun b => { b with x := b.x + dx, y := b.y + dy })
        have hInner := ih
          (updateBone s cid (fun b => { b with x := b.x + dx, y := b.y + dy }))
          child.children (by rw [hS1]; exact hnd1)
        have hOuter := ihk
          (moveChildren dx dy fuel
            (updateBone s cid (fun b => { b with x := b.x + dx, y := b.y + dy }))
            child.children) (by rw [hS2]; exact hnd2)
        rw [hOuter q, hS2, hInner q, hS1, hB1 q]
        by_cases hq1 : q = cid
        · subst hq1
          have hq2 : q ∉ subtreeIds fuel s child.children := fun hm =>
            hcid (List.mem_append_left _ hm)
          have hq3 : q ∉ subtreeIds (fuel + 1) s rest := fun hm =>
            hcid (List.mem_append_right _ hm)
          simp [hq2, hq3, h1, shiftB]
        · by_cases hq2 : q ∈ subtreeIds fuel s child.children
          · have hq3 : q ∉ subtreeIds (fuel + 1) s rest := fun hm =>
              (List.disjoint_left.mp hdisj hq2) hm
            simp [hq1, hq2, hq3]
          · by_cases hq3 : q ∈ subtreeIds (fuel + 1) s rest
            · simp [hq1, hq2, hq3]
            · simp [hq1, hq2, hq3]

/-- C8: for an existing bone `b` and a target position, `moveBone` shifts `b`
and every bone in its descendant traversal by the same `(dx, dy)` (where
`dx = pos.x - b.x`, `dy = pos.y - b.y`), leaves every other bone's entry
untouched, and modifies no field other than the cached position: each moved
bone keeps its position relative to `b` (and hence all pairwise offsets
within the subtree) and its angle, length and all remaining fields.  The
`Nodup` hypothesis is the forest invariant: the traversal visits no bone
twice. -/
theorem moveBone_spec (bones : Bones) (bid : String) (pos : Vector2)
    (b : BoneData) (hb : getBone bones bid = some b)
    (hnd : (bid :: subtreeIds bones.length bones b.children).Nodup) :
    (∀ q, getBone (moveBone bones bid pos) q =
      if q = bid ∨ q ∈ subtreeIds bones.length bones b.children
      then (getBone bones q).map (shiftB (pos.x - b.x) (pos.y - b.y))
      else getBone bones q) ∧
    (∀ q bq bq', (q = bid ∨ q ∈ subtreeIds bones.length bones b.children) →
      getBone bones q = some bq →
      getBone (moveBone bones bid pos) q = some bq' →
      bq'.x - pos.x = bq.x - b.x ∧ bq'.y - pos.y = bq.y - b.y ∧
      bq'.angle = bq.angle ∧ bq'.length = bq.length ∧ bq'.id = bq.id ∧
      bq'.name = bq.name ∧ bq'.color = bq.color ∧
      bq'.thickness = bq.thickness ∧ bq'.parentId = bq.parentId ∧
      bq'.children = bq.children ∧ bq'.type = bq.type ∧
      bq'.isSelected = bq.isSelected) := by
  rw [List.nodup_cons] at hnd
  obtain ⟨hbid, hndS⟩ := hnd
  have hmain : ∀ q, getBone (moveBone bones bid pos) q =
      if q = bid ∨ q ∈ subtreeIds bones.length bones b.children
      then (getBone bones q).map (shiftB (pos.x - b.x) (pos.y - b.y))
      else getBone bones q := by
    intro q
    simp only [moveBone, hb]
    have hscr : (updateBone bones bid (fun c =>
        { c with x := pos.x, y := pos.y })).map scrubP = bones.map scrubP :=
      updateBone_scrub bones bid _ (fun c => rfl)
    have hlen : (updateBone bones bid (fun c =>
        { c with x := pos.x, y := pos.y })).length = bones.length := by
      rw [updateBone, List.length_map]
    have hS : subtreeIds bones.length
        (updateBone bones bid (fun c => { c with x := pos.x, y := pos.y }))
        b.children = subtreeIds bones.length bones b.children :=
      subtreeIds_congr bones _ hscr bones.length _
    have hS' : subtreeIds
        (updateBone bones bid (fun c => { c with x := pos.x, y := pos.y })).length
        (updateBone bones bid (fun c => { c with x := pos.x, y := pos.y }))
        b.children = subtreeIds bones.length bones b.children := by
      rw [hlen, hS]
    have hmv := moveChildren_spec (pos.x - b.x) (pos.y - b.y)
      (updateBone bones bid (fun c => { c with x := pos.x, y := pos.y })).length
      (updateBone bones bid (fun c => { c with x := pos.x, y := pos.y }))
      b.children (by rw [hS']; exact hndS) q
    rw [hS'] at hmv
    rw [hmv, getBone_updateBone bones bid _ q]
    by_cases hq1 : q = bid
    · subst hq1
      have hq2 : q ∉ subtreeIds bones.length bones b.children := hbid
      rw [if_neg hq2, if_pos rfl, if_pos (Or.inl rfl), hb]
      have hx : b.x + (pos.x - b.x) = pos.x := by ring
      have hy : b.y + (pos.y - b.y) = pos.y := by ring
      simp [shiftB, hx, hy]
    · rw [if_neg hq1]
      by_cases hq2 : q ∈ subtreeIds bones.length bones b.children
      · rw [if_pos hq2, if_pos (Or.inr hq2)]
      · rw [if_neg hq2, if_neg (by rintro (h | h) <;> [exact hq1 h; exact hq2 h])]
  refine ⟨hmain, fun q bq bq' hqin hbq hbq' => ?_⟩
  rw [hmain q, if_pos hqin, hbq] at hbq'
  have hbq'' : bq' = shiftB (pos.x - b.x) (pos.y - b.y) bq := by
    simpa using hbq'.symm
  subst hbq''
  refine ⟨by simp [shiftB]; ring, by simp [shiftB]; ring, rfl, rfl, rfl, rfl,
    rfl, rfl, rfl, rfl, rfl, rfl⟩

/-- The traversal of an empty child list is empty. -/
theorem subtreeIds_nil (fuel : ℕ) (bones : Bones) : subtreeIds fuel bones [] = [] := by
  cases fuel <;> rw [subtreeIds]

/-- One unfolding of the traversal at a present child. -/
theorem subtreeIds_cons_some (fuel : ℕ) (bones : Bones) (cid : String)
    (rest : List String) (child : BoneData) (h : getBone bones cid = some child) :
    subtreeIds (fuel + 1) bones (cid :: rest) =
      cid :: (subtreeIds fuel bones child.children ++
        subtreeIds (fuel + 1) bones rest) := by
  rw [subtreeIds, h]

/-- Parent bone of the C8 witness. -/
def c8parent : BoneData := ⟨"p", "n", 0, 0, 1, 0, "#00ff88", 3, none, ["c"], .FK, false⟩

/-- Child bone of the C8 witness. -/
def c8child : BoneData := ⟨"c", "n", 1, 0, 1, 0, "#00ff88", 3, some "p", [], .FK, false⟩

/-- Store of the C8 witness. -/
def c8s : Bones := [("p", c8parent), ("c", c8child)]

/-- Witness for C8: moving the parent of a two-bone rig to `(10, 20)`. -/
theorem moveBone_spec_witness :
    (∀ q, getBone (moveBone c8s "p" ⟨10, 20⟩) q =
      if q = "p" ∨ q ∈ subtreeIds c8s.length c8s c8parent.children
      then (getBone c8s q).map (shiftB (10 - c8parent.x) (20 - c8parent.y))
      else getBone c8s q) ∧
    (∀ q bq bq', (q = "p" ∨ q ∈ subtreeIds c8s.length c8s c8parent.children) →
      getBone c8s q = some bq →
      getBone (moveBone c8s "p" ⟨10, 20⟩) q = some bq' →
      bq'.x - (10:ℝ) = bq.x - c8parent.x ∧ bq'.y - (20:ℝ) = bq.y - c8parent.y ∧
      bq'.angle = bq.angle ∧ bq'.length = bq.length ∧ bq'.id = bq.id ∧
      bq'.name = bq.name ∧ bq'.color = bq.color ∧
      bq'.thickness = bq.thickness ∧ bq'.parentId = bq.parentId ∧
      bq'.children = bq.children ∧ bq'.type = bq.type ∧
      bq'.isSelected = bq.isSelected) :=
  moveBone_spec c8s "p" ⟨10, 20⟩ c8parent
    (by simp [getBone, c8s])
    (by
      have hsub : subtreeIds c8s.length c8s c8parent.children = ["c"] := by
        have hc : getBone c8s "c" = some c8child := by simp [getBone, c8s]
        show subtreeIds 2 c8s ["c"] = ["c"]
        rw [show (2:ℕ) = 1 + 1 from rfl, subtreeIds_cons_some 1 c8s "c" [] c8child hc]
        rw [show c8child.children = ([] : List String) from rfl]
        rw [subtreeIds_nil, subtreeIds_nil]
        rfl
      rw [hsub]
      simp)

/-! ## C3: parent/children bidirectional consistency -/

/-- The key list of a bone store. -/
def keysOf (s : Bones) : List String := s.map Prod.fst

/-- Every id mentioned in some children list, in store order. -/
def allChildren (s : Bones) : List String :=
  (s.map (fun p => p.2.children)).flatten

/-- Bidirectional parent/children consistency, as the spec states it: every
id in a bone's `children` names an existing bone whose `parentId` equals the
bone's id, and conversely every set `parentId` names an existing bone whose
`children` contains the bone's id. -/
def Consistent (s : Bones) : Prop :=
  ∀ k b, getBone s k = some b →
    (∀ c ∈ b.children, ∃ cb, getBone s c = some cb ∧ cb.parentId = some b.id) ∧
    (∀ p, b.parentId = some p → ∃ pb, getBone s p = some pb ∧ b.id ∈ pb.children)

/-- The forward half of consistency, keyed by store keys: every listed child
exists and points back at its parent. -/
def ForwardC (s : Bones) : Prop :=
  ∀ k b, getBone s k = some b → ∀ c ∈ b.children,
    ∃ cb, getBone s c = some cb ∧ cb.parentId = some k

/-- The backward half of consistency with an exception set `E` of ids whose
parent link may be broken (used transiently inside `deleteBone`, where the
bone being deleted has already been unlinked from its parent). -/
def BackwardE (s : Bones) (E : String → Prop) : Prop :=
  ∀ k b, getBone s k = some b → ¬ E k → ∀ p, b.parentId = some p →
    ∃ pb, getBone s p = some pb ∧ k ∈ pb.children

/-- Store-order discipline: a key never occurs in the children list of a
later entry, nor in its own children list.  `createBone` appends every new
bone after its parent, so reachable stores satisfy this. -/
def OrderW (s : Bones) : Prop :=
  s.Pairwise (fun e l => e.1 ∉ l.2.children) ∧ ∀ p ∈ s, p.1 ∉ p.2.children

/-- The working invariant of the bone store: duplicate-free keys, id fields
matching keys, forward consistency, store-order discipline, and a globally
duplicate-free children pool (each bone is listed as a child at most once). -/
def WInv (s : Bones) : Prop :=
  (keysOf s).Nodup ∧ (∀ p ∈ s, p.2.id = p.1) ∧ ForwardC s ∧ OrderW s ∧
    (allChildren s).Nodup

/-- The full invariant: the working invariant plus unbroken backward
consistency. -/
def Inv (s : Bones) : Prop := WInv s ∧ BackwardE s (fun _ => False)

/-- Legality of one operation: `createBone` must receive a fresh id
(modelling the `Date.now()`-based generator) and a `parentId` that is either
absent or resolvable; every other operation is total. -/
def LegalOp (bones : Bones) : Op → Prop
  | .create bid _ _ _ _ _ _ parentId =>
      getBone bones bid = none ∧
        ∀ pid, parentId = some pid → getBone bones pid ≠ none
  | _ => True

/-- Legality of an operation sequence: each operation is legal in the state
reached by its predecessors. -/
inductive LegalSeq : Bones → List Op → Prop
  | nil (bones : Bones) : LegalSeq bones []
  | cons {bones : Bones} {op : Op} {ops : List Op} :
      LegalOp bones op → LegalSeq (execOp bones op) ops →
      LegalSeq bones (op :: ops)

/-- The store strictly after the first entry with the given key (empty when
the key is absent); its length bounds the fuel `deleteBone` consumes. -/
def tailAfter : Bones → String → Bones
  | [], _ => []
  | p :: s, k => if p.1 = k then s else tailAfter s k

/-- Key-list version of `tailAfter`. -/
def tailA : List String → String → List String
  | [], _ => []
  | x :: l, k => if x = k then l else tailA l k

/-- A key is absent exactly when `getBone` misses. -/
theorem getBone_none_iff (s : Bones) (k : String) :
    getBone s k = none ↔ k ∉ keysOf s := by
  induction s with
  | nil => simp [getBone, keysOf]
  | cons p s ih =>
    by_cases hp : p.1 = k
    · rw [getBone_cons_hit p s k hp]
      simp [keysOf, hp]
    · rw [getBone_cons_miss p s k hp, ih]
      simp only [keysOf, List.map_cons, List.mem_cons]
      constructor
      · intro h hm
        rcases hm with h1 | h1
        · exact hp h1.symm
        · exact h h1
      · intro h hm
        exact h (Or.inr hm)

/-- A hit `getBone` pins key membership. -/
theorem mem_keysOf_of_getBone (s : Bones) (k : String) (b : BoneData)
    (h : getBone s k = some b) : k ∈ keysOf s := by
  by_contra hm
  rw [(getBone_none_iff s k).mpr hm] at h
  exact Option.noConfusion h

/-- In a duplicate-free store, `getBone` at a member entry's key returns that
entry's record. -/
theorem getBone_of_mem_nodup :
    ∀ (s : Bones), (keysOf s).Nodup → ∀ p ∈ s, getBone s p.1 = some p.2
  | [], _, p, hp => absurd hp (List.not_mem_nil p)
  | q :: s, hnd, p, hp => by
    rcases List.mem_cons.mp hp with rfl | hp'
    · exact getBone_cons_hit p s p.1 rfl
    · simp only [keysOf, List.map_cons, List.nodup_cons] at hnd
      have hq : ¬ q.1 = p.1 := by
        intro h
        exact hnd.1 (by rw [h]; exact List.mem_map_of_mem Prod.fst hp')
      rw [getBone_cons_miss q s p.1 hq]
      exact getBone_of_mem_nodup s hnd.2 p hp'

/-- A hit `getBone` exhibits the entry in the store. -/
theorem mem_of_getBone (s : Bones) (k : String) (b : BoneData)
    (h : getBone s k = some b) : (k, b) ∈ s := by
  rw [getBone] at h
  cases hf : s.find? (fun p => p.1 = k) with
  | none => rw [hf] at h; exact Option.noConfusion h
  | some pr =>
    rw [hf] at h
    have hm := List.mem_of_find?_eq_some hf
    have hp := List.find?_some hf
    obtain ⟨k0, b0⟩ := pr
    have h1 : k0 = k := by simpa using hp
    have h2 : b0 = b := by simpa using h
    rw [h1, h2] at hm
    exact hm

/-- Membership in the global children pool. -/
theorem mem_allChildren (s : Bones) (c : String) :
    c ∈ allChildren s ↔ ∃ p ∈ s, c ∈ p.2.children := by
  simp only [allChildren, List.mem_flatten, List.mem_map]
  constructor
  · rintro ⟨l, ⟨p, hp, rfl⟩, hc⟩
    exact ⟨p, hp, hc⟩
  · rintro ⟨p, hp, hc⟩
    exact ⟨p.2.children, ⟨p, hp, rfl⟩, hc⟩

/-- Keys of `tailAfter` are `tailA` of the keys. -/
theorem keysOf_tailAfter :
    ∀ (s : Bones) (k : String), keysOf (tailAfter s k) = tailA (keysOf s) k
  | [], _ => rfl
  | p :: s, k => by
    by_cases hp : p.1 = k
    · simp only [tailAfter, keysOf, List.map_cons, tailA, if_pos hp]
    · simp only [tailAfter, keysOf, List.map_cons, tailA, if_neg hp]
      exact keysOf_tailAfter s k

/-- At a member, `tailA` strictly shortens the list. -/
theorem tailA_length_lt :
    ∀ (l : List String) (k : String), k ∈ l → (tailA l k).length < l.length
  | [], k, h => absurd h (List.not_mem_nil k)
  | x :: l, k, h => by
    by_cases hx : x = k
    · simp only [tailA, if_pos hx, List.length_cons]
      omega
    · simp only [tailA, if_neg hx, List.length_cons]
      have hk : k ∈ l := by
        rcases List.mem_cons.mp h with rfl | h'
        · exact absurd rfl hx
        · exact h'
      have := tailA_length_lt l k hk
      omega

/-- `tailA` lengths are monotone along sublists. -/
theorem tailA_mono {l' l : List String} (h : List.Sublist l' l) :
    ∀ k ∈ l', (tailA l' k).length ≤ (tailA l k).length := by
  induction h with
  | slnil => intro k hk; exact absurd hk (List.not_mem_nil k)
  | cons x hsub ih =>
    intro k hk
    by_cases hx : x = k
    · simp only [tailA, if_pos hx]
      have h1 := tailA_length_lt _ k hk
      have h2 := hsub.length_le
      omega
    · simp only [tailA, if_neg hx]
      exact ih k hk
  | cons₂ x hsub ih =>
    intro k hk
    by_cases hx : x = k
    · simp only [tailA, if_pos hx]
      exact hsub.length_le
    · simp only [tailA, if_neg hx]
      rcases List.mem_cons.mp hk with rfl | hk'
      · exact absurd rfl hx
      · exact ih k hk'

/-- The suffix after a present key is shorter than the store. -/
theorem tailAfter_length_lt (s : Bones) (k : String)
    (h : getBone s k ≠ none) : (tailAfter s k).length < s.length := by
  have hk : k ∈ keysOf s := by
    by_contra hm
    exact h ((getBone_none_iff s k).mpr hm)
  have h2 := tailA_length_lt (keysOf s) k hk
  rw [← keysOf_tailAfter] at h2
  simpa [keysOf] using h2

/-- Suffix lengths only shrink along a key sublist. -/
theorem tailAfter_mono (s' s : Bones) (k : String)
    (hsub : List.Sublist (keysOf s') (keysOf s)) (h : getBone s' k ≠ none) :
    (tailAfter s' k).length ≤ (tailAfter s k).length := by
  have hk : k ∈ keysOf s' := by
    by_contra hm
    exact h ((getBone_none_iff s' k).mpr hm)
  have h2 := tailA_mono hsub k hk
  rw [← keysOf_tailAfter, ← keysOf_tailAfter] at h2
  simpa [keysOf] using h2

/-- Equal key lists give equal suffix lengths. -/
theorem tailAfter_congr_keys (s' s : Bones) (k : String)
    (h : keysOf s' = keysOf s) :
    (tailAfter s' k).length = (tailAfter s k).length := by
  have h1 : (keysOf (tailAfter s' k)).length = (keysOf (tailAfter s k)).length := by
    rw [keysOf_tailAfter, keysOf_tailAfter, h]
  simpa [keysOf] using h1

/-- Computing `tailAfter` across a prefix of mismatching keys. -/
theorem tailAfter_append :
    ∀ (u w : Bones) (k : String), (∀ p ∈ u, ¬ p.1 = k) →
      tailAfter (u ++ w) k = tailAfter w k
  | [], _, _, _ => rfl
  | p :: u, w, k, h => by
    simp only [List.cons_append, tailAfter, if_neg (h p (List.mem_cons_self p u))]
    exact tailAfter_append u w k (fun q hq => h q (List.mem_cons_of_mem p hq))

/-- Record shrinking: the skeleton fields (id field and parent link) are
preserved and the children list may only lose elements. -/
def ShrinkRec (b' b : BoneData) : Prop :=
  b'.id = b.id ∧ b'.parentId = b.parentId ∧ b'.children.Sublist b.children

/-- Store shrinking: an order-preserving selection of entries, each with a
possibly shrunken record.  `deleteBone` only shrinks the store. -/
inductive StoreLE : Bones → Bones → Prop
  | nil : StoreLE [] []
  | drop {s' s : Bones} (p : String × BoneData) :
      StoreLE s' s → StoreLE s' (p :: s)
  | keep {s' s : Bones} {b' b : BoneData} (k : String) :
      ShrinkRec b' b → StoreLE s' s → StoreLE ((k, b') :: s') ((k, b) :: s)

/-- Record shrinking is reflexive. -/
theorem shrinkRec_refl (b : BoneData) : ShrinkRec b b :=
  ⟨rfl, rfl, List.Sublist.refl _⟩

/-- Record shrinking is transitive. -/
theorem shrinkRec_trans {a b c : BoneData} (h1 : ShrinkRec a b)
    (h2 : ShrinkRec b c) : ShrinkRec a c :=
  ⟨h1.1.trans h2.1, h1.2.1.trans h2.2.1, h1.2.2.trans h2.2.2⟩

/-- Store shrinking is reflexive. -/
theorem storeLE_refl : ∀ s : Bones, StoreLE s s
  | [] => StoreLE.nil
  | p :: s => StoreLE.keep p.1 (shrinkRec_refl p.2) (storeLE_refl s)

/-- Store shrinking is transitive. -/
theorem storeLE_trans : ∀ {s1 s2 s3 : Bones},
    StoreLE s1 s2 → StoreLE s2 s3 → StoreLE s1 s3 := by
  intro s1 s2 s3 h1 h2
  induction h2 generalizing s1 with
  | nil => exact h1
  | drop p h ih => exact StoreLE.drop p (ih h1)
  | keep k hr h ih =>
    cases h1 with
    | drop q h1' => exact StoreLE.drop _ (ih h1')
    | keep k0 hr' h1' => exact StoreLE.keep _ (shrinkRec_trans hr' hr) (ih h1')

/-- Store shrinking shrinks the key list. -/
theorem storeLE_keys : ∀ {s' s : Bones}, StoreLE s' s →
    List.Sublist (keysOf s') (keysOf s) := by
  intro s' s h
  induction h with
  | nil => exact List.Sublist.refl _
  | drop p h ih =>
    simp only [keysOf, List.map_cons]
    exact List.Sublist.cons _ ih
  | keep k hr h ih =>
    simp only [keysOf, List.map_cons]
    exact List.Sublist.cons₂ _ ih

/-- Store shrinking shrinks the global children pool. -/
theorem storeLE_allChildren : ∀ {s' s : Bones}, StoreLE s' s →
    List.Sublist (allChildren s') (allChildren s) := by
  intro s' s h
  induction h with
  | nil => exact List.Sublist.refl _
  | drop p h ih =>
    simp only [allChildren, List.map_cons, List.flatten_cons]
    exact ih.trans (List.sublist_append_right _ _)
  | keep k hr h ih =>
    simp only [allChildren, List.map_cons, List.flatten_cons]
    exact List.Sublist.append hr.2.2 ih

/-- Absent keys stay absent under store shrinking. -/
theorem storeLE_getBone_none {s' s : Bones} (h : StoreLE s' s) (k : String)
    (hk : getBone s k = none) : getBone s' k = none := by
  rw [getBone_none_iff] at hk ⊢
  intro hm
  exact hk ((storeLE_keys h).subset hm)

/-- A surviving record after store shrinking is a shrunken version of the
original record under the same key. -/
theorem storeLE_getBone_some : ∀ {s' s : Bones}, StoreLE s' s →
    ∀ (k : String) (b' : BoneData), (keysOf s).Nodup →
      getBone s' k = some b' → ∃ b, getBone s k = some b ∧ ShrinkRec b' b := by
  intro s' s h
  induction h with
  | nil =>
    intro k b' _ hg
    rw [getBone] at hg
    simp at hg
  | drop p hle ih =>
    intro k b' hnd hg
    simp only [keysOf, List.map_cons, List.nodup_cons] at hnd
    obtain ⟨b, hb, hr⟩ := ih k b' hnd.2 hg
    have hp : ¬ p.1 = k := by
      intro hpk
      exact hnd.1 (by rw [hpk]; exact mem_keysOf_of_getBone _ k b hb)
    refine ⟨b, ?_, hr⟩
    rw [getBone_cons_miss p _ k hp]
    exact hb
  | keep k0 hr0 hle ih =>
    intro k b' hnd hg
    by_cases hk : k0 = k
    · rw [getBone_cons_hit _ _ k hk] at hg
      obtain rfl := Option.some.inj hg
      exact ⟨_, getBone_cons_hit _ _ k hk, hr0⟩
    · rw [getBone_cons_miss _ _ k hk] at hg
      simp only [keysOf, List.map_cons, List.nodup_cons] at hnd
      obtain ⟨b, hb, hr⟩ := ih k b' hnd.2 hg
      refine ⟨b, ?_, hr⟩
      rw [getBone_cons_miss _ _ k hk]
      exact hb

/-- Every entry surviving store shrinking corresponds to an original entry
with the same key and a shrunken record. -/
theorem storeLE_mem : ∀ {s' s : Bones}, StoreLE s' s →
    ∀ p' ∈ s', ∃ p ∈ s, p'.1 = p.1 ∧ ShrinkRec p'.2 p.2 := by
  intro s' s h
  induction h with
  | nil => intro p' hp'; exact absurd hp' (List.not_mem_nil p')
  | drop p hle ih =>
    intro p' hp'
    obtain ⟨q, hq, h1, h2⟩ := ih p' hp'
    exact ⟨q, List.mem_cons_of_mem p hq, h1, h2⟩
  | keep k0 hr0 hle ih =>
    intro p' hp'
    rcases List.mem_cons.mp hp' with rfl | hp2
    · exact ⟨(k0, _), List.mem_cons_self _ _, rfl, hr0⟩
    · obtain ⟨q, hq, h1, h2⟩ := ih p' hp2
      exact ⟨q, List.mem_cons_of_mem _ hq, h1, h2⟩

/-- Store-order discipline survives store shrinking. -/
theorem storeLE_order : ∀ {s' s : Bones}, StoreLE s' s → OrderW s → OrderW s' := by
  intro s' s h
  induction h with
  | nil => intro hO; exact hO
  | drop p hle ih =>
    intro hO
    rcases hO with ⟨h1, h2⟩
    rw [List.pairwise_cons] at h1
    exact ih ⟨h1.2, fun q hq => h2 q (List.mem_cons_of_mem p hq)⟩
  | keep k0 hr0 hle ih =>
    intro hO
    rcases hO with ⟨h1, h2⟩
    rw [List.pairwise_cons] at h1
    have ihO := ih ⟨h1.2, fun q hq => h2 q (List.mem_cons_of_mem _ hq)⟩
    constructor
    · rw [List.pairwise_cons]
      refine ⟨?_, ihO.1⟩
      intro q' hq'
      obtain ⟨q, hq, hk, hrq⟩ := storeLE_mem hle q' hq'
      intro hcon
      exact h1.1 q hq (hrq.2.2.subset hcon)
    · intro q' hq'
      rcases List.mem_cons.mp hq' with rfl | hq2
      · intro hcon
        exact h2 _ (List.mem_cons_self _ _) (hr0.2.2.subset hcon)
      · exact ihO.2 q' hq2

/-- An in-place mutation that only shrinks records shrinks the store. -/
theorem storeLE_updateBone (s : Bones) (k : String) (g : BoneData → BoneData)
    (hg : ∀ b, ShrinkRec (g b) b) : StoreLE (updateBone s k g) s := by
  induction s with
  | nil => exact StoreLE.nil
  | cons p s ih =>
    simp only [updateBone, List.map_cons]
    by_cases hp : p.1 = k
    · rw [if_pos hp]
      exact StoreLE.keep p.1 (hg p.2) ih
    · rw [if_neg hp]
      exact StoreLE.keep p.1 (shrinkRec_refl p.2) ih

/-- Removing an entry shrinks the store. -/
theorem storeLE_removeBone (s : Bones) (k : String) :
    StoreLE (removeBone s k) s := by
  induction s with
  | nil => exact StoreLE.nil
  | cons p s ih =>
    simp only [removeBone, List.filter_cons]
    by_cases hp : p.1 = k
    · rw [if_neg (by simp [hp])]
      exact StoreLE.drop p ih
    · rw [if_pos (by simp [hp])]
      exact StoreLE.keep p.1 (shrinkRec_refl p.2) ih

/-- In-place mutation preserves the key list. -/
theorem keysOf_updateBone (s : Bones) (k : String) (g : BoneData → BoneData) :
    keysOf (updateBone s k g) = keysOf s := by
  simp only [keysOf, updateBone, List.map_map]
  apply List.map_congr_left
  intro p _
  by_cases hp : p.1 = k
  · simp [Function.comp, hp]
  · simp [Function.comp, hp]

/-- In-place mutation at an absent key is the identity. -/
theorem updateBone_miss (s : Bones) (k : String) (g : BoneData → BoneData)
    (h : getBone s k = none) : updateBone s k g = s := by
  apply updateBone_self
  intro p hp hpk
  exact absurd (by rw [← hpk]; exact List.mem_map_of_mem Prod.fst hp)
    ((getBone_none_iff s k).mp h)

/-- The removed key is gone. -/
theorem getBone_removeBone_self (s : Bones) (k : String) :
    getBone (removeBone s k) k = none := by
  rw [getBone_none_iff]
  intro hm
  simp only [keysOf, removeBone, List.mem_map] at hm
  obtain ⟨p, hp, rfl⟩ := hm
  have := List.of_mem_filter hp
  simp at this

/-- Other keys are untouched by removal. -/
theorem getBone_removeBone_ne (s : Bones) (k q : String) (hq : ¬ q = k) :
    getBone (removeBone s k) q = getBone s q := by
  induction s with
  | nil => rfl
  | cons p s ih =>
    simp only [removeBone, List.filter_cons]
    by_cases hp : p.1 = k
    · rw [if_neg (by simp [hp]), getBone_cons_miss p s q (fun hh => hq (hh ▸ hp))]
      exact ih
    · rw [if_pos (by simp [hp])]
      by_cases hpq : p.1 = q
      · rw [getBone_cons_hit p _ q hpq, getBone_cons_hit p _ q hpq]
      · rw [getBone_cons_miss p _ q hpq, getBone_cons_miss p _ q hpq]
        exact ih

/-- The skeleton of an entry: key, id field, parent link and children. -/
def skelP (p : String × BoneData) : String × String × Option String × List String :=
  (p.1, p.2.id, p.2.parentId, p.2.children)

/-- The skeleton of a store; the position and angle solvers preserve it. -/
def skel (s : Bones) : List (String × String × Option String × List String) :=
  s.map skelP

/-- The skeleton fields of a single record. -/
def infoB (b : BoneData) : String × Option String × List String :=
  (b.id, b.parentId, b.children)

/-- Equal skeletons give `getBone`-lookups with equal skeleton fields. -/
theorem getBone_skel_congr (s s' : Bones) (h : skel s' = skel s) (q : String) :
    (getBone s' q).map infoB = (getBone s q).map infoB := by
  have hf : ∀ t : Bones,
      (skel t).find? (fun r => r.1 = q) = (t.find? (fun p => p.1 = q)).map skelP := by
    intro t
    rw [skel, List.find?_map]
    rfl
  have h1 := hf s'
  rw [h, hf s] at h1
  rw [getBone, getBone]
  cases hs' : s'.find? (fun p => p.1 = q) with
  | none =>
    rw [hs'] at h1
    cases hs : s.find? (fun p => p.1 = q) with
    | some v => rw [hs] at h1; simp at h1
    | none => rfl
  | some v' =>
    rw [hs'] at h1
    cases hs : s.find? (fun p => p.1 = q) with
    | none => rw [hs] at h1; simp at h1
    | some v =>
      rw [hs] at h1
      have hpv : skelP v = skelP v' := by simpa using h1
      simp only [skelP, Prod.mk.injEq] at hpv
      simp only [Option.map_some', infoB, hpv.2.1, hpv.2.2.1, hpv.2.2.2]

/-- Keys through the skeleton. -/
theorem keysOf_eq_skel (t : Bones) : keysOf t = (skel t).map Prod.fst := by
  rw [skel, List.map_map]
  rfl

/-- Equal skeletons give equal key lists. -/
theorem keysOf_skel {s' s : Bones} (h : skel s' = skel s) : keysOf s' = keysOf s := by
  rw [keysOf_eq_skel, keysOf_eq_skel, h]

/-- The children pool through the skeleton. -/
theorem allChildren_eq_skel (t : Bones) :
    allChildren t = ((skel t).map (fun r => r.2.2.2)).flatten := by
  rw [skel, List.map_map]
  rfl

/-- Entry-wise transfer along equal skeletons. -/
theorem skel_mem {s' s : Bones} (h : skel s' = skel s) :
    ∀ p' ∈ s', ∃ p ∈ s, skelP p' = skelP p := by
  intro p' hp'
  have hm : skelP p' ∈ skel s := by
    rw [← h]
    exact List.mem_map_of_mem skelP hp'
  rw [skel] at hm
  obtain ⟨p, hp, hpe⟩ := List.mem_map.mp hm
  exact ⟨p, hp, hpe.symm⟩

/-- The working invariant only reads skeleton fields. -/
theorem wInv_skel {s' s : Bones} (h : skel s' = skel s) (hW : WInv s) : WInv s' := by
  obtain ⟨hnd, hid, hF, hO, hC⟩ := hW
  refine ⟨?_, ?_, ?_, ⟨?_, ?_⟩, ?_⟩
  · rw [keysOf_skel h]; exact hnd
  · intro p' hp'
    obtain ⟨p, hp, hpe⟩ := skel_mem h p' hp'
    simp only [skelP, Prod.mk.injEq] at hpe
    rw [hpe.2.1, hpe.1]
    exact hid p hp
  · intro k b' hg c hc
    have hcg := getBone_skel_congr s s' h k
    rw [hg] at hcg
    cases hgs : getBone s k with
    | none => rw [hgs] at hcg; simp at hcg
    | some b =>
      rw [hgs] at hcg
      have hb : infoB b' = infoB b := by simpa using hcg
      simp only [infoB, Prod.mk.injEq] at hb
      obtain ⟨cb, hcb, hcp⟩ := hF k b hgs c (by rw [← hb.2.2]; exact hc)
      have hcg2 := getBone_skel_congr s s' h c
      rw [hcb] at hcg2
      cases hgc : getBone s' c with
      | none => rw [hgc] at hcg2; simp at hcg2
      | some cb' =>
        rw [hgc] at hcg2
        have hcb2 : infoB cb' = infoB cb := by simpa using hcg2
        simp only [infoB, Prod.mk.injEq] at hcb2
        exact ⟨cb', rfl, by rw [hcb2.2.1]; exact hcp⟩
  · have h1 : List.Pairwise (fun a b => a.1 ∉ b.2.2.2) (skel s) := by
      rw [skel, List.pairwise_map]
      exact hO.1
    rw [← h] at h1
    rw [skel, List.pairwise_map] at h1
    exact h1
  · intro p' hp'
    obtain ⟨p, hp, hpe⟩ := skel_mem h p' hp'
    simp only [skelP, Prod.mk.injEq] at hpe
    rw [hpe.1, hpe.2.2.2]
    exact hO.2 p hp
  · rw [allChildren_eq_skel, h, ← allChildren_eq_skel]
    exact hC

/-- Backward consistency only reads skeleton fields. -/
theorem backwardE_skel {s' s : Bones} (h : skel s' = skel s) {E : String → Prop}
    (hB : BackwardE s E) : BackwardE s' E := by
  intro k b' hg hE p hp
  have hcg := getBone_skel_congr s s' h k
  rw [hg] at hcg
  cases hgs : getBone s k with
  | none => rw [hgs] at hcg; simp at hcg
  | some b =>
    rw [hgs] at hcg
    have hb : infoB b' = infoB b := by simpa using hcg
    simp only [infoB, Prod.mk.injEq] at hb
    obtain ⟨pb, hpb, hmem⟩ := hB k b hgs hE p (by rw [← hb.2.1]; exact hp)
    have hcg2 := getBone_skel_congr s s' h p
    rw [hpb] at hcg2
    cases hgp : getBone s' p with
    | none => rw [hgp] at hcg2; simp at hcg2
    | some pb' =>
      rw [hgp] at hcg2
      have hpb2 : infoB pb' = infoB pb := by simpa using hcg2
      simp only [infoB, Prod.mk.injEq] at hpb2
      exact ⟨pb', rfl, by rw [hpb2.2.2]; exact hmem⟩

/-- The full invariant only reads skeleton fields. -/
theorem inv_skel {s' s : Bones} (h : skel s' = skel s) (hI : Inv s) : Inv s' :=
  ⟨wInv_skel h hI.1, backwardE_skel h hI.2⟩

/-- Scrub-equality is finer than skeleton equality. -/
theorem skel_of_scrub {s' s : Bones} (h : s'.map scrubP = s.map scrubP) :
    skel s' = skel s := by
  have hc : ∀ t : Bones, skel t = (t.map scrubP).map skelP := by
    intro t
    rw [List.map_map]
    rfl
  rw [hc s', hc s, h]

/-- An in-place mutation fixing the skeleton fields preserves the skeleton. -/
theorem updateBone_skel (s : Bones) (k : String) (g : BoneData → BoneData)
    (hg : ∀ b, (g b).id = b.id ∧ (g b).parentId = b.parentId ∧
      (g b).children = b.children) :
    skel (updateBone s k g) = skel s := by
  rw [skel, skel, updateBone, List.map_map]
  apply List.map_congr_left
  intro p _
  by_cases hp : p.1 = k
  · simp only [Function.comp_apply, if_pos hp, skelP, (hg p.2).1, (hg p.2).2.1,
      (hg p.2).2.2]
  · simp only [Function.comp_apply, if_neg hp]

/-- Position propagation preserves the skeleton. -/
theorem updateBonePosition_skel (fuel : ℕ) (s : Bones) (bid : String) :
    skel (updateBonePosition fuel s bid) = skel s :=
  skel_of_scrub (updateBonePosition_scrub fuel bid s)

/-- Rigid subtree shifting preserves the skeleton. -/
theorem moveChildren_skel (dx dy : ℝ) (fuel : ℕ) (s : Bones) (kids : List String) :
    skel (moveChildren dx dy fuel s kids) = skel s :=
  skel_of_scrub (moveChildren_scrub dx dy fuel s kids)

/-- `moveBone` preserves the skeleton. -/
theorem moveBone_skel (s : Bones) (bid : String) (pos : Vector2) :
    skel (moveBone s bid pos) = skel s := by
  cases hb : getBone s bid with
  | none => simp only [moveBone, hb]
  | some bone =>
    simp only [moveBone, hb]
    rw [moveChildren_skel]
    exact skel_of_scrub (updateBone_scrub s bid _ (fun b => rfl))

/-- `setBoneAngle` preserves the skeleton. -/
theorem setBoneAngle_skel (s : Bones) (bid : String) (a : ℝ) :
    skel (setBoneAngle s bid a) = skel s := by
  cases hb : getBone s bid with
  | none => simp only [setBoneAngle, hb]
  | some bone =>
    simp only [setBoneAngle, hb]
    rw [updateBonePosition_skel]
    exact updateBone_skel s bid _ (fun b => ⟨rfl, rfl, rfl⟩)

/-- A CCD joint step preserves the skeleton. -/
theorem ccdJointUpdate_skel (s : Bones) (e target : Vector2) (bid : String) :
    skel (ccdJointUpdate s e target bid) = skel s := by
  cases hb : getBone s bid with
  | none => simp only [ccdJointUpdate, hb]
  | some cb =>
    simp only [ccdJointUpdate, hb]
    rw [updateBonePosition_skel]
    exact updateBone_skel s bid _ (fun b => ⟨rfl, rfl, rfl⟩)

/-- A CCD pass preserves the skeleton on either exit. -/
theorem ccdPass_skel (target : Vector2) (chain : List String) :
    ∀ (rest : List String) (s : Bones),
      Sum.elim skel skel (ccdPass target chain rest s) = skel s
  | [], s => by rw [ccdPass]; rfl
  | bid :: rest, s => by
    rw [ccdPass]
    split
    · rfl
    · rw [ccdPass_skel target chain rest _]
      exact ccdJointUpdate_skel _ _ _ _

/-- CCD iteration preserves the skeleton. -/
theorem ccdIterate_skel (target : Vector2) (chain : List String) :
    ∀ (n : ℕ) (s : Bones), skel (ccdIterate target chain n s) = skel s
  | 0, s => rfl
  | n + 1, s => by
    rw [ccdIterate]
    cases hp : ccdPass target chain chain.reverse s with
    | inl s1 =>
      have h1 := ccdPass_skel target chain chain.reverse s
      rw [hp] at h1
      have h2 : skel s1 = skel s := by simpa using h1
      show skel s1 = skel s
      exact h2
    | inr s1 =>
      have h1 := ccdPass_skel target chain chain.reverse s
      rw [hp] at h1
      have h2 : skel s1 = skel s := by simpa using h1
      show skel (ccdIterate target chain n s1) = skel s
      rw [ccdIterate_skel target chain n s1, h2]

/-- `solveIK` preserves the skeleton. -/
theorem solveIK_skel (s : Bones) (bid : String) (target : Vector2) :
    skel (solveIK s bid target) = skel s := by
  cases hb : getBone s bid with
  | none => simp only [solveIK, hb]
  | some bone =>
    simp only [solveIK, hb]
    exact ccdIterate_skel target _ ikIterations s

/-- The record built by `createBone` before any parent-based adjustment. -/
def mkBone (bid bname : String) (cx cy clen cangle : ℝ) (ty : BoneType)
    (pId : Option String) : BoneData :=
  ⟨bid, bname, cx, cy, clen, cangle, "#00ff88", 3, pId, [], ty, false⟩

/-- `Map.set` at an absent key appends. -/
theorem setBone_absent (s : Bones) (bid : String) (b : BoneData)
    (h : getBone s bid = none) : setBone s bid b = s ++ [(bid, b)] := by
  rw [setBone]
  rw [getBone] at h
  cases hf : s.find? (fun p => p.1 = bid) with
  | none => rfl
  | some pr => rw [hf] at h; simp at h

/-- `getBone` looks in the left part first. -/
theorem getBone_append_left (s t : Bones) (q : String) (b : BoneData)
    (h : getBone s q = some b) : getBone (s ++ t) q = some b := by
  induction s with
  | nil => rw [getBone] at h; simp at h
  | cons p s ih =>
    by_cases hp : p.1 = q
    · rw [getBone_cons_hit p s q hp] at h
      rw [List.cons_append, getBone_cons_hit p (s ++ t) q hp]
      exact h
    · rw [getBone_cons_miss p s q hp] at h
      rw [List.cons_append, getBone_cons_miss p (s ++ t) q hp]
      exact ih h

/-- `getBone` falls through to the right part on a left miss. -/
theorem getBone_append_right (s t : Bones) (q : String)
    (h : getBone s q = none) : getBone (s ++ t) q = getBone t q := by
  induction s with
  | nil => rfl
  | cons p s ih =>
    by_cases hp : p.1 = q
    · rw [getBone_cons_hit p s q hp] at h
      exact Option.noConfusion h
    · rw [getBone_cons_miss p s q hp] at h
      rw [List.cons_append, getBone_cons_miss p (s ++ t) q hp]
      exact ih h

/-- `getBone` after appending a fresh entry. -/
theorem getBone_append_fresh (s : Bones) (bid : String) (b : BoneData)
    (hfresh : getBone s bid = none) (q : String) :
    getBone (s ++ [(bid, b)]) q = if q = bid then some b else getBone s q := by
  by_cases hq : q = bid
  · subst hq
    rw [if_pos rfl, getBone_append_right s _ q hfresh]
    exact getBone_cons_hit (q, b) [] q rfl
  · rw [if_neg hq]
    cases hgq : getBone s q with
    | some v => exact getBone_append_left s _ q v hgq
    | none =>
      rw [getBone_append_right s _ q hgq,
        getBone_cons_miss (bid, b) [] q (fun h => hq h.symm)]
      rfl

/-- The children pool distributes over append. -/
theorem allChildren_append (s t : Bones) :
    allChildren (s ++ t) = allChildren s ++ allChildren t := by
  simp [allChildren]

/-- Under the forward invariant, every listed child is a present key. -/
theorem allChildren_subset_keys (s : Bones) (hnd : (keysOf s).Nodup)
    (hF : ForwardC s) : ∀ c ∈ allChildren s, c ∈ keysOf s := by
  intro c hc
  obtain ⟨p, hp, hcp⟩ := (mem_allChildren s c).mp hc
  have hg := getBone_of_mem_nodup s hnd p hp
  obtain ⟨cb, hcb, _⟩ := hF p.1 p.2 hg c hcp
  exact mem_keysOf_of_getBone s c cb hcb

/-- Appending a single fresh element at the end of one block of a
duplicate-free concatenation keeps it duplicate-free. -/
theorem nodup_append_push {α : Type} (a c : List α) (n : α)
    (h : (a ++ c).Nodup) (hn : n ∉ a ++ c) : ((a ++ [n]) ++ c).Nodup := by
  rw [List.nodup_append] at h
  rw [List.mem_append] at hn
  rw [List.nodup_append]
  refine ⟨?_, h.2.1, ?_⟩
  · rw [List.nodup_append]
    refine ⟨h.1, List.nodup_singleton n, ?_⟩
    intro x hx hx2
    rw [List.mem_singleton] at hx2
    exact hn (Or.inl (hx2 ▸ hx))
  · intro x hx hx2
    rw [List.mem_append, List.mem_singleton] at hx
    rcases hx with hx | rfl
    · exact h.2.2 hx hx2
    · exact hn (Or.inr hx2)

/-- The children pool of a cons. -/
theorem allChildren_cons (p : String × BoneData) (s : Bones) :
    allChildren (p :: s) = p.2.children ++ allChildren s := by
  simp [allChildren]

/-- An in-place mutation on a cons. -/
theorem updateBone_cons (p : String × BoneData) (s : Bones) (k : String)
    (g : BoneData → BoneData) :
    updateBone (p :: s) k g =
      (if p.1 = k then (p.1, g p.2) else p) :: updateBone s k g := by
  simp [updateBone]

/-- Pushing a globally fresh child id onto one bone keeps the children pool
duplicate-free. -/
theorem allChildren_push_nodup (pid newId : String) :
    ∀ (s : Bones), (keysOf s).Nodup → (allChildren s).Nodup →
      newId ∉ allChildren s →
      (allChildren (updateBone s pid
        (fun p => { p with children := p.children ++ [newId] }))).Nodup
  | [], _, _, _ => by simp [allChildren, updateBone]
  | p :: s, hnd, hC, hfresh => by
    simp only [keysOf, List.map_cons, List.nodup_cons] at hnd
    rw [allChildren_cons] at hC hfresh
    rw [updateBone_cons, allChildren_cons]
    by_cases hp : p.1 = pid
    · rw [if_pos hp]
      have hmiss : getBone s pid = none := by
        rw [getBone_none_iff]
        intro hm
        exact hnd.1 (by rw [hp]; exact hm)
      rw [updateBone_miss s pid _ hmiss]
      exact nodup_append_push p.2.children (allChildren s) newId hC hfresh
    · rw [if_neg hp]
      rw [List.nodup_append] at hC
      rw [List.mem_append] at hfresh
      rw [List.nodup_append]
      refine ⟨hC.1, allChildren_push_nodup pid newId s hnd.2 hC.2.1
        (fun hm => hfresh (Or.inr hm)), ?_⟩
      intro x hx hx2
      rcases (mem_allChildren _ x).mp hx2 with ⟨q', hq', hxq⟩
      simp only [updateBone, List.mem_map] at hq'
      obtain ⟨q, hq, rfl⟩ := hq'
      by_cases hqp : q.1 = pid
      · rw [if_pos hqp] at hxq
        rcases List.mem_append.mp hxq with h1 | h2
        · exact hC.2.2 hx ((mem_allChildren s x).mpr ⟨q, hq, h1⟩)
        · rw [List.mem_singleton] at h2
          exact hfresh (Or.inl (h2 ▸ hx))
      · rw [if_neg hqp] at hxq
        exact hC.2.2 hx ((mem_allChildren s x).mpr ⟨q, hq, hxq⟩)

/-- Pairwise from an unconditional membership fact. -/
theorem pairwise_of_mem {α : Type} (R : α → α → Prop) :
    ∀ (l : List α), (∀ a ∈ l, ∀ b ∈ l, R a b) → l.Pairwise R
  | [], _ => List.Pairwise.nil
  | x :: l, h => by
    constructor
    · intro b hb
      exact h x (List.mem_cons_self x l) b (List.mem_cons_of_mem x hb)
    · exact pairwise_of_mem R l (fun a ha b hb =>
        h a (List.mem_cons_of_mem x ha) b (List.mem_cons_of_mem x hb))

/-- The key of an entry is untouched by an in-place mutation. -/
theorem updateBone_entry_fst (a : String × BoneData) (pid : String)
    (g : BoneData → BoneData) :
    (if a.1 = pid then (a.1, g a.2) else a).1 = a.1 := by
  by_cases h : a.1 = pid
  · rw [if_pos h]
  · rw [if_neg h]

/-- Pairwise transfer along a map. -/
theorem pairwise_map_of_pairwise {α β : Type} (f : α → β) (R : α → α → Prop)
    (S : β → β → Prop) :
    ∀ (l : List α), (∀ a b, R a b → S (f a) (f b)) → l.Pairwise R →
      (l.map f).Pairwise S
  | [], _, _ => List.Pairwise.nil
  | x :: l, h, hp => by
    rw [List.pairwise_cons] at hp
    rw [List.map_cons]
    constructor
    · intro b' hb'
      obtain ⟨b, hb, rfl⟩ := List.mem_map.mp hb'
      exact h x b (hp.1 b hb)
    · exact pairwise_map_of_pairwise f R S l h hp.2

/-- Pushing a child id preserves store-order discipline provided no entry at
or before a `pid` entry carries the pushed id as its key. -/
theorem orderW_push (s : Bones) (pid cid : String) (hO : OrderW s)
    (hpair : List.Pairwise (fun a b : String × BoneData => b.1 = pid → ¬ a.1 = cid) s)
    (hself : ∀ p ∈ s, p.1 = pid → ¬ p.1 = cid) :
    OrderW (updateBone s pid (fun p => { p with children := p.children ++ [cid] })) := by
  obtain ⟨hP, hIr⟩ := hO
  constructor
  · simp only [updateBone]
    apply pairwise_map_of_pairwise _ _ _ s ?_ (hP.and hpair)
    intro a b hab
    show (if a.1 = pid then
        (a.1, { a.2 with children := a.2.children ++ [cid] }) else a).1 ∉
      (if b.1 = pid then
        (b.1, { b.2 with children := b.2.children ++ [cid] }) else b).2.children
    rw [updateBone_entry_fst a pid
      (fun p => { p with children := p.children ++ [cid] })]
    by_cases hb1 : b.1 = pid
    · rw [if_pos hb1]
      intro hcon
      rcases List.mem_append.mp hcon with h1 | h2
      · exact hab.1 h1
      · rw [List.mem_singleton] at h2
        exact hab.2 hb1 h2
    · rw [if_neg hb1]
      exact hab.1
  · intro p' hp'
    simp only [updateBone, List.mem_map] at hp'
    obtain ⟨p, hp, rfl⟩ := hp'
    by_cases hp1 : p.1 = pid
    · rw [if_pos hp1]
      intro hcon
      rcases List.mem_append.mp hcon with h1 | h2
      · exact hIr p hp h1
      · rw [List.mem_singleton] at h2
        exact hself p hp hp1 h2
    · rw [if_neg hp1]
      exact hIr p hp

/-- Appending a fresh orphan root preserves the invariant. -/
theorem inv_append_orphan (s : Bones) (bid : String) (b : BoneData)
    (hI : Inv s) (hfresh : getBone s bid = none)
    (hbid : b.id = bid) (hbch : b.children = []) (hbpar : b.parentId = none) :
    Inv (s ++ [(bid, b)]) := by
  obtain ⟨⟨hnd, hkid, hF, ⟨hP, hIr⟩, hC⟩, hB⟩ := hI
  have hmem : bid ∉ keysOf s := (getBone_none_iff s bid).mp hfresh
  have hG1 := getBone_append_fresh s bid b hfresh
  constructor
  · refine ⟨?_, ?_, ?_, ⟨?_, ?_⟩, ?_⟩
    · simp only [keysOf, List.map_append, List.map_cons, List.map_nil]
      rw [List.nodup_append]
      refine ⟨hnd, List.nodup_singleton bid, ?_⟩
      intro a ha hb2
      rw [List.mem_singleton] at hb2
      exact hmem (hb2 ▸ ha)
    · intro p hp
      rcases List.mem_append.mp hp with hp1 | hp2
      · exact hkid p hp1
      · rw [List.mem_singleton] at hp2
        subst hp2
        exact hbid
    · intro k kb hg c hc
      rw [hG1 k] at hg
      by_cases hk : k = bid
      · rw [if_pos hk] at hg
        obtain rfl := Option.some.inj hg
        rw [hbch] at hc
        exact absurd hc (List.not_mem_nil c)
      · rw [if_neg hk] at hg
        obtain ⟨cb, hcb, hcp⟩ := hF k kb hg c hc
        have hcbid : ¬ c = bid := by
          intro hcid
          exact hmem (hcid ▸ mem_keysOf_of_getBone s c cb hcb)
        refine ⟨cb, ?_, hcp⟩
        rw [hG1 c, if_neg hcbid]
        exact hcb
    · rw [List.pairwise_append]
      refine ⟨hP, List.Pairwise.cons (fun e he => absurd he (List.not_mem_nil e))
        List.Pairwise.nil, ?_⟩
      intro a ha e he
      rw [List.mem_singleton] at he
      subst he
      show a.1 ∉ b.children
      rw [hbch]
      exact List.not_mem_nil a.1
    · intro p hp
      rcases List.mem_append.mp hp with hp1 | hp2
      · exact hIr p hp1
      · rw [List.mem_singleton] at hp2
        subst hp2
        show bid ∉ b.children
        rw [hbch]
        exact List.not_mem_nil bid
    · rw [allChildren_append]
      have h1 : allChildren [(bid, b)] = [] := by
        rw [allChildren_cons, hbch]
        rfl
      rw [h1, List.append_nil]
      exact hC
  · intro k kb hg hEk p hp
    rw [hG1 k] at hg
    by_cases hk : k = bid
    · rw [if_pos hk] at hg
      obtain rfl := Option.some.inj hg
      rw [hbpar] at hp
      exact Option.noConfusion hp
    · rw [if_neg hk] at hg
      obtain ⟨pb, hpb, hmm2⟩ := hB k kb hg hEk p hp
      have hpbid : ¬ p = bid := by
        intro hpid
        exact hmem (hpid ▸ mem_keysOf_of_getBone s p pb hpb)
      refine ⟨pb, ?_, hmm2⟩
      rw [hG1 p, if_neg hpbid]
      exact hpb

/-- The core of `createBone` with a resolvable parent: appending the fresh
bone and pushing its id onto the parent's children preserves the
invariant. -/
theorem inv_create_linked (s : Bones) (bid pid : String)
    (bone parent0 : BoneData) (hI : Inv s)
    (hfresh : getBone s bid = none) (hgp : getBone s pid = some parent0)
    (hbid : bone.id = bid) (hbch : bone.children = [])
    (hbpar : bone.parentId = some pid) :
    Inv (updateBone (s ++ [(bid, bone)]) pid
      (fun p => { p with children := p.children ++ [bid] })) := by
  obtain ⟨⟨hnd, hkid, hF, ⟨hP, hIr⟩, hC⟩, hB⟩ := hI
  have hmem : bid ∉ keysOf s := (getBone_none_iff s bid).mp hfresh
  have hpidbid : ¬ pid = bid := by
    intro h
    rw [h, hfresh] at hgp
    exact Option.noConfusion hgp
  have hbidch : bid ∉ allChildren s :=
    fun hc => hmem (allChildren_subset_keys s hnd hF bid hc)
  have hGone := getBone_append_fresh s bid bone hfresh
  have hgp1 : getBone (s ++ [(bid, bone)]) pid = some parent0 := by
    rw [hGone pid, if_neg hpidbid]
    exact hgp
  have hG2 : ∀ q, getBone (updateBone (s ++ [(bid, bone)]) pid
      (fun p => { p with children := p.children ++ [bid] })) q =
      if q = pid then some { parent0 with children := parent0.children ++ [bid] }
      else getBone (s ++ [(bid, bone)]) q := by
    intro q
    rw [getBone_updateBone _ pid _ q]
    by_cases hq : q = pid
    · rw [if_pos hq, if_pos hq, hgp1]
      rfl
    · rw [if_neg hq, if_neg hq]
  have hirr_p : pid ∉ parent0.children :=
    hIr (pid, parent0) (mem_of_getBone s pid parent0 hgp)
  have hk1 : keysOf (s ++ [(bid, bone)]) = keysOf s ++ [bid] := by
    simp [keysOf]
  have hknd1 : (keysOf (s ++ [(bid, bone)])).Nodup := by
    rw [hk1, List.nodup_append]
    refine ⟨hnd, List.nodup_singleton bid, ?_⟩
    intro a ha hb2
    rw [List.mem_singleton] at hb2
    exact hmem (hb2 ▸ ha)
  have hC1 : allChildren (s ++ [(bid, bone)]) = allChildren s := by
    rw [allChildren_append, allChildren_cons, hbch]
    simp [allChildren]
  constructor
  · refine ⟨?_, ?_, ?_, ?_, ?_⟩
    · rw [keysOf_updateBone]
      exact hknd1
    · intro p' hp'
      simp only [updateBone, List.mem_map] at hp'
      obtain ⟨p, hp, rfl⟩ := hp'
      have hpid0 : p.2.id = p.1 := by
        rcases List.mem_append.mp hp with h1 | h2
        · exact hkid p h1
        · rw [List.mem_singleton] at h2
          subst h2
          exact hbid
      by_cases hq : p.1 = pid
      · rw [if_pos hq]
        exact hpid0
      · rw [if_neg hq]
        exact hpid0
    · intro k kb hg c hc
      rw [hG2 k] at hg
      by_cases hk : k = pid
      · subst hk
        rw [if_pos rfl] at hg
        obtain rfl := Option.some.inj hg
        rcases List.mem_append.mp hc with hcold | hcnew
        · obtain ⟨cb, hcb, hcp⟩ := hF k parent0 hgp c hcold
          have hcbid : ¬ c = bid := by
            intro h
            exact hmem (h ▸ mem_keysOf_of_getBone s c cb hcb)
          have hcpid : ¬ c = k := by
            intro h
            exact hirr_p (h ▸ hcold)
          refine ⟨cb, ?_, hcp⟩
          rw [hG2 c, if_neg hcpid, hGone c, if_neg hcbid]
          exact hcb
        · rw [List.mem_singleton] at hcnew
          subst hcnew
          refine ⟨bone, ?_, ?_⟩
          · rw [hG2 c, if_neg (fun h => hpidbid h.symm), hGone c, if_pos rfl]
          · exact hbpar
      · rw [if_neg hk, hGone k] at hg
        by_cases hk2 : k = bid
        · rw [if_pos hk2] at hg
          obtain rfl := Option.some.inj hg
          rw [hbch] at hc
          exact absurd hc (List.not_mem_nil c)
        · rw [if_neg hk2] at hg
          obtain ⟨cb, hcb, hcp⟩ := hF k kb hg c hc
          have hcbid : ¬ c = bid := by
            intro h
            exact hmem (h ▸ mem_keysOf_of_getBone s c cb hcb)
          by_cases hcpid : c = pid
          · subst hcpid
            rw [hgp] at hcb
            obtain rfl := Option.some.inj hcb
            refine ⟨{ parent0 with children := parent0.children ++ [bid] }, ?_, ?_⟩
            · rw [hG2 c, if_pos rfl]
            · exact hcp
          · refine ⟨cb, ?_, hcp⟩
            rw [hG2 c, if_neg hcpid, hGone c, if_neg hcbid]
            exact hcb
    · have hO1 : OrderW (s ++ [(bid, bone)]) := by
        constructor
        · rw [List.pairwise_append]
          refine ⟨hP, List.Pairwise.cons (fun e he =>
            absurd he (List.not_mem_nil e)) List.Pairwise.nil, ?_⟩
          intro a ha e he
          rw [List.mem_singleton] at he
          subst he
          show a.1 ∉ bone.children
          rw [hbch]
          exact List.not_mem_nil a.1
        · intro p hp
          rcases List.mem_append.mp hp with h1 | h2
          · exact hIr p h1
          · rw [List.mem_singleton] at h2
            subst h2
            show bid ∉ bone.children
            rw [hbch]
            exact List.not_mem_nil bid
      have hpair1 : List.Pairwise
          (fun a b : String × BoneData => b.1 = pid → ¬ a.1 = bid)
          (s ++ [(bid, bone)]) := by
        rw [List.pairwise_append]
        refine ⟨?_, List.Pairwise.cons (fun e he =>
          absurd he (List.not_mem_nil e)) List.Pairwise.nil, ?_⟩
        · apply pairwise_of_mem
          intro a ha b hb hbp hac
          exact hmem (hac ▸ List.mem_map_of_mem Prod.fst ha)
        · intro a ha e he
          rw [List.mem_singleton] at he
          subst he
          intro hbp
          exact absurd hbp.symm hpidbid
      have hself1 : ∀ p ∈ s ++ [(bid, bone)], p.1 = pid → ¬ p.1 = bid := by
        intro p hp hpp hpb
        exact hpidbid (hpp ▸ hpb)
      exact orderW_push (s ++ [(bid, bone)]) pid bid hO1 hpair1 hself1
    · apply allChildren_push_nodup pid bid (s ++ [(bid, bone)]) hknd1
      · rw [hC1]
        exact hC
      · rw [hC1]
        exact hbidch
  · intro k kb hg hEk p hp
    rw [hG2 k] at hg
    by_cases hk : k = pid
    · subst hk
      rw [if_pos rfl] at hg
      obtain rfl := Option.some.inj hg
      have hp0 : parent0.parentId = some p := hp
      obtain ⟨pb, hpb, hmm2⟩ := hB k parent0 hgp hEk p hp0
      have hpbid : ¬ p = bid := by
        intro h
        exact hmem (h ▸ mem_keysOf_of_getBone s p pb hpb)
      by_cases hppid : p = k
      · subst hppid
        rw [hgp] at hpb
        obtain rfl := Option.some.inj hpb
        exact absurd hmm2 hirr_p
      · refine ⟨pb, ?_, hmm2⟩
        rw [hG2 p, if_neg hppid, hGone p, if_neg hpbid]
        exact hpb
    · rw [if_neg hk, hGone k] at hg
      by_cases hk2 : k = bid
      · subst hk2
        rw [if_pos rfl] at hg
        obtain rfl := Option.some.inj hg
        rw [hbpar] at hp
        obtain rfl := Option.some.inj hp
        refine ⟨{ parent0 with children := parent0.children ++ [k] }, ?_, ?_⟩
        · rw [hG2 pid, if_pos rfl]
        · exact List.mem_append.mpr (Or.inr (List.mem_singleton.mpr rfl))
      · rw [if_neg hk2] at hg
        obtain ⟨pb, hpb, hmm2⟩ := hB k kb hg hEk p hp
        have hpbid : ¬ p = bid := by
          intro h
          exact hmem (h ▸ mem_keysOf_of_getBone s p pb hpb)
        by_cases hppid : p = pid
        · subst hppid
          rw [hgp] at hpb
          obtain rfl := Option.some.inj hpb
          refine ⟨{ parent0 with children := parent0.children ++ [bid] }, ?_, ?_⟩
          · rw [hG2 p, if_pos rfl]
          · exact List.mem_append.mpr (Or.inl hmm2)
        · refine ⟨pb, ?_, hmm2⟩
          rw [hG2 p, if_neg hppid, hGone p, if_neg hpbid]
          exact hpb

/-- `createBone` without a parent id stores the raw record. -/
theorem createBone_orphan_eq (s : Bones) (bid bname : String)
    (cx cy clen cangle : ℝ) (ty : BoneType) :
    createBone s bid bname cx cy clen cangle ty none =
      setBone s bid (mkBone bid bname cx cy clen cangle ty none) := rfl

/-- `createBone` with a resolvable parent: append the fresh record, push its
id onto the parent's children, then override its position to the parent's
end. -/
theorem createBone_linked_eq (s : Bones) (bid bname : String)
    (cx cy clen cangle : ℝ) (ty : BoneType) (pid : String)
    (parent0 : BoneData) (hfresh : getBone s bid = none)
    (hgp : getBone s pid = some parent0) :
    createBone s bid bname cx cy clen cangle ty (some pid) =
      updateBone (updateBone
          (s ++ [(bid, mkBone bid bname cx cy clen cangle ty (some pid))]) pid
          (fun p => { p with children := p.children ++ [bid] })) bid
        (fun b => { b with x := (getBoneEnd parent0).x, y := (getBoneEnd parent0).y }) := by
  have hpidbid : ¬ pid = bid := by
    intro h
    rw [h, hfresh] at hgp
    exact Option.noConfusion hgp
  have hs1 := setBone_absent s bid
    (mkBone bid bname cx cy clen cangle ty (some pid)) hfresh
  have hgp1 : getBone (setBone s bid
      (mkBone bid bname cx cy clen cangle ty (some pid))) pid = some parent0 := by
    rw [hs1, getBone_append_fresh s bid _ hfresh pid, if_neg hpidbid]
    exact hgp
  show (match getBone (setBone s bid
      (mkBone bid bname cx cy clen cangle ty (some pid))) pid with
    | none => setBone s bid (mkBone bid bname cx cy clen cangle ty (some pid))
    | some parent =>
        updateBone (updateBone
            (setBone s bid (mkBone bid bname cx cy clen cangle ty (some pid))) pid
            (fun p => { p with children := p.children ++ [bid] })) bid
          (fun b => { b with x := (getBoneEnd parent).x, y := (getBoneEnd parent).y })) = _
  rw [hgp1, hs1]

/-- A legal `createBone` preserves the invariant. -/
theorem inv_createBone (s : Bones) (bid bname : String)
    (cx cy clen cangle : ℝ) (ty : BoneType) (pId : Option String) (hI : Inv s)
    (hfresh : getBone s bid = none)
    (hpar : ∀ pid, pId = some pid → getBone s pid ≠ none) :
    Inv (createBone s bid bname cx cy clen cangle ty pId) := by
  cases pId with
  | none =>
    rw [createBone_orphan_eq, setBone_absent s bid _ hfresh]
    exact inv_append_orphan s bid _ hI hfresh rfl rfl rfl
  | some pid =>
    cases hgp : getBone s pid with
    | none => exact absurd hgp (hpar pid rfl)
    | some parent0 =>
      rw [createBone_linked_eq s bid bname cx cy clen cangle ty pid parent0
        hfresh hgp]
      apply inv_skel ?_ (inv_create_linked s bid pid
        (mkBone bid bname cx cy clen cangle ty (some pid)) parent0 hI hfresh hgp
        rfl rfl rfl)
      exact updateBone_skel _ bid _ (fun b => ⟨rfl, rfl, rfl⟩)

/-- No bone is its own parent. -/
def NSP (s : Bones) : Prop :=
  ∀ k b, getBone s k = some b → ¬ b.parentId = some k

/-- Widening the exception set weakens backward consistency. -/
theorem backwardE_mono {s : Bones} {E E' : String → Prop}
    (h : ∀ k, E k → E' k) (hB : BackwardE s E) : BackwardE s E' := by
  intro k b hg hE p hp
  exact hB k b hg (fun hk => hE (h k hk)) p hp

/-- No-self-parent survives store shrinking. -/
theorem nsp_storeLE {s' s : Bones} (h : StoreLE s' s) (hnd : (keysOf s).Nodup)
    (hN : NSP s) : NSP s' := by
  intro k b' hg hp
  obtain ⟨b, hb, hr⟩ := storeLE_getBone_some h k b' hnd hg
  exact hN k b hb (by rw [← hr.2.1]; exact hp)

/-- The full invariant rules out self-parenting. -/
theorem nsp_of_inv (s : Bones) (hI : Inv s) : NSP s := by
  obtain ⟨⟨hnd, hkid, hF, ⟨hP, hIr⟩, hC⟩, hB⟩ := hI
  intro k b hg hp
  obtain ⟨pb, hpb, hmem2⟩ := hB k b hg (fun h => h) k hp
  rw [hg] at hpb
  obtain rfl := Option.some.inj hpb
  exact hIr (k, b) (mem_of_getBone s k b hg) hmem2

/-- A record-shrinking in-place mutation preserves the working invariant. -/
theorem wInv_shrink_update (s : Bones) (k : String) (g : BoneData → BoneData)
    (hg : ∀ b, ShrinkRec (g b) b) (hW : WInv s) :
    WInv (updateBone s k g) := by
  obtain ⟨hnd, hkid, hF, hO, hC⟩ := hW
  have hLE := storeLE_updateBone s k g hg
  have hGU := getBone_updateBone s k g
  refine ⟨?_, ?_, ?_, storeLE_order hLE ⟨hO.1, hO.2⟩, ?_⟩
  · rw [keysOf_updateBone]
    exact hnd
  · intro p' hp'
    obtain ⟨p, hp, hk1, hr⟩ := storeLE_mem hLE p' hp'
    rw [hr.1, hk1]
    exact hkid p hp
  · intro q b' hgq c hc
    by_cases hqk : q = k
    · subst hqk
      rw [hGU q, if_pos rfl] at hgq
      cases hgk : getBone s q with
      | none => rw [hgk] at hgq; exact Option.noConfusion hgq
      | some b =>
        rw [hgk] at hgq
        obtain rfl := Option.some.inj hgq
        have hcb := (hg b).2.2.subset hc
        obtain ⟨cb, hcb2, hcp⟩ := hF q b hgk c hcb
        by_cases hck : c = q
        · refine ⟨g b, ?_, ?_⟩
          · rw [hGU c, if_pos hck, hgk]
            rfl
          · rw [(hg b).2.1]
            rw [hck, hgk] at hcb2
            obtain rfl := Option.some.inj hcb2
            exact hcp
        · refine ⟨cb, ?_, hcp⟩
          rw [hGU c, if_neg hck]
          exact hcb2
    · rw [hGU q, if_neg hqk] at hgq
      obtain ⟨cb, hcb2, hcp⟩ := hF q b' hgq c hc
      by_cases hck : c = k
      · refine ⟨g cb, ?_, ?_⟩
        · rw [hGU c, if_pos hck]
          rw [hck] at hcb2
          rw [hcb2]
          rfl
        · rw [(hg cb).2.1]
          exact hcp
      · refine ⟨cb, ?_, hcp⟩
        rw [hGU c, if_neg hck]
        exact hcb2
  · exact hC.sublist (storeLE_allChildren hLE)

/-- Filtering one bone's children preserves backward consistency relative to
the exception set containing the filtered id. -/
theorem backwardE_childfilter (s : Bones) (pid bid : String)
    (E : String → Prop) (hB : BackwardE s (fun q => q = bid ∨ E q)) :
    BackwardE (updateBone s pid
      (fun p => { p with children := p.children.filter (fun c => c ≠ bid) }))
      (fun q => q = bid ∨ E q) := by
  have hGU := getBone_updateBone s pid
    (fun p => { p with children := p.children.filter (fun c => c ≠ bid) })
  intro k b' hg hE p hp
  have hknb : ¬ k = bid := fun h => hE (Or.inl h)
  by_cases hkp : k = pid
  · rw [hGU k, if_pos hkp] at hg
    cases hgk : getBone s pid with
    | none => rw [hgk] at hg; exact Option.noConfusion hg
    | some b =>
      rw [hgk] at hg
      obtain rfl := Option.some.inj hg
      have hp0 : b.parentId = some p := hp
      obtain ⟨pb, hpb, hmem2⟩ := hB k b (by rw [hkp]; exact hgk) hE p hp0
      by_cases hpp : p = pid
      · refine ⟨{ pb with children := pb.children.filter (fun c => c ≠ bid) },
          ?_, ?_⟩
        · rw [hGU p, if_pos hpp]
          rw [hpp] at hpb
          rw [hpb]
          rfl
        · rw [List.mem_filter]
          exact ⟨hmem2, by simp [hknb]⟩
      · refine ⟨pb, ?_, hmem2⟩
        rw [hGU p, if_neg hpp]
        exact hpb
  · rw [hGU k, if_neg hkp] at hg
    obtain ⟨pb, hpb, hmem2⟩ := hB k b' hg hE p hp
    by_cases hpp : p = pid
    · refine ⟨{ pb with children := pb.children.filter (fun c => c ≠ bid) },
        ?_, ?_⟩
      · rw [hGU p, if_pos hpp]
        rw [hpp] at hpb
        rw [hpb]
        rfl
      · rw [List.mem_filter]
        exact ⟨hmem2, by simp [hknb]⟩
    · refine ⟨pb, ?_, hmem2⟩
      rw [hGU p, if_neg hpp]
      exact hpb

/-- A root bone is listed in nobody's children. -/
theorem root_not_in_children (s : Bones) (bid : String) (bone : BoneData)
    (hnd : (keysOf s).Nodup) (hF : ForwardC s)
    (hg : getBone s bid = some bone) (hroot : bone.parentId = none) :
    bid ∉ allChildren s := by
  intro hc
  obtain ⟨q, hq, hcq⟩ := (mem_allChildren s bid).mp hc
  have hgq := getBone_of_mem_nodup s hnd q hq
  obtain ⟨cb, hcb, hcp⟩ := hF q.1 q.2 hgq bid hcq
  rw [hg] at hcb
  obtain rfl := Option.some.inj hcb
  rw [hroot] at hcp
  exact Option.noConfusion hcp

/-- After filtering a bone out of its parent's children, it is listed in
nobody's children. -/
theorem filtered_not_in_children (s : Bones) (bid pid : String)
    (bone : BoneData) (hnd : (keysOf s).Nodup) (hF : ForwardC s)
    (hg : getBone s bid = some bone) (hpar : bone.parentId = some pid) :
    bid ∉ allChildren (updateBone s pid
      (fun p => { p with children := p.children.filter (fun c => c ≠ bid) })) := by
  intro hc
  obtain ⟨q', hq', hcq⟩ := (mem_allChildren _ bid).mp hc
  simp only [updateBone, List.mem_map] at hq'
  obtain ⟨q, hq, rfl⟩ := hq'
  by_cases hqp : q.1 = pid
  · rw [if_pos hqp] at hcq
    have h2 := (List.mem_filter.mp hcq).2
    simp at h2
  · rw [if_neg hqp] at hcq
    have hgq := getBone_of_mem_nodup s hnd q hq
    obtain ⟨cb, hcb, hcp⟩ := hF q.1 q.2 hgq bid hcq
    rw [hg] at hcb
    obtain rfl := Option.some.inj hcb
    rw [hpar] at hcp
    exact hqp (Option.some.inj hcp).symm

/-- Under the working invariant, a bone's children sit strictly after it, so
the suffix after a child is strictly shorter. -/
theorem child_tailAfter_lt (s : Bones) (bid c : String) (bone : BoneData)
    (hnd : (keysOf s).Nodup) (hO : OrderW s) (hF : ForwardC s)
    (hg : getBone s bid = some bone) (hc : c ∈ bone.children) :
    getBone s c ≠ none ∧ (tailAfter s c).length < (tailAfter s bid).length := by
  have hg0 := hg
  rw [getBone] at hg
  cases hf : s.find? (fun p => p.1 = bid) with
  | none => rw [hf] at hg; exact Option.noConfusion hg
  | some pr =>
    rw [hf] at hg
    obtain ⟨u, v, hs, hu⟩ := find?_decompose _ s pr hf
    have hpr1 : pr.1 = bid := by simpa using List.find?_some hf
    have hpr2 : pr.2 = bone := by simpa using hg
    have hprm : pr ∈ s := by
      rw [hs]
      exact List.mem_append_right u (List.mem_cons_self pr v)
    have hcbid : ¬ c = bid := by
      intro h
      apply hO.2 pr hprm
      rw [hpr1, hpr2, ← h]
      exact hc
    have hcu : ∀ a ∈ u, ¬ a.1 = c := by
      intro a ha hac
      have hPa : a.1 ∉ pr.2.children := by
        have hP := hO.1
        rw [hs, List.pairwise_append] at hP
        exact hP.2.2 a ha pr (List.mem_cons_self pr v)
      rw [hpr2] at hPa
      exact hPa (hac.symm ▸ hc)
    obtain ⟨cb, hcb, _⟩ := hF bid bone hg0 c hc
    have hpres : getBone s c ≠ none := by
      rw [hcb]
      exact fun h => Option.noConfusion h
    have hubid : ∀ p ∈ u, ¬ p.1 = bid := by
      intro p hp
      have := hu p hp
      simp only [decide_eq_false_iff_not] at this
      exact this
    have hcv : c ∈ keysOf v := by
      have hck := mem_keysOf_of_getBone s c cb hcb
      rw [hs] at hck
      simp only [keysOf, List.map_append, List.map_cons, List.mem_append,
        List.mem_cons] at hck
      rcases hck with h1 | h1
      · obtain ⟨a, ha, hac⟩ := List.mem_map.mp h1
        exact absurd hac (hcu a ha)
      · rcases h1 with h2 | h2
        · exact absurd (h2.trans hpr1) hcbid
        · exact h2
    have ht1 : tailAfter s bid = v := by
      rw [hs, tailAfter_append u _ bid hubid, tailAfter, if_pos hpr1]
    have ht2 : tailAfter s c = tailAfter v c := by
      rw [hs, tailAfter_append u _ c hcu, tailAfter,
        if_neg (fun h => hcbid (h.symm.trans hpr1))]
    refine ⟨hpres, ?_⟩
    rw [ht1, ht2]
    exact tailAfter_length_lt v c (fun h => ((getBone_none_iff v c).mp h) hcv)

/-- `deleteBone` on a missing id leaves everything intact. -/
theorem deleteBone_inv_missing (s : Bones) (bid : String) (E : String → Prop)
    (hW : WInv s) (hB : BackwardE s (fun q => q = bid ∨ E q)) (hN : NSP s)
    (hg : getBone s bid = none) :
    WInv s ∧ StoreLE s s ∧ getBone s bid = none ∧ BackwardE s E ∧ NSP s ∧
      bid ∉ allChildren s := by
  refine ⟨hW, storeLE_refl s, hg, ?_, hN, ?_⟩
  · intro k b hgk hE p hp
    refine hB k b hgk ?_ p hp
    intro hor
    rcases hor with rfl | hEk
    · rw [hg] at hgk
      exact Option.noConfusion hgk
    · exact hE hEk
  · intro hc
    obtain ⟨q, hq, hcq⟩ := (mem_allChildren s bid).mp hc
    have hgq := getBone_of_mem_nodup s hW.1 q hq
    obtain ⟨cb, hcb, _⟩ := hW.2.2.1 q.1 q.2 hgq bid hcq
    rw [hg] at hcb
    exact Option.noConfusion hcb

/-- The shared tail of `deleteBone` on a present bone whose parent filter has
already been applied: recursively delete the children, then remove the entry.
The recursive behaviour of `deleteList` is abstracted as a hypothesis. -/
theorem deleteBone_inv_core (fuel : ℕ) (s1 : Bones) (bid : String)
    (bone : BoneData) (E : String → Prop)
    (ihList : ∀ (kids : List String) (s : Bones) (E0 : String → Prop),
      WInv s → BackwardE s E0 → NSP s →
      (∀ c ∈ kids, getBone s c ≠ none → (tailAfter s c).length < fuel) →
      WInv (deleteList fuel s kids) ∧ StoreLE (deleteList fuel s kids) s ∧
        BackwardE (deleteList fuel s kids) E0 ∧ NSP (deleteList fuel s kids) ∧
        (∀ c ∈ kids, getBone (deleteList fuel s kids) c = none) ∧
        (∀ c ∈ kids, c ∉ allChildren (deleteList fuel s kids)))
    (hW1 : WInv s1) (hB1 : BackwardE s1 (fun q => q = bid ∨ E q)) (hN1 : NSP s1)
    (hg1 : getBone s1 bid = some bone) (hnc1 : bid ∉ allChildren s1)
    (hfuel : (tailAfter s1 bid).length < fuel + 1) :
    WInv (removeBone (deleteList fuel s1 bone.children) bid) ∧
      StoreLE (removeBone (deleteList fuel s1 bone.children) bid) s1 ∧
      getBone (removeBone (deleteList fuel s1 bone.children) bid) bid = none ∧
      BackwardE (removeBone (deleteList fuel s1 bone.children) bid) E ∧
      NSP (removeBone (deleteList fuel s1 bone.children) bid) ∧
      bid ∉ allChildren (removeBone (deleteList fuel s1 bone.children) bid) := by
  have hkid_fuel : ∀ c ∈ bone.children, getBone s1 c ≠ none →
      (tailAfter s1 c).length < fuel := by
    intro c hc _
    obtain ⟨hW1a, hW1b⟩ := hW1
    have h := child_tailAfter_lt s1 bid c bone hW1a hW1b.2.2.1 hW1b.2.1 hg1 hc
    omega
  obtain ⟨hWe, hLEe, hBe, hNe, hke, hnce⟩ :=
    ihList bone.children s1 (fun q => q = bid ∨ E q) hW1 hB1 hN1 hkid_fuel
  obtain ⟨hnde, hkide, hFe, hOe, hCe⟩ := hWe
  have hbid_nce : bid ∉ allChildren (deleteList fuel s1 bone.children) :=
    fun h => hnc1 ((storeLE_allChildren hLEe).subset h)
  have hLEr := storeLE_removeBone (deleteList fuel s1 bone.children) bid
  refine ⟨?_, storeLE_trans hLEr hLEe, getBone_removeBone_self _ bid, ?_,
    nsp_storeLE hLEr hnde hNe, ?_⟩
  · refine ⟨(storeLE_keys hLEr).nodup hnde, ?_, ?_,
      storeLE_order hLEr hOe, hCe.sublist (storeLE_allChildren hLEr)⟩
    · intro p' hp'
      obtain ⟨p, hp, hk1, hr⟩ := storeLE_mem hLEr p' hp'
      rw [hr.1, hk1]
      exact hkide p hp
    · intro k b' hgk c hc
      by_cases hkb : k = bid
      · rw [hkb, getBone_removeBone_self] at hgk
        exact Option.noConfusion hgk
      · rw [getBone_removeBone_ne _ bid k hkb] at hgk
        obtain ⟨cb, hcb, hcp⟩ := hFe k b' hgk c hc
        have hcbid : ¬ c = bid := by
          intro h
          apply hbid_nce
          rw [← h]
          exact (mem_allChildren _ c).mpr ⟨(k, b'), mem_of_getBone _ k b' hgk, hc⟩
        refine ⟨cb, ?_, hcp⟩
        rw [getBone_removeBone_ne _ bid c hcbid]
        exact hcb
  · intro k b' hgk hEk p hp
    by_cases hkb : k = bid
    · rw [hkb, getBone_removeBone_self] at hgk
      exact Option.noConfusion hgk
    · rw [getBone_removeBone_ne _ bid k hkb] at hgk
      obtain ⟨pb, hpb, hmem2⟩ := hBe k b' hgk
        (fun hor => hor.elim hkb hEk) p hp
      by_cases hpbid : p = bid
      · rw [hpbid] at hpb
        obtain ⟨b0, hb0, hr0⟩ := storeLE_getBone_some hLEe bid pb hW1.1 hpb
        rw [hg1] at hb0
        obtain rfl := Option.some.inj hb0
        have hkmem : k ∈ bone.children := hr0.2.2.subset hmem2
        have hgone := hke k hkmem
        rw [hgone] at hgk
        exact Option.noConfusion hgk
      · refine ⟨pb, ?_, hmem2⟩
        rw [getBone_removeBone_ne _ bid p hpbid]
        exact hpb
  · intro hc
    exact hbid_nce ((storeLE_allChildren hLEr).subset hc)

/-- `deleteBone` preserves the working invariant, only shrinks the store,
removes its target, repairs backward consistency outside the exception set,
preserves no-self-parenting, and leaves no children reference to the target,
whenever the fuel exceeds the length of the store suffix after the target. -/
theorem deleteBone_inv :
    ∀ (fuel : ℕ) (s : Bones) (bid : String) (E : String → Prop),
      WInv s → BackwardE s (fun q => q = bid ∨ E q) → NSP s →
      (getBone s bid ≠ none → (tailAfter s bid).length < fuel) →
      WInv (deleteBone fuel s bid) ∧ StoreLE (deleteBone fuel s bid) s ∧
        getBone (deleteBone fuel s bid) bid = none ∧
        BackwardE (deleteBone fuel s bid) E ∧ NSP (deleteBone fuel s bid) ∧
        bid ∉ allChildren (deleteBone fuel s bid) := by
  intro fuel
  induction fuel with
  | zero =>
    intro s bid E hW hB hN hfuel
    cases hg : getBone s bid with
    | some b =>
      have h1 := hfuel (by rw [hg]; exact fun h => Option.noConfusion h)
      exact absurd h1 (by omega)
    | none =>
      have hD : deleteBone 0 s bid = s := by rw [deleteBone]
      rw [hD]
      exact deleteBone_inv_missing s bid E hW hB hN hg
  | succ fuel ih =>
    have ihList : ∀ (kids : List String) (s : Bones) (E0 : String → Prop),
        WInv s → BackwardE s E0 → NSP s →
        (∀ c ∈ kids, getBone s c ≠ none → (tailAfter s c).length < fuel) →
        WInv (deleteList fuel s kids) ∧ StoreLE (deleteList fuel s kids) s ∧
          BackwardE (deleteList fuel s kids) E0 ∧ NSP (deleteList fuel s kids) ∧
          (∀ c ∈ kids, getBone (deleteList fuel s kids) c = none) ∧
          (∀ c ∈ kids, c ∉ allChildren (deleteList fuel s kids)) := by
      intro kids
      induction kids with
      | nil =>
        intro s E0 hW hB hN _
        have hD : deleteList fuel s [] = s := by rw [deleteList]
        rw [hD]
        exact ⟨hW, storeLE_refl s, hB, hN,
          fun c hc => absurd hc (List.not_mem_nil c),
          fun c hc => absurd hc (List.not_mem_nil c)⟩
      | cons cid rest ihk =>
        intro s E0 hW hB hN hfuel
        have hD : deleteList fuel s (cid :: rest) =
            deleteList fuel (deleteBone fuel s cid) rest := by
          rw [deleteList]
        rw [hD]
        obtain ⟨hW1, hLE1, hnone1, hB1, hN1, hnc1⟩ :=
          ih s cid E0 hW (backwardE_mono (fun k hk => Or.inr hk) hB) hN
            (hfuel cid (List.mem_cons_self cid rest))
        obtain ⟨hW2, hLE2, hB2, hN2, hk2, hnc2⟩ :=
          ihk (deleteBone fuel s cid) E0 hW1 hB1 hN1
            (fun c hc hpres => by
              have hple : (tailAfter (deleteBone fuel s cid) c).length ≤
                  (tailAfter s c).length :=
                tailAfter_mono _ s c (storeLE_keys hLE1) hpres
              have hsp : getBone s c ≠ none := fun hn =>
                hpres (storeLE_getBone_none hLE1 c hn)
              have h2 := hfuel c (List.mem_cons_of_mem cid hc) hsp
              omega)
        refine ⟨hW2, storeLE_trans hLE2 hLE1, hB2, hN2, ?_, ?_⟩
        · intro c hc
          rcases List.mem_cons.mp hc with rfl | hc2
          · exact storeLE_getBone_none hLE2 c hnone1
          · exact hk2 c hc2
        · intro c hc
          rcases List.mem_cons.mp hc with rfl | hc2
          · exact fun hm => hnc1 ((storeLE_allChildren hLE2).subset hm)
          · exact hnc2 c hc2
    intro s bid E hW hB hN hfuel
    cases hg : getBone s bid with
    | none =>
      have hD : deleteBone (fuel + 1) s bid = s := by
        simp only [deleteBone, hg]
      rw [hD]
      exact deleteBone_inv_missing s bid E hW hB hN hg
    | some bone =>
      have hfuel1 : (tailAfter s bid).length < fuel + 1 :=
        hfuel (by rw [hg]; exact fun h => Option.noConfusion h)
      cases hpp : bone.parentId with
      | none =>
        have hD : deleteBone (fuel + 1) s bid =
            removeBone (deleteList fuel s bone.children) bid := by
          simp only [deleteBone, hg, hpp]
        rw [hD]
        exact deleteBone_inv_core fuel s bid bone E ihList hW hB hN hg
          (root_not_in_children s bid bone hW.1 hW.2.2.1 hg hpp) hfuel1
      | some pid =>
        have hpidbid : ¬ bid = pid := by
          intro h
          exact hN bid bone hg (by rw [hpp, h])
        have hG1 : getBone (updateBone s pid
            (fun p => { p with children := p.children.filter (fun c => c ≠ bid) }))
            bid = some bone := by
          rw [getBone_updateBone, if_neg hpidbid]
          exact hg
        have hD : deleteBone (fuel + 1) s bid =
            removeBone (deleteList fuel (updateBone s pid
              (fun p => { p with children := p.children.filter (fun c => c ≠ bid) }))
              bone.children) bid := by
          simp only [deleteBone, hg, hpp, hG1]
        rw [hD]
        have hshrink : ∀ b : BoneData, ShrinkRec
            ({ b with children := b.children.filter (fun c => c ≠ bid) }) b :=
          fun b => ⟨rfl, rfl, List.filter_sublist b.children⟩
        have hW1 := wInv_shrink_update s pid _ hshrink hW
        have hB1 := backwardE_childfilter s pid bid E hB
        have hN1 := nsp_storeLE (storeLE_updateBone s pid _ hshrink) hW.1 hN
        have hnc1 := filtered_not_in_children s bid pid bone hW.1 hW.2.2.1 hg hpp
        have hfuel2 : (tailAfter (updateBone s pid
            (fun p => { p with children := p.children.filter (fun c => c ≠ bid) }))
            bid).length < fuel + 1 := by
          rw [tailAfter_congr_keys _ s bid (keysOf_updateBone s pid _)]
          exact hfuel1
        obtain ⟨hWc, hLEc, hnonec, hBc, hNc, hncc⟩ :=
          deleteBone_inv_core fuel _ bid bone E ihList hW1 hB1 hN1 hG1 hnc1 hfuel2
        exact ⟨hWc, storeLE_trans hLEc (storeLE_updateBone s pid _ hshrink),
          hnonec, hBc, hNc, hncc⟩

/-- Top-level `deleteBone` (called with the store size as fuel) preserves the
full invariant. -/
theorem inv_deleteBone (s : Bones) (bid : String) (hI : Inv s) :
    Inv (deleteBone s.length s bid) := by
  have hN := nsp_of_inv s hI
  obtain ⟨hW, hB⟩ := hI
  obtain ⟨hW', hLE', hnone', hB2, hN', hnc'⟩ :=
    deleteBone_inv s.length s bid (fun _ => False) hW
      (backwardE_mono (fun k hk => Or.inr hk) hB) hN
      (fun hpres => tailAfter_length_lt s bid hpres)
  exact ⟨hW', hB2⟩

/-- The empty store satisfies the invariant. -/
theorem inv_empty : Inv ([] : Bones) := by
  refine ⟨⟨List.nodup_nil, ?_, ?_, ⟨List.Pairwise.nil, ?_⟩, List.nodup_nil⟩, ?_⟩
  · intro p hp
    exact absurd hp (List.not_mem_nil p)
  · intro k b hg
    rw [getBone] at hg
    simp at hg
  · intro p hp
    exact absurd hp (List.not_mem_nil p)
  · intro k b hg
    rw [getBone] at hg
    simp at hg

/-- Any single legal operation preserves the invariant. -/
theorem inv_execOp (s : Bones) (op : Op) (hI : Inv s) (hL : LegalOp s op) :
    Inv (execOp s op) := by
  cases op with
  | create bid bname cx cy clen cangle ty pId =>
    exact inv_createBone s bid bname cx cy clen cangle ty pId hI hL.1 hL.2
  | delete bid => exact inv_deleteBone s bid hI
  | move bid pos => exact inv_skel (moveBone_skel s bid pos) hI
  | setAngle bid a => exact inv_skel (setBoneAngle_skel s bid a) hI
  | ik bid target => exact inv_skel (solveIK_skel s bid target) hI

/-- Legal operation sequences preserve the invariant. -/
theorem inv_execOps : ∀ (ops : List Op) (s : Bones), Inv s → LegalSeq s ops →
    Inv (execOps s ops)
  | [], _, hI, _ => hI
  | op :: ops, s, hI, hL => by
    cases hL with
    | cons hop hseq =>
      show Inv (execOps (execOp s op) ops)
      exact inv_execOps ops (execOp s op) (inv_execOp s op hI hop) hseq

/-- The invariant yields the spec's bidirectional consistency. -/
theorem consistent_of_inv (s : Bones) (hI : Inv s) : Consistent s := by
  obtain ⟨⟨hnd, hkid, hF, hO, hC⟩, hB⟩ := hI
  intro k b hg
  have hid : b.id = k := hkid (k, b) (mem_of_getBone s k b hg)
  constructor
  · intro c hc
    obtain ⟨cb, hcb, hcp⟩ := hF k b hg c hc
    exact ⟨cb, hcb, by rw [hid]; exact hcp⟩
  · intro p hp
    obtain ⟨pb, hpb, hmem2⟩ := hB k b hg (fun h => h) p hp
    exact ⟨pb, hpb, by rw [hid]; exact hmem2⟩

/-- The store produced by a single dangling-parent `createBone`. -/
def c3bone : BoneData :=
  ⟨"b1", "b", 0, 0, 5, 0, "#00ff88", 3, some "ghost", [], .FK, false⟩

/-- Counterexample to C3 as stated: `createBone` with an unresolvable
`parentId` stores the dangling parent link (the spec's orphan-root fallback
keeps the raw `parentId` field), so the backward half of bidirectional
consistency already fails after a single operation on the empty hierarchy. -/
theorem createBone_dangling_inconsistent :
    ¬ Consistent (execOps []
      [Op.create "b1" "b" 0 0 5 0 BoneType.FK (some "ghost")]) := by
  have hstate : execOps []
      [Op.create "b1" "b" 0 0 5 0 BoneType.FK (some "ghost")] =
      [("b1", c3bone)] := rfl
  intro hcon
  rw [hstate] at hcon
  obtain ⟨-, hbwd⟩ :=
    hcon "b1" c3bone (getBone_cons_hit ("b1", c3bone) [] "b1" rfl)
  obtain ⟨pb, hpb, -⟩ := hbwd "ghost" rfl
  rw [getBone_cons_miss ("b1", c3bone) [] "ghost" (by decide)] at hpb
  exact Option.noConfusion hpb

/-- C3 (amended): starting from the empty hierarchy, after every sequence of
legal mutating operations — `createBone` with a fresh id and an absent or
resolvable `parentId`, plus arbitrary `deleteBone`, `moveBone`,
`setBoneAngle` and `solveIK` calls — the hierarchy is bidirectionally
consistent: every id in a bone's `children` names an existing bone whose
`parentId` equals that bone's id, and every set `parentId` names an existing
bone whose `children` contains the bone's id. -/
theorem hierarchy_consistent (ops : List Op) (h : LegalSeq [] ops) :
    Consistent (execOps [] ops) :=
  consistent_of_inv _ (inv_execOps ops [] inv_empty h)

/-- Witness operations for C3: two creates (one parented), an angle set, a
move, an IK solve, and a delete. -/
def c3ops : List Op :=
  [Op.create "a" "a" 0 0 1 0 BoneType.FK none,
   Op.create "b" "b" 0 0 1 0 BoneType.FK (some "a"),
   Op.setAngle "a" 1, Op.move "b" ⟨2, 3⟩, Op.ik "b" ⟨1, 1⟩, Op.delete "a"]

/-- Witness for C3: the witness sequence is legal, hence leaves a consistent
hierarchy. -/
theorem hierarchy_consistent_witness : Consistent (execOps [] c3ops) := by
  apply hierarchy_consistent
  refine LegalSeq.cons ⟨rfl, ?_⟩ (LegalSeq.cons ⟨rfl, ?_⟩ (LegalSeq.cons trivial
    (LegalSeq.cons trivial (LegalSeq.cons trivial (LegalSeq.cons trivial
      (LegalSeq.nil _))))))
  · intro pid h
    exact Option.noConfusion h
  · intro pid h
    obtain rfl := Option.some.inj h
    intro hn
    exact Option.noConfusion hn

end

end GS
